import Mathlib

/-!
Verification development for the Turbo-ECS storage engine.

This file gives a shallow embedding, in Lean 4, of the parts of the engine
that the specification's claims are about:

* `BitField` (src/src/data_structures/bit_field.rs),
* `RangeAllocator` (src/src/data_structures/range_allocator.rs),
* `ArchetypeStore` and `ArchetypeInstance`
  (src/src/archetypes/archetype_registry.rs, archetype_instance.rs),
* `EntityStore` (src/src/entities/entity_store.rs, entity_instance.rs) and the
  `EntityRegistry` add/remove-component path (src/src/entities/entity_registry.rs).

Machine integers (`u32`, `usize`) are modelled as `Nat`; every bit-level
operation masks explicitly where the 32-bit width matters.  Fallible code is
modelled with `Except`/`Option`; a Rust panic is an `Except.error`.  Word
vectors, BTree maps and hash maps become lists (a BTree map iterated in key
order becomes a start-sorted association list).
-/

namespace TurboECS

/-- Decidable equality for `Except`, used to evaluate concrete runs of the
fallible operations. -/
instance {ε α : Type} [DecidableEq ε] [DecidableEq α] :
    DecidableEq (Except ε α) := fun a b =>
  match a, b with
  | .ok x, .ok y =>
    if h : x = y then .isTrue (by rw [h]) else .isFalse (by simp [h])
  | .error x, .error y =>
    if h : x = y then .isTrue (by rw [h]) else .isFalse (by simp [h])
  | .ok _, .error _ => .isFalse (by simp)
  | .error _, .ok _ => .isFalse (by simp)

/-! ## BitField (src/src/data_structures/bit_field.rs) -/

/-- Word size of the backing vector (`const BITS: usize = 32`). -/
def BITS : Nat := 32

/-- The all-ones 32-bit word (`const ALL_BITS_SET: u32 = u32.MAX`). -/
def ALL_BITS_SET : Nat := 2 ^ 32 - 1

/-- The most significant bit of a 32-bit word (`const FIRST_BIT: u32 = 1 << 31`). -/
def FIRST_BIT : Nat := 2 ^ 31

/-- Bitwise complement of a 32-bit word (`!v` on `u32`), as a `Nat`. -/
def u32not (v : Nat) : Nat := Nat.xor ALL_BITS_SET v

/-- A dynamically sized bit-field backed by a vector of 32-bit words.
Bit `i` lives in word `i / 32` under mask `1 <<< (31 - i % 32)`. -/
structure BitField where
  values : List Nat
deriving Repr, DecidableEq

/-- All stored words fit in 32 bits; guaranteed by the `u32` representation
in the source, stated explicitly over the `Nat` model. -/
def BitField.WFwords (b : BitField) : Prop := ∀ w ∈ b.values, w < 2 ^ 32

instance (b : BitField) : Decidable b.WFwords :=
  inferInstanceAs (Decidable (∀ w ∈ b.values, w < 2 ^ 32))

instance : Inhabited BitField := ⟨⟨[]⟩⟩

/-- `BitField::new` / `BitField::default`. -/
def BitField.new : BitField := ⟨[]⟩

/-- `BitField::get` (via `get_inlined`): false beyond the current capacity. -/
def BitField.get (b : BitField) (i : Nat) : Bool :=
  let position := i / BITS
  let shift := i % BITS
  match b.values[position]? with
  | some w => Nat.land w (FIRST_BIT >>> shift) != 0
  | none => false

/-- `BitField::set` (via `set_inlined`): grows the word vector as needed when
setting to true, and is a no-op beyond capacity when setting to false. -/
def BitField.set (b : BitField) (i : Nat) (value : Bool) : BitField :=
  let position := i / BITS
  let bit := FIRST_BIT >>> (i % BITS)
  match value with
  | true =>
    let vs :=
      if b.values.length ≤ position then
        b.values ++ List.replicate (position + 1 - b.values.length) 0
      else b.values
    ⟨vs.set position (Nat.lor (vs.getD position 0) bit)⟩
  | false =>
    if b.values.length ≤ position then b
    else ⟨b.values.set position (Nat.land (b.values.getD position 0) (u32not bit))⟩

/-- `BitField::set_inlined_unchecked`: never grows.  The source is UB when
`i` is out of capacity; all callers keep `i` in capacity, and the model makes
the out-of-range case a no-op. -/
def BitField.setUnchecked (b : BitField) (i : Nat) (value : Bool) : BitField :=
  let position := i / BITS
  let bit := FIRST_BIT >>> (i % BITS)
  if position < b.values.length then
    match value with
    | true => ⟨b.values.set position (Nat.lor (b.values.getD position 0) bit)⟩
    | false => ⟨b.values.set position (Nat.land (b.values.getD position 0) (u32not bit))⟩
  else b

/-- `BitField::set_batch_unchecked`. -/
def BitField.setBatch (b : BitField) (indices : List Nat) (value : Bool) : BitField :=
  indices.foldl (fun acc i => acc.setUnchecked i value) b

/-- `BitField::is_subset_of`, exactly as in the source: false when either word
vector is empty, otherwise an `any` over the zipped word pairs. -/
def BitField.isSubsetOf (a other : BitField) : Bool :=
  if a.values.isEmpty || other.values.isEmpty then false
  else (a.values.zip other.values).any (fun p => Nat.land p.2 p.1 == p.1)

/-- `BitField::clear`: `values.fill(0)` keeps the length. -/
def BitField.clear (b : BitField) : BitField :=
  ⟨b.values.map (fun _ => 0)⟩

/-- `BitField::ensure_capacity`. -/
def BitField.ensureCapacity (b : BitField) (capacity : Nat) : BitField :=
  if b.values.length * BITS < capacity then
    let count0 := capacity / BITS
    let count := if count0 * BITS < capacity then count0 + 1 else count0
    ⟨b.values ++ List.replicate (count - b.values.length) 0⟩
  else b

/-- `BitField::capacity`. -/
def BitField.capacity (b : BitField) : Nat := b.values.length * BITS

/-- `BitField::reserve`. -/
def BitField.reserve (b : BitField) (count : Nat) : BitField :=
  let n0 := count / BITS
  let n := if n0 * BITS < count then n0 + 1 else n0
  ⟨b.values ++ List.replicate n 0⟩

/-- `BitField::copy_from`.

Modelled from the spec: `copy_from` is called by
`ArchetypeStore::get_archetype_transition` in
src/src/archetypes/archetype_registry.rs but its definition is not present
under src/.  The spec describes a BitField as an ordered sequence of bits;
copying one bitfield from another makes the destination encode the source's
bit sequence, so the model replaces the destination's word vector with the
source's. -/
def BitField.copyFrom (_dst src : BitField) : BitField := ⟨src.values⟩

/-- `impl PartialEq for BitField`: word lists compared up to the shorter
length, with the longer one's tail required to be all zero. -/
def BitField.beq (a b : BitField) : Bool :=
  if a.values.length = b.values.length then a.values == b.values
  else if a.values.length < b.values.length then
    decide (a.values = b.values.take a.values.length) &&
      (b.values.drop a.values.length).all (· == 0)
  else
    decide (a.values.take b.values.length = b.values) &&
      (a.values.drop b.values.length).all (· == 0)

/-- Index of the last nonzero word (the `last` computed by `impl Hash for
BitField`): the first index, scanning from the top, whose word is nonzero. -/
def lastNonzeroIdx (l : List Nat) : Option Nat :=
  (List.range l.length).reverse.find? (fun i => l.getD i 0 != 0)

/-- `impl Hash for BitField`: the exact sequence of words fed to the hasher
(`values[0..last]`, nothing when every word is zero).  Two BitFields hash to
the same value whenever these sequences coincide. -/
def BitField.hashWords (b : BitField) : List Nat :=
  match lastNonzeroIdx b.values with
  | some last => b.values.take last
  | none => []

/-! ### BitFieldRangeIterator (`iter_ranges`) -/

/-- Fuel-driven base-2 logarithm worker (structural, so that the kernel can
evaluate it; `Nat.log2` itself is defined by well-founded recursion). -/
def log2Go : Nat → Nat → Nat
  | _, 0 => 0
  | n, fuel + 1 => if 2 ≤ n then log2Go (n / 2) fuel + 1 else 0

/-- Base-2 logarithm of a 32-bit word (agrees with `Nat.log2` below `2^32`). -/
def log2u32 (n : Nat) : Nat := log2Go n 32

/-- The local `find_first_bit` of `BitFieldRangeIterator::next`:
`u32::MAX.overflowing_shr(start)` overflows when `start ≥ 32`, and
`check.leading_zeros()` on a nonzero `u32` is `31 - log2 check`. -/
def findFirstBit (value start : Nat) : Option Nat :=
  if 32 ≤ start then none
  else
    let mask := ALL_BITS_SET >>> start
    let check := Nat.land value mask
    if check = 0 then none else some (31 - log2u32 check)

/-- The local `find_last_bit` of `BitFieldRangeIterator::next`: like
`find_first_bit` but on the complemented word. -/
def findLastBit (value start : Nat) : Option Nat :=
  if 32 ≤ start then none
  else
    let mask := ALL_BITS_SET >>> start
    let check := Nat.land (u32not value) mask
    if check = 0 then none else some (31 - log2u32 check)

/-- Mutable cursor of `BitFieldRangeIterator` (`index`, `sub_index`). -/
structure BFRangeIter where
  index : Nat
  subIndex : Nat
deriving Repr, DecidableEq

/-- Structural worker for `skipZeros`, walking the word suffix. -/
def skipZerosGo : List Nat → Nat → Nat
  | [], idx => idx
  | w :: rest, idx => if w = 0 then skipZerosGo rest (idx + 1) else idx

/-- The zero-word skipping loop at the top of `next`: first word index at or
after `i` holding a nonzero word, or the length. -/
def skipZeros (values : List Nat) (i : Nat) : Nat :=
  skipZerosGo (values.drop i) i

/-- The cross-word loop in the `last_bit = None` arm of `next`: swallows
all-ones words, then closes the range at the first clear bit of the next
word.  Returns `(end, new index, new subIndex)`; `none` models the
`unwrap` (unreachable for words below `2 ^ 32`). -/
def crossLoopGo : List Nat → Nat → Nat → Nat → Option (Nat × Nat × Nat)
  | [], index, e, subIdx => some (e, index, subIdx)
  | v :: rest, index, e, subIdx =>
    if v = ALL_BITS_SET then crossLoopGo rest (index + 1) (e + BITS) subIdx
    else
      match findLastBit v 0 with
      | some last => some (e + last, index, last + 1)
      | none => none

/-- Entry point of the cross-word loop at word `index` of `values`. -/
def crossLoop (values : List Nat) (index e subIdx : Nat) :
    Option (Nat × Nat × Nat) :=
  crossLoopGo (values.drop index) index e subIdx

/-- `BitFieldRangeIterator::next`, as a step function from a cursor to an
optional yielded half-open range and successor cursor. -/
def bfNext (values : List Nat) (st : BFRangeIter) :
    Option ((Nat × Nat) × BFRangeIter) :=
  if values.length ≤ st.index then none
  else
    let index := skipZeros values st.index
    let subIndex := if index = st.index then st.subIndex else 0
    if values.length ≤ index then none
    else
      let value := values.getD index 0
      match findFirstBit value subIndex with
      | none => none
      | some firstBit =>
        let start := index * BITS + firstBit
        match findLastBit value firstBit with
        | some lastBit =>
          some ((start, index * BITS + lastBit), ⟨index, lastBit + 1⟩)
        | none =>
          match crossLoop values (index + 1) ((index + 1) * BITS) subIndex with
          | some (e, idx2, sub2) => some ((start, e), ⟨idx2, sub2⟩)
          | none => none

/-- Driving loop collecting everything the iterator yields.  The fuel only
bounds the number of `next` calls; it is generous enough for every word
vector (each yielded range strictly advances the cursor). -/
def iterRangesGo (values : List Nat) : BFRangeIter → Nat → List (Nat × Nat)
  | _, 0 => []
  | st, fuel + 1 =>
    match bfNext values st with
    | none => []
    | some (r, st') => r :: iterRangesGo values st' fuel

/-- `BitField::iter_ranges`, collected into the list of yielded ranges. -/
def BitField.iterRanges (b : BitField) : List (Nat × Nat) :=
  iterRangesGo b.values ⟨0, 0⟩ (b.values.length * 33 + 1)

/-! ## RangeAllocator (src/src/data_structures/range_allocator.rs)

The `BTreeMap<usize, Range>` of free ranges, iterated in key order, is
modelled as a start-sorted association list of half-open `(start, end)`
pairs; the key of each entry is its start. -/

/-- Length of a half-open `usize` range (`Range::len`). -/
def rlen (r : Nat × Nat) : Nat := r.2 - r.1

/-- `BTreeMap::get`: the entry whose key (start) is `k`. -/
def lookupStart (ranges : List (Nat × Nat)) (k : Nat) : Option (Nat × Nat) :=
  ranges.find? (fun p => p.1 == k)

/-- `BTreeMap::remove`: drop the entry keyed `k` (keys are unique). -/
def removeKey (ranges : List (Nat × Nat)) (k : Nat) : List (Nat × Nat) :=
  ranges.eraseP (fun p => p.1 == k)

/-- `BTreeMap::insert`: sorted insertion by start, replacing an entry with
an equal key. -/
def insertSorted : List (Nat × Nat) → (Nat × Nat) → List (Nat × Nat)
  | [], p => [p]
  | q :: rest, p =>
    if p.1 < q.1 then p :: q :: rest
    else if p.1 = q.1 then p :: rest
    else q :: insertSorted rest p

/-- The `find_map` over free ranges looking for one that ends at `x`
(returns its key, i.e. its start). -/
def findEnd (ranges : List (Nat × Nat)) (x : Nat) : Option Nat :=
  (ranges.find? (fun p => p.2 == x)).map (·.1)

/-- Mutation through `get_mut`: replace the end of the entry keyed `k`. -/
def setEnd (ranges : List (Nat × Nat)) (k newEnd : Nat) : List (Nat × Nat) :=
  ranges.map (fun p => if p.1 = k then (p.1, newEnd) else p)

/-- Mutation through `get_mut`: add `delta` to the end of the entry keyed
`k` (`extend.end += range.len()`). -/
def addToEnd (ranges : List (Nat × Nat)) (k delta : Nat) : List (Nat × Nat) :=
  ranges.map (fun p => if p.1 = k then (p.1, p.2 + delta) else p)

/-- A simple memory management utility over the interval `[0, capacity)`. -/
structure RangeAllocator where
  used : Nat
  capacity : Nat
  ranges : List (Nat × Nat)
deriving Repr, DecidableEq

instance : Inhabited RangeAllocator := ⟨⟨0, 0, []⟩⟩

namespace RangeAllocator

/-- `RangeAllocator::new` / `default`. -/
def new : RangeAllocator := ⟨0, 0, []⟩

/-- `RangeAllocator::with_capacity`. -/
def withCapacity (capacity : Nat) : RangeAllocator :=
  if capacity = 0 then new
  else ⟨0, capacity, [(0, capacity)]⟩

/-- `RangeAllocator::available` (`capacity - used`, truncated as in `usize`
under the `used ≤ capacity` invariant). -/
def available (a : RangeAllocator) : Nat := a.capacity - a.used

/-- The private `RangeAllocator::allocate_new`: grow the capacity and hand
out the fresh tail range without touching the free-range map. -/
def allocateNew (a : RangeAllocator) (size : Nat) : (Nat × Nat) × RangeAllocator :=
  ((a.capacity, a.capacity + size),
    { a with capacity := a.capacity + size, used := a.used + size })

/-- `RangeAllocator::try_allocate`: first-fit by start; split the chosen free
range; on failure return the deficit. -/
def tryAllocate (a : RangeAllocator) (size : Nat) :
    Except Nat ((Nat × Nat) × RangeAllocator) :=
  match a.ranges.find? (fun p => size ≤ rlen p) with
  | some p =>
    let usedRange := (p.1, p.1 + size)
    let rest := (p.1 + size, p.2)
    let ranges := removeKey a.ranges p.1
    let ranges := if rest.1 < rest.2 then insertSorted ranges rest else ranges
    .ok (usedRange, { a with used := a.used + size, ranges })
  | none => .error (size - a.available)

/-- `RangeAllocator::allocate`. -/
def allocate (a : RangeAllocator) (size : Nat) : (Nat × Nat) × RangeAllocator :=
  match a.tryAllocate size with
  | .ok r => r
  | .error _ => a.allocateNew size

/-- Phase 1 of `allocate_fragmented`: walk the free ranges in key order,
consuming whole ranges while they are smaller than the remainder, then split
the first sufficient one and stop.  Mirrors the `for range in
self.ranges.values()` loop (the map is only mutated right before its
`break`).  Returns the output ranges pushed, the remainder, and the state. -/
def allocFragLoop :
    List (Nat × Nat) → List (Nat × Nat) → Nat → RangeAllocator →
    List (Nat × Nat) × Nat × RangeAllocator
  | [], out, remaining, st => (out, remaining, st)
  | r :: rest, out, remaining, st =>
    if remaining = 0 then (out, remaining, st)
    else if rlen r < remaining then
      allocFragLoop rest (out ++ [r]) (remaining - rlen r)
        { st with used := st.used + rlen r }
    else
      let newRange := (r.1 + remaining, r.2)
      let st := { st with ranges := removeKey st.ranges r.1 }
      let st :=
        if newRange.1 < newRange.2 then
          { st with ranges := insertSorted st.ranges newRange }
        else st
      (out ++ [(r.1, r.1 + remaining)], 0,
        { st with used := st.used + remaining })

/-- `RangeAllocator::allocate_fragmented` (the output vector starts empty, as
at every call site).  After the loop, a still-nonzero remainder is taken from
`allocate_new` and merged into the last output range when adjacent; finally
every output range's start is removed from the free map. -/
def allocateFragmented (a : RangeAllocator) (size : Nat) :
    List (Nat × Nat) × RangeAllocator :=
  let (out, remaining, st) := allocFragLoop a.ranges [] size a
  let (out, st) :=
    if remaining ≠ 0 then
      if out.isEmpty then
        let (r, st) := st.allocateNew remaining
        (out ++ [r], st)
      else
        let idx := out.length - 1
        let (r, st) := st.allocateNew remaining
        if (out.getD idx (0, 0)).2 = r.1 then
          (out.set idx ((out.getD idx (0, 0)).1, r.2), st)
        else (out ++ [r], st)
    else (out, st)
  (out, { st with ranges := out.foldl (fun rs x => removeKey rs x.1) st.ranges })

/-- `RangeAllocator::try_allocate_fragmented`: deficit check up front, no
mutation on failure. -/
def tryAllocateFragmented (a : RangeAllocator) (size : Nat) :
    Except Nat (List (Nat × Nat) × RangeAllocator) :=
  if a.available < size then .error (size - a.available)
  else .ok (a.allocateFragmented size)

/-- `RangeAllocator::free`: coalesce with the free range starting exactly at
`range.end` and/or the free range ending exactly at `range.start`. -/
def free (a : RangeAllocator) (range : Nat × Nat) : RangeAllocator :=
  if range.2 ≤ range.1 then a
  else
    match lookupStart a.ranges range.2 with
    | some extend0 =>
      let key := extend0.1
      let extend := (extend0.1 - rlen range, extend0.2)
      let used := a.used - rlen range
      let ranges := removeKey a.ranges key
      match findEnd ranges extend.1 with
      | none => { a with used, ranges := insertSorted ranges extend }
      | some k => { a with used, ranges := setEnd ranges k extend.2 }
    | none =>
      match findEnd a.ranges range.1 with
      | some k =>
        { a with used := a.used - rlen range,
                 ranges := addToEnd a.ranges k (rlen range) }
      | none =>
        { a with used := a.used - rlen range,
                 ranges := insertSorted a.ranges range }

/-- `RangeAllocator::reserve`: append one free range at the old capacity. -/
def reserve (a : RangeAllocator) (size : Nat) : RangeAllocator :=
  { a with capacity := a.capacity + size,
           ranges := insertSorted a.ranges (a.capacity, a.capacity + size) }

/-- `RangeAllocator::ensure_capacity`. -/
def ensureCapacity (a : RangeAllocator) (capacity : Nat) : RangeAllocator :=
  if a.capacity < capacity then a.reserve (capacity - a.capacity) else a

/-- `RangeAllocator::free_ranges` (the map's values in key order). -/
def freeRanges (a : RangeAllocator) : List (Nat × Nat) := a.ranges

/-- `UsedRangeIterator`: walk the free ranges in key order and yield the
nonempty gaps, plus the tail up to the capacity. -/
def usedRangesGo (cap : Nat) : Nat → List (Nat × Nat) → List (Nat × Nat)
  | lst, [] => if lst ≠ cap then [(lst, cap)] else []
  | lst, f :: rest =>
    let range := (lst, f.1)
    if range.1 < range.2 then range :: usedRangesGo cap f.2 rest
    else usedRangesGo cap f.2 rest

/-- `RangeAllocator::used_ranges`, collected into a list. -/
def usedRanges (a : RangeAllocator) : List (Nat × Nat) :=
  usedRangesGo a.capacity 0 a.ranges

end RangeAllocator

/-! ## Components and archetypes
(src/src/components/component_type.rs, src/src/archetypes/archetype_instance.rs,
src/src/archetypes/archetype_registry.rs)

`ComponentType` compares and hashes by its `ComponentId` alone, and within a
process the `ComponentId` and the `TypeId` determine each other, so a
component type is modelled by its id. -/

/-- A `ComponentType`, reduced to its runtime id. -/
structure CompT where
  id : Nat
deriving Repr, DecidableEq

/-- An `EntityQueryData`: the compiled include/exclude bitfield pair of a
query. -/
structure QueryData where
  incl : BitField
  excl : BitField
deriving Repr, DecidableEq

/-- `ArchetypeTransitionKind`. -/
inductive TransitionKind where
  | add
  | remove
deriving Repr, DecidableEq

/-- An `ArchetypeTransition` (`archetype` is the `Archetype` handle's index). -/
structure ArchetypeTransition where
  archetype : Nat
  component : CompT
  kind : TransitionKind
deriving Repr, DecidableEq

/-- The `HashMap` buffer construction of `ArchetypeInstance::with_capacity`:
walk the component list, skip a component whose bit is already set, otherwise
set its bit and add a column for it.  Returns the final component bitfield
and the column keys in insertion order. -/
def buildColumns : List CompT → BitField → List Nat → BitField × List Nat
  | [], bf, cols => (bf, cols)
  | t :: rest, bf, cols =>
    if bf.get t.id then buildColumns rest bf cols
    else buildColumns rest (bf.set t.id true) (cols ++ [t.id])

/-- An `ArchetypeInstance`: the columnar table for one component set.
`AnyBuffer` columns are modelled by their key set (`buffers`); the byte
contents of columns are outside the model's scope. -/
structure ArchetypeInstanceM where
  id : Nat
  bitfield : BitField
  allocator : RangeAllocator
  component_bitfield : BitField
  components : List CompT
  buffers : List Nat
deriving Repr, DecidableEq

instance : Inhabited ArchetypeInstanceM :=
  ⟨⟨0, BitField.new, RangeAllocator.new, BitField.new, [], []⟩⟩

namespace ArchetypeInstanceM

/-- `ArchetypeInstance::with_capacity`. -/
def withCapacity (id : Nat) (components : List CompT) (capacity : Nat) :
    ArchetypeInstanceM :=
  let (component_bitfield, buffers) := buildColumns components BitField.new []
  { id
    bitfield := BitField.new.ensureCapacity capacity
    allocator := RangeAllocator.withCapacity capacity
    component_bitfield
    components
    buffers }

/-- `ArchetypeInstance::new`. -/
def mk0 (id : Nat) (components : List CompT) : ArchetypeInstanceM :=
  withCapacity id components 0

/-- `ArchetypeInstance::matches_query`. -/
def matchesQuery (inst : ArchetypeInstanceM) (set : BitField) : Bool :=
  set.isSubsetOf inst.component_bitfield

/-- `ArchetypeInstance::ensure_capacity`. -/
def ensureCapacity (inst : ArchetypeInstanceM) (capacity : Nat) :
    ArchetypeInstanceM :=
  if inst.allocator.capacity < capacity then
    { inst with
        bitfield := inst.bitfield.ensureCapacity capacity
        allocator := inst.allocator.ensureCapacity capacity }
  else inst

/-- `ArchetypeInstance::take_slots_no_init` (the output vector is cleared on
entry; `AnyBuffer::ensure_capacity` and the entity back-reference vector are
outside the model). -/
def takeSlotsNoInit (inst : ArchetypeInstanceM) (count : Nat) :
    List (Nat × Nat) × ArchetypeInstanceM :=
  match inst.allocator.tryAllocateFragmented count with
  | .ok (ranges, alloc) => (ranges, { inst with allocator := alloc })
  | .error _ =>
    let (ranges, alloc) := inst.allocator.allocateFragmented count
    (ranges,
      { inst with allocator := alloc,
                  bitfield := inst.bitfield.ensureCapacity alloc.capacity })

/-- `ArchetypeInstance::take_slots` (default construction of the new slots
touches only column contents, which are outside the model). -/
def takeSlots (inst : ArchetypeInstanceM) (count : Nat) :
    List (Nat × Nat) × ArchetypeInstanceM :=
  inst.takeSlotsNoInit count

/-- `ArchetypeInstance::return_slots`: dedup the slots through the scratch
bitfield, then free each of the scratch's set-bit ranges (dropping column
values is outside the model). -/
def returnSlots (inst : ArchetypeInstanceM) (slots : List Nat) :
    ArchetypeInstanceM :=
  let bf := (inst.bitfield.clear).setBatch slots true
  let alloc := bf.iterRanges.foldl (fun a r => a.free r) inst.allocator
  { inst with bitfield := bf, allocator := alloc }

/-- `ArchetypeInstance::return_slot_no_drop`. -/
def returnSlotNoDrop (inst : ArchetypeInstanceM) (slot : Nat) :
    ArchetypeInstanceM :=
  { inst with allocator := inst.allocator.free (slot, slot + 1) }

/-- `ArchetypeInstance::get_component::<T>` at a slot, by column key: `none`
when the archetype has no column for the type. -/
def getComponent (inst : ArchetypeInstanceM) (tid : Nat) (slot : Nat) :
    Option (Nat × Nat) :=
  if tid ∈ inst.buffers then some (inst.id, slot) else none

end ArchetypeInstanceM

/-- Association-list lookup keyed by `BitField` equality (`HashMap<BitField,
Archetype>`: hashing respects `PartialEq`, so lookup is by `beq`). -/
def lookupMap (map : List (BitField × Nat)) (key : BitField) : Option Nat :=
  (map.find? (fun p => p.1.beq key)).map (·.2)

/-- Association-list lookup for the query match cache. -/
def lookupQueries (queries : List (Nat × List Nat)) (q : Nat) :
    Option (List Nat) :=
  (queries.find? (fun p => p.1 == q)).map (·.2)

/-- Association-list lookup for the transition cache (`ArchetypeTransition`
compares by archetype index, component id and kind). -/
def lookupTransitions (transitions : List (ArchetypeTransition × Nat))
    (t : ArchetypeTransition) : Option Nat :=
  (transitions.find? (fun p => p.1 == t)).map (·.2)

/-- `ArchetypeStore`. -/
structure ArchetypeStoreM where
  bf : BitField
  vec : List ArchetypeInstanceM
  map : List (BitField × Nat)
  queries : List (Nat × List Nat)
  transitions : List (ArchetypeTransition × Nat)
deriving Repr, DecidableEq

/-- `Archetype::default()` (`#[derive(Default)]` on `struct Archetype {
index: usize }`). -/
def archetypeDefault : Nat := 0

namespace ArchetypeStoreM

/-- `ArchetypeStore::new`: one empty archetype at index 0, registered in the
deduplication map under the empty bitfield. -/
def new : ArchetypeStoreM :=
  { bf := BitField.new
    vec := [ArchetypeInstanceM.mk0 0 []]
    map := [(BitField.new, archetypeDefault)]
    queries := []
    transitions := [] }

/-- `ArchetypeStore::create_archetype_with_capacity`.  The query environment
`qenv` stands for the process-wide `QUERY_TO_DATA` table
(src/src/entities/entity_query.rs): it maps a query handle to its compiled
include/exclude bitfields. -/
def createArchetypeWithCapacity (qenv : Nat → QueryData) (s : ArchetypeStoreM)
    (components : List CompT) (minCapacity : Nat) : ArchetypeStoreM × Nat :=
  let bf := components.foldl (fun b t => b.set t.id true) s.bf.clear
  match lookupMap s.map bf with
  | some archetype =>
    let vec := s.vec.set archetype
      ((s.vec.getD archetype default).ensureCapacity minCapacity)
    ({ s with bf, vec }, archetype)
  | none =>
    let index := s.vec.length
    let inst := ArchetypeInstanceM.withCapacity index components minCapacity
    let queries := s.queries.map (fun p =>
      if ¬ (inst.matchesQuery (qenv p.1).incl) then p
      else if inst.matchesQuery (qenv p.1).excl then p
      else (p.1, p.2 ++ [index]))
    ({ bf
       vec := s.vec ++ [inst]
       map := (bf, index) :: s.map
       queries
       transitions := s.transitions }, index)

/-- `ArchetypeStore::create_archetype`. -/
def createArchetype (qenv : Nat → QueryData) (s : ArchetypeStoreM)
    (components : List CompT) : ArchetypeStoreM × Nat :=
  createArchetypeWithCapacity qenv s components 0

/-- `ArchetypeStore::init_query`: scan every archetype against the query's
masks and cache the matching indices. -/
def initQuery (qenv : Nat → QueryData) (s : ArchetypeStoreM) (q : Nat) :
    ArchetypeStoreM :=
  let data := qenv q
  let indices := (List.range s.vec.length).filter (fun i =>
    let a := s.vec.getD i default
    a.matchesQuery data.incl && ¬ a.matchesQuery data.excl)
  { s with queries := (q, indices) :: s.queries }

/-- The cache-initialization step of `ArchetypeStore::query`. -/
def queryOp (qenv : Nat → QueryData) (s : ArchetypeStoreM) (q : Nat) :
    ArchetypeStoreM :=
  if (lookupQueries s.queries q).isSome then s else initQuery qenv s q

/-- `ArchetypeStore::get_archetype_transition`: transition-cache fast path,
then the bit check, the deduplication-map lookup on the target bitfield, and
materialization (with cache fill) as a last resort.  Returns the `(src,
dst)` archetype index pair. -/
def getArchetypeTransition (qenv : Nat → QueryData) (s : ArchetypeStoreM)
    (t : ArchetypeTransition) : Option (Nat × Nat) × ArchetypeStoreM :=
  match lookupTransitions s.transitions t with
  | some archetype => (some (t.archetype, archetype), s)
  | none =>
    match t.kind with
    | .add =>
      let src := s.vec.getD t.archetype default
      if src.component_bitfield.get t.component.id then (none, s)
      else
        let bf := (s.bf.copyFrom src.component_bitfield).set t.component.id true
        let s := { s with bf }
        match lookupMap s.map bf with
        | some archetype => (some (t.archetype, archetype), s)
        | none =>
          let components := src.components ++ [t.component]
          let (s, archetype) := createArchetype qenv s components
          let s := { s with transitions := (t, archetype) :: s.transitions }
          (some (t.archetype, archetype), s)
    | .remove =>
      let src := s.vec.getD t.archetype default
      if ¬ src.component_bitfield.get t.component.id then (none, s)
      else
        let bf := (s.bf.copyFrom src.component_bitfield).set t.component.id false
        let s := { s with bf }
        match lookupMap s.map bf with
        | some archetype => (some (t.archetype, archetype), s)
        | none =>
          let components :=
            src.components.eraseP (fun c => c.id == t.component.id)
          let (s, archetype) := createArchetype qenv s components
          let s := { s with transitions := (t, archetype) :: s.transitions }
          (some (t.archetype, archetype), s)

end ArchetypeStoreM

/-! ## EntityStore (src/src/entities/entity_store.rs, entity_instance.rs)

The `EntityInstanceVec` is kept as its three parallel vectors.  An `Entity`
handle is the pair `(index, version)`.  A Rust panic (a failed
`assert_entity` / `assert_entity_version`, or an out-of-bounds instance
access) is modelled as `Except.error ()`. -/

/-- The list of indices of a half-open range, in ascending order. -/
def rangeToList (r : Nat × Nat) : List Nat := List.range' r.1 (r.2 - r.1)

/-- `EntityStore`. -/
structure EntityStoreM where
  allocator : RangeAllocator
  slots : List Nat
  versions : List Nat
  archetypes : List Nat
  store : ArchetypeStoreM
  bitfield : BitField
deriving Repr, DecidableEq

namespace EntityStoreM

/-- `EntityStore::new`. -/
def new : EntityStoreM :=
  { allocator := RangeAllocator.new
    slots := []
    versions := []
    archetypes := []
    store := ArchetypeStoreM.new
    bitfield := BitField.new }

/-- Replace one archetype instance in the store (`archetype_store.get_mut`). -/
def setInstance (s : EntityStoreM) (i : Nat) (inst : ArchetypeInstanceM) :
    EntityStoreM :=
  { s with store := { s.store with vec := s.store.vec.set i inst } }

/-- `EntityStore::reserve_entity_space`: grow the instance allocator, the
scratch bitfield, and the three instance vectors (`EntityInstanceVec::
reserve` extends slots/archetypes with 0 and versions with 1). -/
def reserveEntitySpace (s : EntityStoreM) (size : Nat) : EntityStoreM :=
  { s with
      allocator := s.allocator.reserve size
      bitfield := s.bitfield.reserve size
      slots := s.slots ++ List.replicate size 0
      versions := s.versions ++ List.replicate size 1
      archetypes := s.archetypes ++ List.replicate size 0 }

/-- `EntityStore::create_entity_from_archetype`. -/
def createEntityFromArchetype (s : EntityStoreM) (archetype : Nat) :
    (Nat × Nat) × EntityStoreM :=
  let (index, s) :=
    match s.allocator.tryAllocate 1 with
    | .ok (r, alloc) => (r.1, { s with allocator := alloc })
    | .error _ =>
      let capacity := max 1 s.allocator.capacity
      let s := s.reserveEntitySpace capacity
      let (r, alloc) := s.allocator.allocate 1
      (r.1, { s with allocator := alloc })
  let (slotRanges, inst) := (s.store.vec.getD archetype default).takeSlots 1
  let s := s.setInstance archetype inst
  let slot := (slotRanges.getD 0 (0, 0)).1
  let s := { s with
      slots := s.slots.set index slot
      archetypes := s.archetypes.set index archetype }
  ((index, s.versions.getD index 0), s)

/-- `EntityStore::create_entity`: the default archetype, index 0. -/
def createEntity (s : EntityStoreM) : (Nat × Nat) × EntityStoreM :=
  s.createEntityFromArchetype archetypeDefault

/-- The zip-assignment loop of `create_entities_from_archetype`: pairs of
(instance index, archetype slot) in ascending output order. -/
def assignLoop (a : Nat) :
    List (Nat × Nat) → EntityStoreM → List (Nat × Nat) × EntityStoreM
  | [], s => ([], s)
  | (i, slot) :: rest, s =>
    let s := { s with
        slots := s.slots.set i slot
        archetypes := s.archetypes.set i a }
    let e := (i, s.versions.getD i 0)
    let (es, s') := assignLoop a rest s
    (e :: es, s')

/-- `EntityStore::create_entities_from_archetype` for `count` entities,
returning the written handles in output order. -/
def createEntitiesFromArchetype (s : EntityStoreM) (archetype count : Nat) :
    List (Nat × Nat) × EntityStoreM :=
  let (instanceRanges, s) :=
    match s.allocator.tryAllocateFragmented count with
    | .ok (rs, alloc) => (rs, { s with allocator := alloc })
    | .error needed =>
      let targetCapacity := max (s.allocator.capacity * 2) needed
      let s := s.reserveEntitySpace (targetCapacity - s.allocator.capacity)
      let (rs, alloc) := s.allocator.allocateFragmented count
      (rs, { s with allocator := alloc })
  let (slotRanges, inst) := (s.store.vec.getD archetype default).takeSlots count
  let s := s.setInstance archetype inst
  let iFlat := instanceRanges.flatMap rangeToList
  let sFlat := slotRanges.flatMap rangeToList
  assignLoop archetype ((iFlat.zip (List.range count)).map (·.1) |>.zip sFlat) s

/-- The per-entity loop of `destroy_entities`: assert the version, mark the
instance index in the scratch bitfield, flush the slot batch whenever the
archetype changes, and push the entity's slot. -/
def destroyLoop :
    List (Nat × Nat) → EntityStoreM → BitField → List Nat → Nat →
    Except Unit (BitField × List Nat × Nat × EntityStoreM)
  | [], s, bf, slotAcc, lastArchetype => .ok (bf, slotAcc, lastArchetype, s)
  | e :: rest, s, bf, slotAcc, lastArchetype =>
    match s.versions.get? e.1 with
    | none => .error ()
    | some ver =>
      if e.2 ≠ ver then .error ()
      else
        let bf := bf.setUnchecked e.1 true
        let archetype := s.archetypes.getD e.1 0
        let (slotAcc, s) :=
          if archetype ≠ lastArchetype ∧ slotAcc ≠ [] then
            ([], s.setInstance lastArchetype
              ((s.store.vec.getD lastArchetype default).returnSlots slotAcc))
          else (slotAcc, s)
        destroyLoop rest s bf (slotAcc ++ [s.slots.getD e.1 0]) archetype

/-- Bump the version of every instance index in a range
(`self.instances.versions[i] += 1`). -/
def bumpRange (versions : List Nat) (r : Nat × Nat) : List Nat :=
  (rangeToList r).foldl (fun vs i => vs.set i (vs.getD i 0 + 1)) versions

/-- `EntityStore::destroy_entities`: batch-return archetype slots grouped by
archetype, then walk the seen-instance bitfield as ranges, bumping versions
and freeing the instance indices. -/
def destroyEntities (s : EntityStoreM) (entities : List (Nat × Nat)) :
    Except Unit EntityStoreM :=
  match destroyLoop entities s (s.bitfield.clear) [] 0 with
  | .error e => .error e
  | .ok (bf, slotAcc, lastArchetype, s) =>
    let s :=
      if slotAcc ≠ [] then
        s.setInstance lastArchetype
          ((s.store.vec.getD lastArchetype default).returnSlots slotAcc)
      else s
    let s := bf.iterRanges.foldl (fun s r =>
      { s with
          versions := bumpRange s.versions r
          allocator := s.allocator.free r }) s
    .ok { s with bitfield := bf }

/-- `EntityStore::get_component::<T>`: validate the handle
(`assert_entity`, a version mismatch panics), then look up the component's
column in the entity's archetype. -/
def getComponent (s : EntityStoreM) (e : Nat × Nat) (tid : Nat) :
    Except Unit (Option (Nat × Nat)) :=
  match s.versions.get? e.1 with
  | none => .error ()
  | some ver =>
    if e.2 ≠ ver then .error ()
    else
      let archetype := s.store.vec.getD (s.archetypes.getD e.1 0) default
      .ok (archetype.getComponent tid (s.slots.getD e.1 0))

end EntityStoreM

/-! ## EntityRegistry component transitions
(src/src/entities/entity_registry.rs)

This draft's `Entity` embeds a pointer to its `EntityInstance` record
together with the owning registry's id.

Modelled from the spec: the pointer-based `Entity` type and its
`get_instance`/`get_instance_mut` accessors are not present under src/.
Per the spec (design notes), the handle is pure data resolved through the
registry's instance table, and a handle is valid iff its version equals the
instance's version, panicking otherwise; the model resolves an entity
`(index, version)` through an instance table and turns the panic into
`Except.error`. -/

/-- An `EntityInstance` record: `{slot, version, archetype}`. -/
structure EntityInstM where
  slot : Nat
  version : Nat
  archetype : Nat
deriving Repr, DecidableEq

/-- `EntityRegistry`, reduced to the instance table and the archetype
store. -/
structure EntityRegistryM where
  instances : List EntityInstM
  store : ArchetypeStoreM
deriving Repr, DecidableEq

namespace EntityRegistryM

/-- `EntityRegistry::apply_archetype_transition`: resolve the handle, ask the
store for the `(src, dst)` transition, and on success move the entity: take a
destination slot without initialization, copy the shared columns (column
bytes are outside the model), return the source slot without dropping, and
repoint the instance.  Returns `((src, src_slot), (dst, dst_slot))`. -/
def applyArchetypeTransition (qenv : Nat → QueryData) (r : EntityRegistryM)
    (eIdx eVer : Nat) (c : CompT) (kind : TransitionKind) :
    Except Unit (Option ((Nat × Nat) × (Nat × Nat)) × EntityRegistryM) :=
  match r.instances.get? eIdx with
  | none => .error ()
  | some inst =>
    if eVer ≠ inst.version then .error ()
    else
      let (res, store) := r.store.getArchetypeTransition qenv
        ⟨inst.archetype, c, kind⟩
      match res with
      | none => .ok (none, { r with store })
      | some (srcIdx, dstIdx) =>
        let srcSlot := inst.slot
        let (ranges, dstInst) :=
          (store.vec.getD dstIdx default).takeSlotsNoInit 1
        let dstSlot := (ranges.getD 0 (0, 0)).1
        let store := { store with vec := store.vec.set dstIdx dstInst }
        let srcInst := (store.vec.getD srcIdx default).returnSlotNoDrop srcSlot
        let store := { store with vec := store.vec.set srcIdx srcInst }
        let instances := r.instances.set eIdx
          { inst with archetype := dstIdx, slot := dstSlot }
        .ok (some ((srcIdx, srcSlot), (dstIdx, dstSlot)), { instances, store })

/-- `EntityRegistry::add_component::<T>`: false when the transition is
absent (the component is already present); otherwise the new `T` value is
written into the destination column (column bytes are outside the model). -/
def addComponent (qenv : Nat → QueryData) (r : EntityRegistryM)
    (eIdx eVer : Nat) (c : CompT) : Except Unit (Bool × EntityRegistryM) :=
  match applyArchetypeTransition qenv r eIdx eVer c .add with
  | .error e => .error e
  | .ok (none, r') => .ok (false, r')
  | .ok (some _, r') => .ok (true, r')

/-- `EntityRegistry::remove_component::<T>`: false when the transition is
absent (the component is not present); otherwise the removed `T` value is
dropped in the source column (column bytes are outside the model). -/
def removeComponent (qenv : Nat → QueryData) (r : EntityRegistryM)
    (eIdx eVer : Nat) (c : CompT) : Except Unit (Bool × EntityRegistryM) :=
  match applyArchetypeTransition qenv r eIdx eVer c .remove with
  | .error e => .error e
  | .ok (none, r') => .ok (false, r')
  | .ok (some _, r') => .ok (true, r')

end EntityRegistryM

/-! ## Theorems -/

/-! ### BitField theory: words, bit access, equality, hashing -/

/-- List helper: `getD` agreement plus equal lengths forces equality. -/
theorem list_eq_of_getD {l1 l2 : List Nat} (hlen : l1.length = l2.length)
    (h : ∀ p, l1.getD p 0 = l2.getD p 0) : l1 = l2 := by
  apply List.ext_getElem hlen
  intro i h1 h2
  have := h i
  rwa [List.getD_eq_getElem?_getD, List.getD_eq_getElem?_getD,
    List.getElem?_eq_getElem h1, List.getElem?_eq_getElem h2] at this

/-- List helper: a `getD` beyond the length is the default. -/
theorem getD_eq_zero_of_le {l : List Nat} {p : Nat} (h : l.length ≤ p) :
    l.getD p 0 = 0 := by
  rw [List.getD_eq_getElem?_getD, List.getElem?_eq_none h]
  rfl

/-- List helper: a nonzero `getD` is in range. -/
theorem lt_length_of_getD_ne {l : List Nat} {p : Nat} (h : l.getD p 0 ≠ 0) :
    p < l.length := by
  by_contra hc
  exact h (getD_eq_zero_of_le (by omega))

namespace BitField

/-- Word `p` of a BitField, zero beyond the stored length. -/
def wordAt (b : BitField) (p : Nat) : Nat := b.values.getD p 0

/-- Two BitFields encode the same infinite bit sequence. -/
def SeqEq (a b : BitField) : Prop := ∀ i, a.get i = b.get i

/-- Mathematical subset of bit sequences: every set bit of `a` is set in
`b`. -/
def SeqSubset (a b : BitField) : Prop := ∀ i, a.get i = true → b.get i = true

theorem wordAt_lt (b : BitField) (hb : b.WFwords) (p : Nat) :
    b.wordAt p < 2 ^ 32 := by
  unfold wordAt
  by_cases hp : p < b.values.length
  · rw [List.getD_eq_getElem?_getD, List.getElem?_eq_getElem hp]
    exact hb _ (List.getElem_mem hp)
  · rw [getD_eq_zero_of_le (by omega)]
    exact Nat.two_pow_pos 32

theorem get_eq_testBit (b : BitField) (i : Nat) :
    b.get i = (b.wordAt (i / 32)).testBit (31 - i % 32) := by
  have hlt : i % 32 < 32 := Nat.mod_lt _ (by omega)
  have hshift : FIRST_BIT >>> (i % 32) = 2 ^ (31 - i % 32) := by
    rw [Nat.shiftRight_eq_div_pow]
    exact Nat.pow_div (by omega) (by omega)
  unfold get wordAt BITS
  rcases h : b.values[i / 32]? with _ | w
  · have h0 : b.values.getD (i / 32) 0 = 0 := by
      rw [List.getD_eq_getElem?_getD, h]; rfl
    simp [h0, h]
  · have h0 : b.values.getD (i / 32) 0 = w := by
      rw [List.getD_eq_getElem?_getD, h]; rfl
    simp only [h0, h, hshift]
    show (Nat.land w (2 ^ (31 - i % 32)) != 0) = w.testBit (31 - i % 32)
    have hand : Nat.land w (2 ^ (31 - i % 32)) =
        (w.testBit (31 - i % 32)).toNat * 2 ^ (31 - i % 32) :=
      Nat.and_two_pow w (31 - i % 32)
    rcases ht : w.testBit (31 - i % 32) with _ | _ <;>
      simp [hand, ht, ne_of_gt (Nat.two_pow_pos (31 - i % 32))]

/-- Bit `p * 32 + (31 - k)` of a BitField, for `k < 32`, is bit `k` of word
`p`. -/
theorem get_word_bit (b : BitField) (p k : Nat) (hk : k < 32) :
    b.get (p * 32 + (31 - k)) = (b.wordAt p).testBit k := by
  rw [get_eq_testBit]
  have h1 : (p * 32 + (31 - k)) / 32 = p := by omega
  have h2 : (p * 32 + (31 - k)) % 32 = 31 - k := by omega
  rw [h1, h2]
  congr 1
  omega

/-- Under the 32-bit word bound, the bit sequence determines every word. -/
theorem wordAt_eq_of_seqEq {a b : BitField} (ha : a.WFwords) (hb : b.WFwords)
    (h : SeqEq a b) (p : Nat) : a.wordAt p = b.wordAt p := by
  apply Nat.eq_of_testBit_eq
  intro k
  by_cases hk : k < 32
  · rw [← get_word_bit a p k hk, ← get_word_bit b p k hk]
    exact h _
  · have h32 : (2 : Nat) ^ 32 ≤ 2 ^ k := Nat.pow_le_pow_right (by omega) (by omega)
    rw [Nat.testBit_lt_two_pow (lt_of_lt_of_le (wordAt_lt a ha p) h32),
      Nat.testBit_lt_two_pow (lt_of_lt_of_le (wordAt_lt b hb p) h32)]

theorem seqEq_of_wordAt {a b : BitField}
    (h : ∀ p, a.wordAt p = b.wordAt p) : SeqEq a b := by
  intro i
  rw [get_eq_testBit, get_eq_testBit, h]

end BitField

/-- List helper: the prefix/zero-tail condition of `BitField::eq` is
equivalent to pointwise `getD` agreement. -/
theorem prefix_zero_iff_getD {l1 l2 : List Nat} (h : l1.length ≤ l2.length) :
    (l1 = l2.take l1.length ∧ ∀ x ∈ l2.drop l1.length, x = 0) ↔
      ∀ p, l1.getD p 0 = l2.getD p 0 := by
  constructor
  · rintro ⟨hpre, hzero⟩ p
    by_cases hp : p < l1.length
    · rw [List.getD_eq_getElem?_getD, List.getD_eq_getElem?_getD, hpre,
        List.getElem?_take]
      simp [hp]
    · rw [getD_eq_zero_of_le (by omega)]
      by_cases hp2 : p < l2.length
      · have hdj : p - l1.length < (l2.drop l1.length).length := by
          simp only [List.length_drop]; omega
        have hz := hzero _ (List.getElem_mem hdj)
        have hget := List.getElem?_drop l2 l1.length (p - l1.length)
        rw [show l1.length + (p - l1.length) = p from by omega] at hget
        have hval : l2.getD p 0 = 0 := by
          rw [List.getD_eq_getElem?_getD, ← hget,
            List.getElem?_eq_getElem hdj, Option.getD_some, hz]
        exact hval.symm
      · rw [getD_eq_zero_of_le (by omega)]
  · intro hp
    constructor
    · apply list_eq_of_getD (by simp [Nat.min_eq_left h])
      intro p
      by_cases hlt : p < l1.length
      · rw [hp p, List.getD_eq_getElem?_getD, List.getD_eq_getElem?_getD,
          List.getElem?_take]
        simp [hlt]
      · rw [getD_eq_zero_of_le (by omega), getD_eq_zero_of_le (by simp; omega)]
    · intro x hx
      rw [List.mem_iff_getElem] at hx
      obtain ⟨j, hj, hx⟩ := hx
      have hlen : l2.length - l1.length ≥ j + 1 := by
        simpa [List.length_drop] using hj
      have hget := List.getElem?_drop l2 l1.length j
      have hval : l2.getD (l1.length + j) 0 = x := by
        rw [List.getD_eq_getElem?_getD, ← hget,
          List.getElem?_eq_getElem hj, Option.getD_some, hx]
      rw [← hval, ← hp, getD_eq_zero_of_le (by omega)]

namespace BitField

/-- `BitField::eq` decides pointwise word agreement (padding-insensitive). -/
theorem beq_iff_wordAt {a b : BitField} :
    a.beq b = true ↔ ∀ p, a.wordAt p = b.wordAt p := by
  unfold beq wordAt
  rcases Nat.lt_trichotomy a.values.length b.values.length with hlt | heq | hgt
  · have hne : a.values.length ≠ b.values.length := by omega
    rw [if_neg hne, if_pos hlt]
    simp only [Bool.and_eq_true, decide_eq_true_eq, List.all_eq_true,
      beq_iff_eq]
    exact prefix_zero_iff_getD (by omega)
  · rw [if_pos heq]
    simp only [beq_iff_eq]
    constructor
    · intro h p; rw [h]
    · intro h; exact list_eq_of_getD heq h
  · have hne : a.values.length ≠ b.values.length := by omega
    have hnlt : ¬ a.values.length < b.values.length := by omega
    rw [if_neg hne, if_neg hnlt]
    simp only [Bool.and_eq_true, decide_eq_true_eq, List.all_eq_true,
      beq_iff_eq]
    have h2 := @prefix_zero_iff_getD b.values a.values (by omega)
    constructor
    · rintro ⟨hpre, hzero⟩ p
      exact (h2.mp ⟨hpre.symm, fun x hx => by simpa using hzero x hx⟩ p).symm
    · intro h
      obtain ⟨hpre, hzero⟩ := h2.mpr (fun p => (h p).symm)
      exact ⟨hpre.symm, fun x hx => by simpa using hzero x hx⟩

end BitField

/-- Worker behind `lastNonzeroIdx`, with an explicit scan bound. -/
def lastNZ (l : List Nat) (n : Nat) : Option Nat :=
  (List.range n).reverse.find? (fun i => l.getD i 0 != 0)

theorem lastNZ_succ (l : List Nat) (n : Nat) :
    lastNZ l (n + 1) = if l.getD n 0 ≠ 0 then some n else lastNZ l n := by
  unfold lastNZ
  rw [List.range_succ, List.reverse_append]
  simp only [List.reverse_cons, List.reverse_nil, List.nil_append,
    List.singleton_append, List.find?_cons]
  rcases h : l.getD n 0 with _ | m <;> simp [h]

theorem lastNZ_eq_some {l : List Nat} {n i : Nat} :
    lastNZ l n = some i ↔
      i < n ∧ l.getD i 0 ≠ 0 ∧ ∀ j, i < j → j < n → l.getD j 0 = 0 := by
  induction n with
  | zero => simp [lastNZ]
  | succ n ih =>
    rw [lastNZ_succ]
    by_cases h : l.getD n 0 ≠ 0
    · rw [if_pos h]
      constructor
      · rintro ⟨rfl⟩
        exact ⟨by omega, h, fun j h1 h2 => by omega⟩
      · rintro ⟨hi, hne, hz⟩
        by_cases hin : i = n
        · rw [hin]
        · exact absurd (hz n (by omega) (by omega)) h
    · rw [if_neg h, ih]
      push_neg at h
      constructor
      · rintro ⟨hi, hne, hz⟩
        refine ⟨by omega, hne, fun j h1 h2 => ?_⟩
        by_cases hjn : j = n
        · rw [hjn]; exact h
        · exact hz j h1 (by omega)
      · rintro ⟨hi, hne, hz⟩
        have hin : i ≠ n := by rintro rfl; exact hne h
        exact ⟨by omega, hne, fun j h1 h2 => hz j h1 (by omega)⟩

theorem lastNZ_eq_none {l : List Nat} {n : Nat} :
    lastNZ l n = none ↔ ∀ j, j < n → l.getD j 0 = 0 := by
  induction n with
  | zero => simp [lastNZ]
  | succ n ih =>
    rw [lastNZ_succ]
    by_cases h : l.getD n 0 ≠ 0
    · simp only [if_pos h]
      constructor
      · intro hc; cases hc
      · intro hz; exact absurd (hz n (by omega)) h
    · push_neg at h
      rw [if_neg (by simpa using h), ih]
      constructor
      · intro hz j hj
        by_cases hjn : j = n
        · rw [hjn]; exact h
        · exact hz j (by omega)
      · intro hz j hj
        exact hz j (by omega)

theorem lastNonzeroIdx_eq_lastNZ (l : List Nat) :
    lastNonzeroIdx l = lastNZ l l.length := rfl

/-- The last-nonzero-word index depends only on the `getD` word function. -/
theorem lastNonzeroIdx_congr {l1 l2 : List Nat}
    (h : ∀ p, l1.getD p 0 = l2.getD p 0) :
    lastNonzeroIdx l1 = lastNonzeroIdx l2 := by
  rw [lastNonzeroIdx_eq_lastNZ, lastNonzeroIdx_eq_lastNZ]
  rcases h1 : lastNZ l1 l1.length with _ | i
  · rcases h2 : lastNZ l2 l2.length with _ | i
    · rfl
    · exfalso
      obtain ⟨hi, hne, _⟩ := lastNZ_eq_some.mp h2
      have hz := lastNZ_eq_none.mp h1
      have hi1 : i < l1.length := lt_length_of_getD_ne (by rw [h]; exact hne)
      exact hne (by rw [← h]; exact hz i hi1)
  · obtain ⟨hi, hne, hz⟩ := lastNZ_eq_some.mp h1
    have hne2 : l2.getD i 0 ≠ 0 := by rw [← h]; exact hne
    symm
    rw [lastNZ_eq_some]
    refine ⟨lt_length_of_getD_ne hne2, hne2, fun j h1j h2j => ?_⟩
    rw [← h]
    by_cases hj : j < l1.length
    · exact hz j h1j hj
    · exact getD_eq_zero_of_le (by omega)

/-- List helper: equal `getD` functions give equal takes within range. -/
theorem take_eq_of_getD {l1 l2 : List Nat} {i : Nat}
    (h : ∀ p, l1.getD p 0 = l2.getD p 0) (h1 : i ≤ l1.length)
    (h2 : i ≤ l2.length) : l1.take i = l2.take i := by
  apply list_eq_of_getD (by simp [Nat.min_eq_left, h1, h2])
  intro p
  by_cases hp : p < i
  · rw [List.getD_eq_getElem?_getD, List.getD_eq_getElem?_getD,
      List.getElem?_take, List.getElem?_take]
    simp only [if_pos hp]
    rw [← List.getD_eq_getElem?_getD, ← List.getD_eq_getElem?_getD]
    exact h p
  · rw [getD_eq_zero_of_le (by simp; omega), getD_eq_zero_of_le (by simp; omega)]

namespace BitField

/-- Word-level agreement gives equal hash streams. -/
theorem hashWords_congr {a b : BitField}
    (h : ∀ p, a.wordAt p = b.wordAt p) : a.hashWords = b.hashWords := by
  have h' : ∀ p, a.values.getD p 0 = b.values.getD p 0 := fun p => h p
  unfold hashWords
  rw [lastNonzeroIdx_congr h']
  rcases hl : lastNonzeroIdx b.values with _ | i
  · rfl
  · obtain ⟨hi, hne, _⟩ :=
      lastNZ_eq_some.mp ((lastNonzeroIdx_eq_lastNZ b.values) ▸ hl)
    have hib : i < b.values.length := lt_length_of_getD_ne hne
    have hia : i < a.values.length :=
      lt_length_of_getD_ne (by rw [h']; exact hne)
    exact take_eq_of_getD h' (by omega) (by omega)

end BitField

/-! ### RangeAllocator theory: the sorted free-list invariant -/

/-- Index `i` is covered by some range of the list. -/
def memR (ranges : List (Nat × Nat)) (i : Nat) : Prop :=
  ∃ r ∈ ranges, r.1 ≤ i ∧ i < r.2

instance (ranges : List (Nat × Nat)) (i : Nat) : Decidable (memR ranges i) :=
  inferInstanceAs (Decidable (∃ r ∈ ranges, r.1 ≤ i ∧ i < r.2))

/-- Sum of the lengths of a range list. -/
def sumLens : List (Nat × Nat) → Nat
  | [] => 0
  | r :: rest => rlen r + sumLens rest

/-- The free-list shape invariant: starts at least `lo`, every range
nonempty and within the capacity, starts strictly increasing, and
consecutive ranges separated by at least `g` (with `g = 1`, no two ranges
touch; with `g = 0`, touching is allowed but overlap is not). -/
def chain (g cap : Nat) : Nat → List (Nat × Nat) → Prop
  | _, [] => True
  | lo, r :: rest => lo ≤ r.1 ∧ r.1 < r.2 ∧ r.2 ≤ cap ∧ chain g cap (r.2 + g) rest

theorem chain_cons {g cap lo : Nat} {r : Nat × Nat} {rest : List (Nat × Nat)} :
    chain g cap lo (r :: rest) ↔
      lo ≤ r.1 ∧ r.1 < r.2 ∧ r.2 ≤ cap ∧ chain g cap (r.2 + g) rest :=
  Iff.rfl

theorem chain_mono_lo {g cap lo lo' : Nat} {l : List (Nat × Nat)}
    (h : lo' ≤ lo) (hc : chain g cap lo l) : chain g cap lo' l := by
  cases l with
  | nil => trivial
  | cons r rest =>
    obtain ⟨h1, h2, h3, h4⟩ := hc
    exact ⟨by omega, h2, h3, h4⟩

theorem chain_mono_cap {g cap cap' lo : Nat} {l : List (Nat × Nat)}
    (h : cap ≤ cap') (hc : chain g cap lo l) : chain g cap' lo l := by
  induction l generalizing lo with
  | nil => trivial
  | cons r rest ih =>
    obtain ⟨h1, h2, h3, h4⟩ := hc
    exact ⟨h1, h2, by omega, ih h4⟩

theorem chain_elem {g cap lo : Nat} {l : List (Nat × Nat)}
    (hc : chain g cap lo l) {r : Nat × Nat} (hr : r ∈ l) :
    lo ≤ r.1 ∧ r.1 < r.2 ∧ r.2 ≤ cap := by
  induction l generalizing lo with
  | nil => cases hr
  | cons q rest ih =>
    obtain ⟨h1, h2, h3, h4⟩ := hc
    rcases List.mem_cons.mp hr with rfl | hr
    · exact ⟨h1, h2, h3⟩
    · have := ih h4 hr
      exact ⟨by omega, this.2.1, this.2.2⟩

theorem chain_order {g cap lo : Nat} {l : List (Nat × Nat)}
    (hc : chain g cap lo l) {p q : Nat × Nat} (hp : p ∈ l) (hq : q ∈ l)
    (hlt : p.1 < q.1) : p.2 + g ≤ q.1 := by
  induction l generalizing lo with
  | nil => cases hp
  | cons r rest ih =>
    obtain ⟨h1, h2, h3, h4⟩ := hc
    rcases List.mem_cons.mp hp with rfl | hp2
    · rcases List.mem_cons.mp hq with rfl | hq2
      · omega
      · have := chain_elem h4 hq2
        omega
    · rcases List.mem_cons.mp hq with rfl | hq2
      · have := chain_elem h4 hp2
        omega
      · exact ih h4 hp2 hq2

theorem chain_unique_key {g cap lo : Nat} {l : List (Nat × Nat)}
    (hc : chain g cap lo l) {p q : Nat × Nat} (hp : p ∈ l) (hq : q ∈ l)
    (hk : p.1 = q.1) : p = q := by
  induction l generalizing lo with
  | nil => cases hp
  | cons r rest ih =>
    obtain ⟨h1, h2, h3, h4⟩ := hc
    rcases List.mem_cons.mp hp with rfl | hp2
    · rcases List.mem_cons.mp hq with rfl | hq2
      · rfl
      · have := chain_elem h4 hq2
        exact absurd hk (by omega)
    · rcases List.mem_cons.mp hq with rfl | hq2
      · have := chain_elem h4 hp2
        exact absurd hk (by omega)
      · exact ih h4 hp2 hq2

theorem chain_pairwise_disjoint {g cap lo : Nat} {l : List (Nat × Nat)}
    (hc : chain g cap lo l) {p q : Nat × Nat} (hp : p ∈ l) (hq : q ∈ l)
    (hne : p ≠ q) : p.2 ≤ q.1 ∨ q.2 ≤ p.1 := by
  rcases Nat.lt_trichotomy p.1 q.1 with h | h | h
  · have := chain_order hc hp hq h
    left; omega
  · exact absurd (chain_unique_key hc hp hq h) hne
  · have := chain_order hc hq hp h
    right; omega

theorem sum_le {g cap lo : Nat} {l : List (Nat × Nat)}
    (hc : chain g cap lo l) (hlo : lo ≤ cap) : sumLens l + lo ≤ cap := by
  induction l generalizing lo with
  | nil => simpa [sumLens]
  | cons r rest ih =>
    obtain ⟨h1, h2, h3, h4⟩ := hc
    have := ih (chain_mono_lo (le_refl r.2) (chain_mono_lo (by omega) h4)) h3
    unfold sumLens rlen
    omega

/-- A range list avoiding a nonempty hole `[x, y)` cannot fill the hole's
share of `[lo, cap)`. -/
theorem sum_le_sub_hole {g cap lo x y : Nat} {l : List (Nat × Nat)}
    (hc : chain g cap lo l) (hxy : x < y) (hy : y ≤ cap) (hlx : lo ≤ x)
    (havoid : ∀ q ∈ l, q.2 ≤ x ∨ y ≤ q.1) :
    sumLens l + (y - x) + lo ≤ cap := by
  induction l generalizing lo with
  | nil => simp [sumLens]; omega
  | cons r rest ih =>
    obtain ⟨h1, h2, h3, h4⟩ := hc
    rcases havoid r (by simp) with hl | hr
    · have := ih (chain_mono_lo (show r.2 ≤ r.2 + g by omega) h4) hl
        (fun q hq => havoid q (List.mem_cons_of_mem r hq))
      unfold sumLens rlen
      omega
    · have := sum_le (chain_mono_lo (show r.2 ≤ r.2 + g by omega) h4) h3
      unfold sumLens rlen
      omega

theorem memR_nil (i : Nat) : ¬ memR [] i := by
  rintro ⟨r, hr, _⟩
  cases hr

theorem memR_cons {r : Nat × Nat} {l : List (Nat × Nat)} {i : Nat} :
    memR (r :: l) i ↔ (r.1 ≤ i ∧ i < r.2) ∨ memR l i := by
  constructor
  · rintro ⟨q, hq, hi⟩
    rcases List.mem_cons.mp hq with rfl | hq2
    · exact Or.inl hi
    · exact Or.inr ⟨q, hq2, hi⟩
  · rintro (hi | ⟨q, hq, hi⟩)
    · exact ⟨r, by simp, hi⟩
    · exact ⟨q, by simp [hq], hi⟩

theorem chain_raise {g cap lo lo2 : Nat} {l : List (Nat × Nat)}
    (hc : chain g cap lo l) (h : ∀ p ∈ l, lo2 ≤ p.1) : chain g cap lo2 l := by
  cases l with
  | nil => trivial
  | cons r rest =>
    obtain ⟨h1, h2, h3, h4⟩ := hc
    exact ⟨h r (by simp), h2, h3, h4⟩

theorem lookupStart_some {l : List (Nat × Nat)} {k : Nat} {p : Nat × Nat}
    (h : lookupStart l k = some p) : p ∈ l ∧ p.1 = k := by
  unfold lookupStart at h
  refine ⟨List.mem_of_find?_eq_some h, ?_⟩
  have := List.find?_some h
  simpa using this

theorem lookupStart_none {l : List (Nat × Nat)} {k : Nat}
    (h : lookupStart l k = none) : ∀ p ∈ l, p.1 ≠ k := by
  unfold lookupStart at h
  intro p hp
  have := List.find?_eq_none.mp h p hp
  simpa using this

theorem findEnd_some {l : List (Nat × Nat)} {x k : Nat}
    (h : findEnd l x = some k) : ∃ p ∈ l, p.1 = k ∧ p.2 = x := by
  unfold findEnd at h
  rcases ho : l.find? (fun p => p.2 == x) with _ | p
  · rw [ho] at h; cases h
  · rw [ho] at h
    have h1 := List.mem_of_find?_eq_some ho
    have h2 := List.find?_some ho
    exact ⟨p, h1, by simpa using h, by simpa using h2⟩

theorem findEnd_none {l : List (Nat × Nat)} {x : Nat}
    (h : findEnd l x = none) : ∀ p ∈ l, p.2 ≠ x := by
  unfold findEnd at h
  intro p hp
  rcases ho : l.find? (fun p => p.2 == x) with _ | q
  · have := List.find?_eq_none.mp ho p hp
    simpa using this
  · rw [ho] at h; cases h

theorem setEnd_no_match {l : List (Nat × Nat)} {k e : Nat}
    (h : ∀ p ∈ l, p.1 ≠ k) : setEnd l k e = l := by
  unfold setEnd
  conv_rhs => rw [← List.map_id l]
  apply List.map_congr_left
  intro p hp
  simp [h p hp]

theorem insertSorted_spec {g cap lo : Nat} {l : List (Nat × Nat)}
    {x : Nat × Nat} (hc : chain g cap lo l) (hlo : lo ≤ x.1) (hx : x.1 < x.2)
    (hcap : x.2 ≤ cap) (hsep : ∀ r ∈ l, r.2 + g ≤ x.1 ∨ x.2 + g ≤ r.1) :
    chain g cap lo (insertSorted l x) ∧
    sumLens (insertSorted l x) = sumLens l + rlen x ∧
    (∀ i, memR (insertSorted l x) i ↔ memR l i ∨ (x.1 ≤ i ∧ i < x.2)) := by
  induction l generalizing lo with
  | nil =>
    refine ⟨⟨hlo, hx, hcap, trivial⟩, by simp [sumLens], fun i => ?_⟩
    rw [show insertSorted [] x = [x] from rfl, memR_cons]
    simp [memR_nil]
  | cons q rest ih =>
    obtain ⟨h1, h2, h3, h4⟩ := hc
    rcases hsep q (by simp) with hq | hq
    · -- q lies wholly before x, so the insertion recurses past q
      have hlt : q.1 < x.1 := by omega
      have heq : insertSorted (q :: rest) x = q :: insertSorted rest x := by
        simp only [insertSorted]
        rw [if_neg (by omega), if_neg (by omega)]
      obtain ⟨ic, is, im⟩ := ih h4 (by omega)
        (fun r hr => hsep r (List.mem_cons_of_mem q hr))
      rw [heq]
      refine ⟨⟨h1, h2, h3, ic⟩, ?_, fun i => ?_⟩
      · simp only [sumLens]; omega
      · rw [memR_cons, memR_cons, im]
        tauto
    · -- x lies wholly before q, so x becomes the new head
      have hlt : x.1 < q.1 := by omega
      have heq : insertSorted (q :: rest) x = x :: q :: rest := by
        simp only [insertSorted]
        rw [if_pos hlt]
      rw [heq]
      refine ⟨⟨hlo, hx, hcap, hq, h2, h3, h4⟩, ?_, fun i => ?_⟩
      · simp only [sumLens]; omega
      · rw [memR_cons]
        tauto

theorem rlen_le_sumLens {l : List (Nat × Nat)} {r : Nat × Nat} (hr : r ∈ l) :
    rlen r ≤ sumLens l := by
  induction l with
  | nil => cases hr
  | cons a b ih =>
    rcases List.mem_cons.mp hr with rfl | hb
    · unfold sumLens; omega
    · have := ih hb
      unfold sumLens
      omega

theorem removeKey_spec {g cap lo : Nat} {l : List (Nat × Nat)} {r : Nat × Nat}
    (hc : chain g cap lo l) (hr : r ∈ l) :
    chain g cap lo (removeKey l r.1) ∧
    sumLens (removeKey l r.1) = sumLens l - rlen r ∧
    (∀ i, memR (removeKey l r.1) i ↔ memR l i ∧ ¬ (r.1 ≤ i ∧ i < r.2)) ∧
    (∀ q ∈ removeKey l r.1, q ∈ l ∧ q ≠ r) := by
  induction l generalizing lo with
  | nil => cases hr
  | cons q rest ih =>
    have h0 := hc
    obtain ⟨h1, h2, h3, h4⟩ := h0
    by_cases hk : q.1 = r.1
    · have hqr : q = r := chain_unique_key hc (by simp) hr hk
      subst hqr
      have heq : removeKey (q :: rest) q.1 = rest := by
        unfold removeKey
        simp [List.eraseP_cons]
      rw [heq]
      have hrest : ∀ p ∈ rest, q.2 ≤ p.1 := by
        intro p hp
        have := chain_elem h4 hp
        omega
      refine ⟨chain_mono_lo (by omega) h4, by simp only [sumLens]; omega,
        fun i => ?_, fun p hp => ⟨by simp [hp], ?_⟩⟩
      · rw [memR_cons]
        constructor
        · rintro ⟨p, hp, hi⟩
          have := hrest p hp
          exact ⟨Or.inr ⟨p, hp, hi⟩, by omega⟩
        · rintro ⟨hm | hm, hni⟩
          · omega
          · exact hm
      · rintro rfl
        have := hrest p hp
        omega
    · have hrr : r ∈ rest := by
        rcases List.mem_cons.mp hr with rfl | h
        · omega
        · exact h
      have heq : removeKey (q :: rest) r.1 = q :: removeKey rest r.1 := by
        unfold removeKey
        simp [List.eraseP_cons, hk]
      obtain ⟨ic, is, im, imem⟩ := ih h4 hrr
      rw [heq]
      have hqr : q.2 ≤ r.1 ∨ r.2 ≤ q.1 :=
        chain_pairwise_disjoint hc (by simp) hr (by rintro rfl; omega)
      have hrlen : rlen r ≤ sumLens rest := rlen_le_sumLens hrr
      refine ⟨⟨h1, h2, h3, ic⟩, ?_, fun i => ?_, fun p hp => ?_⟩
      · simp only [sumLens]; omega
      · rw [memR_cons, memR_cons, im]
        constructor
        · rintro (hi | ⟨hm, hni⟩)
          · exact ⟨Or.inl hi, by omega⟩
          · exact ⟨Or.inr hm, hni⟩
        · rintro ⟨hi | hm, hni⟩
          · exact Or.inl hi
          · exact Or.inr ⟨hm, hni⟩
      · rcases List.mem_cons.mp hp with rfl | hp2
        · exact ⟨by simp, by rintro rfl; omega⟩
        · have := imem p hp2
          exact ⟨by simp [this.1], this.2⟩

theorem setEnd_spec {g cap lo : Nat} {l : List (Nat × Nat)}
    {prev : Nat × Nat} {e' : Nat} (hc : chain g cap lo l) (hprev : prev ∈ l)
    (he1 : prev.2 ≤ e') (he2 : e' ≤ cap)
    (hsep : ∀ q ∈ l, prev.1 < q.1 → e' + g ≤ q.1) :
    chain g cap lo (setEnd l prev.1 e') ∧
    sumLens (setEnd l prev.1 e') = sumLens l + (e' - prev.2) ∧
    (∀ i, memR (setEnd l prev.1 e') i ↔ memR l i ∨ (prev.2 ≤ i ∧ i < e')) := by
  induction l generalizing lo with
  | nil => cases hprev
  | cons q rest ih =>
    have h0 := hc
    obtain ⟨h1, h2, h3, h4⟩ := h0
    by_cases hk : q.1 = prev.1
    · have hqp : q = prev := chain_unique_key hc (by simp) hprev hk
      subst hqp
      have hrest : ∀ p ∈ rest, p.1 ≠ q.1 := by
        intro p hp
        have := chain_elem h4 hp
        omega
      have heq : setEnd (q :: rest) q.1 e' = (q.1, e') :: rest := by
        unfold setEnd
        simp only [List.map_cons, if_pos rfl]
        congr 1
        exact setEnd_no_match hrest
      rw [heq]
      have hrest2 : ∀ p ∈ rest, e' + g ≤ p.1 := by
        intro p hp
        exact hsep p (List.mem_cons_of_mem q hp)
          (by have := chain_elem h4 hp; omega)
      refine ⟨⟨h1, by omega, he2, chain_raise h4 hrest2⟩, ?_, fun i => ?_⟩
      · simp only [sumLens, rlen]; omega
      · rw [memR_cons, memR_cons]
        have : ∀ p ∈ rest, q.2 + g ≤ p.1 := by
          intro p hp
          exact (chain_elem h4 hp).1
        constructor
        · rintro (hi | hm)
          · simp only at hi
            by_cases hq2 : i < q.2
            · exact Or.inl (Or.inl ⟨hi.1, hq2⟩)
            · exact Or.inr ⟨by omega, hi.2⟩
          · exact Or.inl (Or.inr hm)
        · rintro ((hi | hm) | hi)
          · exact Or.inl ⟨hi.1, by omega⟩
          · exact Or.inr hm
          · exact Or.inl ⟨by omega, hi.2⟩
    · have hpr : prev ∈ rest := by
        rcases List.mem_cons.mp hprev with rfl | h
        · omega
        · exact h
      have heq : setEnd (q :: rest) prev.1 e' = q :: setEnd rest prev.1 e' := by
        unfold setEnd
        simp only [List.map_cons, if_neg hk]
      obtain ⟨ic, is, im⟩ := ih h4 hpr
        (fun p hp hlt => hsep p (List.mem_cons_of_mem q hp) hlt)
      rw [heq]
      refine ⟨⟨h1, h2, h3, ic⟩, ?_, fun i => ?_⟩
      · simp only [sumLens]; omega
      · rw [memR_cons, memR_cons, im]
        tauto

/-- With a unique entry holding the key, `addToEnd` is a `setEnd`. -/
theorem addToEnd_eq_setEnd {l : List (Nat × Nat)} {prev : Nat × Nat}
    {delta : Nat} (hu : ∀ p ∈ l, p.1 = prev.1 → p = prev) :
    addToEnd l prev.1 delta = setEnd l prev.1 (prev.2 + delta) := by
  unfold addToEnd setEnd
  apply List.map_congr_left
  intro p hp
  by_cases hk : p.1 = prev.1
  · have := hu p hp hk
    subst this
    simp
  · simp [hk]

/-- The allocator well-formedness invariant, parameterized by the minimum
gap `g` between consecutive free ranges (`g = 1`: no touching). -/
structure WFA (g : Nat) (a : RangeAllocator) : Prop where
  ch : chain g a.capacity 0 a.ranges
  usedEq : a.used + sumLens a.ranges = a.capacity

/-- `RangeAllocator::free` of a range inside the used space: preserves the
invariant (for gaps 0 and 1), keeps the capacity, and adds exactly the freed
indices to the free set. -/
theorem free_spec {g : Nat} {a : RangeAllocator} {r : Nat × Nat} (hg : g ≤ 1)
    (hw : WFA g a) (hcap : r.2 ≤ a.capacity)
    (hdisj : ∀ i, r.1 ≤ i → i < r.2 → ¬ memR a.ranges i) :
    WFA g (a.free r) ∧ (a.free r).capacity = a.capacity ∧
    (∀ i, memR (a.free r).ranges i ↔
      memR a.ranges i ∨ (r.1 ≤ i ∧ i < r.2)) := by
  by_cases hemp : r.2 ≤ r.1
  · have heq : a.free r = a := by
      unfold RangeAllocator.free
      rw [if_pos hemp]
    rw [heq]
    exact ⟨hw, rfl, fun i => by constructor <;> [exact Or.inl; rintro (h | h)]
      <;> first | exact h | omega⟩
  · have hne : r.1 < r.2 := by omega
    have hav : ∀ q ∈ a.ranges, q.2 ≤ r.1 ∨ r.2 ≤ q.1 := by
      intro q hq
      have he := chain_elem hw.ch hq
      by_contra hc
      push_neg at hc
      exact hdisj (max q.1 r.1) (by omega) (by omega)
        ⟨q, hq, by omega, by omega⟩
    have hused : r.2 - r.1 ≤ a.used := by
      have := sum_le_sub_hole hw.ch hne hcap (Nat.zero_le r.1) hav
      have := hw.usedEq
      omega
    rcases hA : lookupStart a.ranges r.2 with _ | ext
    · -- no free range starts at r.2
      have hnostart := lookupStart_none hA
      rcases hB : findEnd a.ranges r.1 with _ | k
      · -- no free range ends at r.1 either: plain insertion
        have hnoend := findEnd_none hB
        have heq : a.free r =
            { a with used := a.used - rlen r,
                     ranges := insertSorted a.ranges r } := by
          unfold RangeAllocator.free
          rw [if_neg hemp, hA, hB]
        have hsep : ∀ q ∈ a.ranges, q.2 + g ≤ r.1 ∨ r.2 + g ≤ q.1 := by
          intro q hq
          rcases hav q hq with h | h
          · left
            have := hnoend q hq
            omega
          · right
            have := hnostart q hq
            omega
        obtain ⟨ic, is, im⟩ :=
          insertSorted_spec hw.ch (Nat.zero_le r.1) hne hcap hsep
        rw [heq]
        refine ⟨⟨ic, ?_⟩, rfl, fun i => im i⟩
        have h1 := hw.usedEq
        have h4 : rlen r = r.2 - r.1 := rfl
        show a.used - rlen r + sumLens (insertSorted a.ranges r) = a.capacity
        rw [is, h4]
        omega
      · -- coalesce with the predecessor ending at r.1
        obtain ⟨prev, hpmem, hpk, hpe⟩ := findEnd_some hB
        have heq : a.free r =
            { a with used := a.used - rlen r,
                     ranges := addToEnd a.ranges k (rlen r) } := by
          unfold RangeAllocator.free
          rw [if_neg hemp, hA, hB]
        have hadd : addToEnd a.ranges k (rlen r) =
            setEnd a.ranges prev.1 (prev.2 + rlen r) := by
          rw [← hpk]
          exact addToEnd_eq_setEnd
            (fun p hp hkk => chain_unique_key hw.ch hp hpmem hkk)
        have he' : prev.2 + rlen r = r.2 := by unfold rlen; omega
        have hsep : ∀ q ∈ a.ranges, prev.1 < q.1 →
            prev.2 + rlen r + g ≤ q.1 := by
          intro q hq hlt
          rcases hav q hq with h | h
          · have := chain_order hw.ch hpmem hq hlt
            have := chain_elem hw.ch hq
            omega
          · have := hnostart q hq
            omega
        obtain ⟨sc, ss, sm⟩ := setEnd_spec hw.ch hpmem
          (by omega) (by omega) hsep
        rw [heq, hadd]
        refine ⟨⟨sc, ?_⟩, rfl, fun i => ?_⟩
        · have h1 := hw.usedEq
          have h4 : rlen r = r.2 - r.1 := rfl
          show a.used - rlen r + sumLens (setEnd a.ranges prev.1
            (prev.2 + rlen r)) = a.capacity
          rw [ss, h4]
          omega
        · rw [sm i, he']
          constructor <;> rintro (h | h)
          · exact Or.inl h
          · right; omega
          · exact Or.inl h
          · right; omega
    · -- a free range starts exactly at r.2: extend it backwards
      obtain ⟨hextmem, hextkey⟩ := lookupStart_some hA
      have hext := chain_elem hw.ch hextmem
      have hkey : ext.1 - rlen r = r.1 := by unfold rlen; omega
      obtain ⟨rc, rs, rm, rmem⟩ := removeKey_spec hw.ch hextmem
      have hextsum : ext.2 - ext.1 ≤ sumLens a.ranges := rlen_le_sumLens hextmem
      have hafter : ∀ q ∈ a.ranges, q ≠ ext → r.2 ≤ q.1 → ext.2 + g ≤ q.1 := by
        intro q hq hqe hq1
        have hne2 : q.1 ≠ ext.1 := fun hc =>
          hqe (chain_unique_key hw.ch hq hextmem hc)
        exact chain_order hw.ch hextmem hq (by omega)
      rcases hB : findEnd (removeKey a.ranges ext.1) r.1 with _ | k
      · -- no further predecessor: insert the merged range (r.1, ext.2)
        have hnoend := findEnd_none hB
        have heq : a.free r =
            { a with used := a.used - rlen r,
                     ranges := insertSorted (removeKey a.ranges ext.1)
                       (r.1, ext.2) } := by
          unfold RangeAllocator.free
          rw [if_neg hemp, hA]
          dsimp only
          rw [hkey, hB]
        have hsep : ∀ q ∈ removeKey a.ranges ext.1,
            q.2 + g ≤ r.1 ∨ ext.2 + g ≤ q.1 := by
          intro q hq
          obtain ⟨hqa, hqe⟩ := rmem q hq
          rcases hav q hqa with h | h
          · left
            have := hnoend q hq
            omega
          · right
            exact hafter q hqa hqe h
        obtain ⟨ic, is, im⟩ := @insertSorted_spec g a.capacity 0 _
          (r.1, ext.2) rc (Nat.zero_le _) (by simp; omega) (by simpa using hext.2.2)
          hsep
        rw [heq]
        refine ⟨⟨ic, ?_⟩, rfl, fun i => ?_⟩
        · have h1 := hw.usedEq
          have h2 : rlen ((r.1 : Nat), ext.2) = ext.2 - r.1 := rfl
          have h4 : rlen r = r.2 - r.1 := rfl
          have h3 : rlen ext = ext.2 - ext.1 := rfl
          show a.used - rlen r + sumLens (insertSorted
            (removeKey a.ranges ext.1) (r.1, ext.2)) = a.capacity
          rw [is, rs, h2, h3, h4]
          omega
        · rw [im i, rm i]
          simp only
          constructor
          · rintro (⟨hm, hni⟩ | hi)
            · exact Or.inl hm
            · by_cases hv : i < r.2
              · right; omega
              · exact Or.inl ⟨ext, hextmem, by omega, by omega⟩
          · rintro (hm | hi)
            · by_cases hv : ext.1 ≤ i ∧ i < ext.2
              · right
                constructor
                · omega
                · exact hv.2
              · exact Or.inl ⟨hm, hv⟩
            · right
              constructor
              · exact hi.1
              · omega
      · -- merge on both sides
        obtain ⟨prev, hpmem, hpk, hpe⟩ := findEnd_some hB
        obtain ⟨hpa, hpne⟩ := rmem prev hpmem
        have heq : a.free r =
            { a with used := a.used - rlen r,
                     ranges := setEnd (removeKey a.ranges ext.1) k ext.2 } := by
          unfold RangeAllocator.free
          rw [if_neg hemp, hA]
          dsimp only
          rw [hkey, hB]
        have hsep : ∀ q ∈ removeKey a.ranges ext.1, prev.1 < q.1 →
            ext.2 + g ≤ q.1 := by
          intro q hq hlt
          obtain ⟨hqa, hqe⟩ := rmem q hq
          rcases hav q hqa with h | h
          · have := chain_order rc hpmem hq hlt
            have := chain_elem rc hq
            omega
          · exact hafter q hqa hqe h
        obtain ⟨sc, ss, sm⟩ := setEnd_spec rc hpmem (by omega) (by omega) hsep
        rw [heq, ← hpk]
        refine ⟨⟨sc, ?_⟩, rfl, fun i => ?_⟩
        · have h1 := hw.usedEq
          have h4 : rlen r = r.2 - r.1 := rfl
          have h3 : rlen ext = ext.2 - ext.1 := rfl
          show a.used - rlen r + sumLens (setEnd
            (removeKey a.ranges ext.1) prev.1 ext.2) = a.capacity
          rw [ss, rs, h3, h4, hpe]
          omega
        · rw [sm i, rm i, hpe]
          constructor
          · rintro (⟨hm, hni⟩ | hi)
            · exact Or.inl hm
            · by_cases hv : i < r.2
              · right; omega
              · exact Or.inl ⟨ext, hextmem, by omega, by omega⟩
          · rintro (hm | hi)
            · by_cases hv : ext.1 ≤ i ∧ i < ext.2
              · right
                constructor
                · omega
                · exact hv.2
              · exact Or.inl ⟨hm, hv⟩
            · right
              constructor
              · exact hi.1
              · omega

/-- State projection of `try_allocate` (the state after the call, which is
unchanged on failure). -/
def tryAllocState (a : RangeAllocator) (size : Nat) : RangeAllocator :=
  match a.tryAllocate size with
  | .ok (_, a') => a'
  | .error _ => a

theorem tryAllocate_preserves {g : Nat} {a : RangeAllocator} {size : Nat}
    (hw : WFA g a) : WFA g (tryAllocState a size) ∧
    (tryAllocState a size).capacity = a.capacity := by
  unfold tryAllocState RangeAllocator.tryAllocate
  rcases hfind : a.ranges.find? (fun p => size ≤ rlen p) with _ | p
  · exact ⟨hw, rfl⟩
  · have hmem := List.mem_of_find?_eq_some hfind
    have hsz : size ≤ rlen p := by simpa using List.find?_some hfind
    have hp := chain_elem hw.ch hmem
    obtain ⟨rc, rs, rm, rmem⟩ := removeKey_spec hw.ch hmem
    have hsep : ∀ q ∈ removeKey a.ranges p.1,
        q.2 + g ≤ p.1 + size ∨ p.2 + g ≤ q.1 := by
      intro q hq
      obtain ⟨hqa, hqe⟩ := rmem q hq
      rcases Nat.lt_trichotomy q.1 p.1 with h | h | h
      · have := chain_order hw.ch hqa hmem h
        left; omega
      · exact absurd (chain_unique_key hw.ch hqa hmem h) hqe
      · have := chain_order hw.ch hmem hqa h
        right; omega
    have hrs : rlen p ≤ sumLens a.ranges := rlen_le_sumLens hmem
    by_cases hcase : p.1 + size < p.2
    · simp only [if_pos hcase]
      obtain ⟨ic, is, im⟩ := @insertSorted_spec g a.capacity 0 _
        (p.1 + size, p.2) rc (Nat.zero_le _) (by simpa using hcase)
        (by simpa using hp.2.2) hsep
      refine ⟨⟨ic, ?_⟩, trivial⟩
      have h1 := hw.usedEq
      have h2 : rlen ((p.1 + size : Nat), p.2) = p.2 - (p.1 + size) := rfl
      have h3 : rlen p = p.2 - p.1 := rfl
      show a.used + size + sumLens (insertSorted
        (removeKey a.ranges p.1) (p.1 + size, p.2)) = a.capacity
      rw [is, rs, h2, h3]
      rw [h3] at hsz hrs
      omega
    · simp only [if_neg hcase]
      refine ⟨⟨rc, ?_⟩, trivial⟩
      have h1 := hw.usedEq
      have h3 : rlen p = p.2 - p.1 := rfl
      show a.used + size + sumLens (removeKey a.ranges p.1) = a.capacity
      rw [rs, h3]
      rw [h3] at hsz hrs
      omega

theorem allocateNew_preserves {g : Nat} {a : RangeAllocator} {size : Nat}
    (hw : WFA g a) : WFA g (a.allocateNew size).2 ∧
    a.capacity ≤ (a.allocateNew size).2.capacity := by
  refine ⟨⟨chain_mono_cap (Nat.le_add_right a.capacity size) hw.ch, ?_⟩,
    Nat.le_add_right a.capacity size⟩
  have := hw.usedEq
  show a.used + size + sumLens a.ranges = a.capacity + size
  omega

theorem allocate_preserves {g : Nat} {a : RangeAllocator} {size : Nat}
    (hw : WFA g a) : WFA g (a.allocate size).2 ∧
    a.capacity ≤ (a.allocate size).2.capacity := by
  unfold RangeAllocator.allocate
  rcases h : a.tryAllocate size with e | ⟨r, a'⟩
  · exact allocateNew_preserves hw
  · have h2 := @tryAllocate_preserves g a size hw
    unfold tryAllocState at h2
    rw [h] at h2
    dsimp only at h2 ⊢
    exact ⟨h2.1, le_of_eq h2.2.symm⟩

theorem reserve_preserves {a : RangeAllocator} {size : Nat}
    (hw : WFA 0 a) (hsz : 0 < size) : WFA 0 (a.reserve size) ∧
    a.capacity ≤ (a.reserve size).capacity := by
  have hsep : ∀ q ∈ a.ranges, q.2 + 0 ≤ a.capacity ∨
      a.capacity + size + 0 ≤ q.1 := by
    intro q hq
    have := chain_elem hw.ch hq
    left; omega
  obtain ⟨ic, is, im⟩ := @insertSorted_spec 0 (a.capacity + size) 0 _
    (a.capacity, a.capacity + size)
    (chain_mono_cap (by omega) hw.ch) (Nat.zero_le _)
    (by simpa using hsz) (by simp) hsep
  refine ⟨⟨ic, ?_⟩, by simp [RangeAllocator.reserve]⟩
  have h1 := hw.usedEq
  have h2 : rlen ((a.capacity : Nat), a.capacity + size) = size := by
    unfold rlen; omega
  show a.used + sumLens (insertSorted a.ranges (a.capacity, a.capacity + size)) =
    a.capacity + size
  rw [is, h2]
  omega

theorem ensureCapacity_preserves {a : RangeAllocator} {c : Nat}
    (hw : WFA 0 a) : WFA 0 (a.ensureCapacity c) ∧
    a.capacity ≤ (a.ensureCapacity c).capacity := by
  unfold RangeAllocator.ensureCapacity
  by_cases h : a.capacity < c
  · rw [if_pos h]
    exact reserve_preserves hw (by omega)
  · rw [if_neg h]
    exact ⟨hw, le_refl _⟩

theorem sumLens_append : ∀ l1 l2 : List (Nat × Nat),
    sumLens (l1 ++ l2) = sumLens l1 + sumLens l2
  | [], l2 => by simp [sumLens]
  | r :: rest, l2 => by
    show rlen r + sumLens (rest ++ l2) = rlen r + sumLens rest + sumLens l2
    rw [sumLens_append rest l2]
    omega

theorem chain_append_first {g cap lo : Nat} {P R : List (Nat × Nat)}
    {r : Nat × Nat} (hc : chain g cap lo (P ++ r :: R)) :
    ∀ p ∈ P, p.1 < r.1 := by
  induction P generalizing lo with
  | nil => intro p hp; cases hp
  | cons q rest ih =>
    intro p hp
    obtain ⟨h1, h2, h3, h4⟩ := hc
    rcases List.mem_cons.mp hp with rfl | hp2
    · have hr := chain_elem h4 (show r ∈ rest ++ r :: R by simp)
      omega
    · exact ih h4 p hp2

theorem chain_append_before {g cap lo : Nat} {P R : List (Nat × Nat)}
    {r : Nat × Nat} (hc : chain g cap lo (P ++ r :: R)) :
    ∀ p ∈ P, p.2 + g ≤ r.1 := by
  intro p hp
  exact chain_order hc (by simp [hp]) (by simp)
    (chain_append_first hc p hp)

theorem chain_suffix {g cap lo : Nat} {P R : List (Nat × Nat)}
    {r : Nat × Nat} (hc : chain g cap lo (P ++ r :: R)) :
    chain g cap (r.2 + g) R := by
  induction P generalizing lo with
  | nil => exact hc.2.2.2
  | cons q rest ih => exact ih hc.2.2.2

theorem insertSorted_append : ∀ {P R : List (Nat × Nat)} {x : Nat × Nat},
    (∀ p ∈ P, p.1 < x.1) →
    insertSorted (P ++ R) x = P ++ insertSorted R x := by
  intro P
  induction P with
  | nil => intro R x _; rfl
  | cons q rest ih =>
    intro R x h
    have hq := h q (by simp)
    show insertSorted (q :: (rest ++ R)) x = q :: (rest ++ insertSorted R x)
    simp only [insertSorted]
    rw [if_neg (by omega), if_neg (by omega),
      ih (fun p hp => h p (by simp [hp]))]

theorem fold_removeKey_prefix :
    ∀ (out P T : List (Nat × Nat)), out.map (·.1) = P.map (·.1) →
    out.foldl (fun rs x => removeKey rs x.1) (P ++ T) = T := by
  intro out
  induction out with
  | nil =>
    intro P T h
    rw [List.map_nil] at h
    rw [show P = [] from by simpa using h.symm]
    rfl
  | cons x out' ih =>
    intro P T h
    cases P with
    | nil => simp at h
    | cons p P' =>
      simp only [List.map_cons, List.cons.injEq] at h
      have hstep : removeKey ((p :: P') ++ T) x.1 = P' ++ T := by
        unfold removeKey
        rw [List.cons_append, List.eraseP_cons]
        simp [h.1]
      rw [List.foldl_cons, hstep]
      exact ih P' T h.2

theorem map_keys_set {l : List (Nat × Nat)} {i y : Nat} {d : Nat × Nat}
    (h : i < l.length) :
    (l.set i ((l.getD i d).1, y)).map (·.1) = l.map (·.1) := by
  induction l generalizing i with
  | nil => cases h
  | cons a t ih =>
    cases i with
    | zero => simp [List.getD]
    | succ n =>
      simp only [List.set, List.map_cons, List.cons.injEq]
      refine ⟨trivial, ?_⟩
      have h2 := @ih n (by simpa using h)
      simpa [List.getD] using h2

namespace RangeAllocator

theorem allocFragLoop_zero :
    ∀ (todo out : List (Nat × Nat)) (st : RangeAllocator),
    allocFragLoop todo out 0 st = (out, 0, st) := by
  intro todo out st
  cases todo with
  | nil => rfl
  | cons r rest =>
    show (if (0 : Nat) = 0 then ((out, 0, st) : _) else _) = (out, 0, st)
    rw [if_pos rfl]

/-- The residual allocator state of the scan loop's stopping arm: the
stopped-in range `r` is split at `r.1 + n` in the map and the used counter
becomes `u`. -/
def fragStop (st : RangeAllocator) (r : Nat × Nat) (n u : Nat) :
    RangeAllocator :=
  { st with used := u,
            ranges := if r.1 + n < r.2 then
                insertSorted (removeKey st.ranges r.1) (r.1 + n, r.2)
              else removeKey st.ranges r.1 }

theorem fragStop_used_update (st : RangeAllocator) (k : Nat)
    (r : Nat × Nat) (n u : Nat) :
    fragStop { st with used := k } r n u = fragStop st r n u := rfl

/-- Complete characterization of the `allocate_fragmented` scan loop: either
the remainder exceeds the whole free list (which is then consumed wholesale
with the state's map untouched), or the scan stops inside some range `r`
after a fully-consumed prefix `P`, splitting `r` in the map. -/
theorem allocFragLoop_char :
    ∀ (todo out : List (Nat × Nat)) (rem : Nat) (st : RangeAllocator),
    0 < rem →
    (sumLens todo < rem ∧
      allocFragLoop todo out rem st =
        (out ++ todo, rem - sumLens todo,
          { st with used := st.used + sumLens todo })) ∨
    (∃ P r R, todo = P ++ r :: R ∧ sumLens P < rem ∧
      rem ≤ sumLens P + rlen r ∧
      allocFragLoop todo out rem st =
        (out ++ P ++ [(r.1, r.1 + (rem - sumLens P))], 0,
          fragStop st r (rem - sumLens P) (st.used + rem))) := by
  intro todo
  induction todo with
  | nil =>
    intro out rem st h
    left
    refine ⟨by simp [sumLens]; omega, ?_⟩
    show (out, rem, st) = _
    rw [show sumLens [] = 0 from rfl]
    rw [show out ++ ([] : List (Nat × Nat)) = out from by simp,
      show rem - 0 = rem from rfl,
      show ({ st with used := st.used + 0 } : RangeAllocator) = st from by
        simp]
  | cons r rest ih =>
    intro out rem st h
    by_cases hlt : rlen r < rem
    · have hstep : allocFragLoop (r :: rest) out rem st =
          allocFragLoop rest (out ++ [r]) (rem - rlen r)
            { st with used := st.used + rlen r } := by
        show (if rem = 0 then _ else if rlen r < rem then _ else _) = _
        rw [if_neg (by omega), if_pos hlt]
      rcases ih (out ++ [r]) (rem - rlen r)
          { st with used := st.used + rlen r } (by omega) with
        ⟨hsum, heq⟩ | ⟨P, r', R, hsplit, h1, h2, heq⟩
      · left
        have hs : sumLens (r :: rest) = rlen r + sumLens rest := rfl
        refine ⟨by omega, ?_⟩
        rw [hstep, heq, hs]
        rw [show (out ++ [r]) ++ rest = out ++ r :: rest from by simp,
          show rem - rlen r - sumLens rest = rem - (rlen r + sumLens rest)
            from by omega]
        rw [show ({ st with used := st.used + rlen r } : RangeAllocator).used
            + sumLens rest = st.used + (rlen r + sumLens rest) from by
          show st.used + rlen r + sumLens rest = _; omega]
      · right
        refine ⟨r :: P, r', R, by simp [hsplit], ?_, ?_, ?_⟩
        · show rlen r + sumLens P < rem; omega
        · show rem ≤ rlen r + sumLens P + rlen r'; omega
        · rw [hstep, heq, fragStop_used_update]
          rw [show (out ++ [r]) ++ P = out ++ r :: P from by simp,
            show rem - rlen r - sumLens P = rem - sumLens (r :: P) from by
              show _ = rem - (rlen r + sumLens P); omega,
            show ({ st with used := st.used + rlen r } : RangeAllocator).used
              + (rem - rlen r) = st.used + rem from by
              show st.used + rlen r + (rem - rlen r) = _; omega]
    · right
      refine ⟨[], r, rest, by simp, by simp [sumLens]; omega,
        by simp [sumLens]; omega, ?_⟩
      have hstep : allocFragLoop (r :: rest) out rem st =
          (out ++ [(r.1, r.1 + rem)], 0, fragStop st r rem (st.used + rem)) := by
        show (if rem = 0 then _ else if rlen r < rem then _ else _) = _
        rw [if_neg (by omega), if_neg hlt]
        unfold fragStop
        dsimp only
        by_cases hc : r.1 + rem < r.2
        · rw [if_pos hc, if_pos hc]
        · rw [if_neg hc, if_neg hc]
      rw [hstep]
      rw [show sumLens ([] : List (Nat × Nat)) = 0 from rfl,
        show out ++ ([] : List (Nat × Nat)) ++ [(r.1, r.1 + (rem - 0))]
          = out ++ [(r.1, r.1 + rem)] from by simp,
        show rem - 0 = rem from rfl]

end RangeAllocator

theorem removeKey_not_present {l : List (Nat × Nat)} {k : Nat}
    (h : ∀ q ∈ l, q.1 ≠ k) : removeKey l k = l := by
  unfold removeKey
  apply List.eraseP_of_forall_not
  intro q hq
  simp [h q hq]

theorem removeKey_append_mid {P R : List (Nat × Nat)} {r : Nat × Nat}
    (h : ∀ p ∈ P, p.1 ≠ r.1) : removeKey (P ++ r :: R) r.1 = P ++ R := by
  unfold removeKey
  rw [List.eraseP_append_right]
  · rw [List.eraseP_cons]
    simp
  · intro p hp
    simp [h p hp]

theorem insertSorted_front {R : List (Nat × Nat)} {x : Nat × Nat}
    (h : ∀ q ∈ R, x.1 < q.1) : insertSorted R x = x :: R := by
  cases R with
  | nil => rfl
  | cons q rest =>
    simp only [insertSorted]
    rw [if_pos (h q (by simp))]

namespace RangeAllocator

theorem allocateFragmented_preserves {g : Nat} {a : RangeAllocator}
    {size : Nat} (hw : WFA g a) :
    WFA g (a.allocateFragmented size).2 ∧
    a.capacity ≤ (a.allocateFragmented size).2.capacity := by
  by_cases hz : size = 0
  · subst hz
    have h0 := allocFragLoop_zero a.ranges [] a
    unfold allocateFragmented
    rw [h0]
    exact ⟨hw, le_refl _⟩
  · have hpos : 0 < size := by omega
    rcases allocFragLoop_char a.ranges [] size a hpos with
      ⟨hsum, heq⟩ | ⟨P, r, R, hsplit, h1, h2, heq⟩
    · -- the loop consumed every free range; the tail comes from allocate_new
      rw [List.nil_append] at heq
      have hrem : size - sumLens a.ranges ≠ 0 := by omega
      have hs0 : sumLens ([] : List (Nat × Nat)) = 0 := rfl
      have hu := hw.usedEq
      unfold allocateFragmented
      rw [heq]
      dsimp only
      rw [if_pos hrem]
      by_cases hemp : a.ranges = []
      · rw [hemp]
        rw [hemp] at hu
        refine ⟨⟨trivial, ?_⟩, ?_⟩
        · show a.used + sumLens ([] : List (Nat × Nat)) +
            (size - sumLens ([] : List (Nat × Nat))) +
            sumLens ([] : List (Nat × Nat)) =
            a.capacity + (size - sumLens ([] : List (Nat × Nat)))
          omega
        · show a.capacity ≤
            a.capacity + (size - sumLens ([] : List (Nat × Nat)))
          omega
      · have hie : a.ranges.isEmpty = false := by
          cases hA : a.ranges with
          | nil => exact absurd hA hemp
          | cons q qs => rfl
        rw [hie, if_neg Bool.false_ne_true]
        dsimp only [RangeAllocator.allocateNew]
        have hlen : a.ranges.length - 1 < a.ranges.length := by
          have : a.ranges.length ≠ 0 :=
            fun h => hemp (List.eq_nil_of_length_eq_zero h)
          omega
        by_cases hadj : (a.ranges.getD (a.ranges.length - 1)
            ((0 : Nat), (0 : Nat))).2 = a.capacity
        · rw [if_pos hadj]
          have hkeys := @map_keys_set a.ranges (a.ranges.length - 1)
            (a.capacity + (size - sumLens a.ranges)) ((0 : Nat), (0 : Nat))
            hlen
          have hfold := fold_removeKey_prefix
            (a.ranges.set (a.ranges.length - 1)
              ((a.ranges.getD (a.ranges.length - 1)
                ((0 : Nat), (0 : Nat))).1,
               a.capacity + (size - sumLens a.ranges)))
            a.ranges [] hkeys
          rw [List.append_nil] at hfold
          rw [hfold]
          refine ⟨⟨trivial, ?_⟩, ?_⟩
          · show a.used + sumLens a.ranges + (size - sumLens a.ranges) +
              sumLens ([] : List (Nat × Nat)) =
              a.capacity + (size - sumLens a.ranges)
            omega
          · show a.capacity ≤ a.capacity + (size - sumLens a.ranges)
            omega
        · rw [if_neg hadj]
          have hfold : (a.ranges ++
              [(a.capacity, a.capacity + (size - sumLens a.ranges))]).foldl
              (fun rs x => removeKey rs x.1) a.ranges = [] := by
            rw [List.foldl_append]
            have h5 := fold_removeKey_prefix a.ranges a.ranges [] rfl
            rw [List.append_nil] at h5
            rw [h5]
            rfl
          rw [hfold]
          refine ⟨⟨trivial, ?_⟩, ?_⟩
          · show a.used + sumLens a.ranges + (size - sumLens a.ranges) +
              sumLens ([] : List (Nat × Nat)) =
              a.capacity + (size - sumLens a.ranges)
            omega
          · show a.capacity ≤ a.capacity + (size - sumLens a.ranges)
            omega
    · -- the loop stopped inside `r`: a.ranges = P ++ r :: R
      rw [List.nil_append] at heq
      have hc0 := hw.ch
      rw [hsplit] at hc0
      have hPk : ∀ p ∈ P, p.1 < r.1 := chain_append_first hc0
      have hRc : chain g a.capacity (r.2 + g) R := chain_suffix hc0
      have hre := chain_elem hc0 (show r ∈ P ++ r :: R by simp)
      have hrk : removeKey a.ranges r.1 = P ++ R := by
        rw [hsplit]
        exact removeKey_append_mid (fun p hp => Nat.ne_of_lt (hPk p hp))
      have hRk : ∀ q ∈ R, r.2 + g ≤ q.1 := fun q hq => (chain_elem hRc hq).1
      have hsum0 : sumLens a.ranges = sumLens P + (rlen r + sumLens R) := by
        rw [hsplit, sumLens_append]
        rfl
      have hu := hw.usedEq
      have h4 : rlen r = r.2 - r.1 := rfl
      unfold allocateFragmented
      rw [heq]
      dsimp only
      rw [if_neg (show ¬ (0 : Nat) ≠ 0 from by omega)]
      by_cases hins : r.1 + (size - sumLens P) < r.2
      · have hranges : (fragStop a r (size - sumLens P)
            (a.used + size)).ranges =
            P ++ ((r.1 + (size - sumLens P), r.2) :: R) := by
          show (if r.1 + (size - sumLens P) < r.2 then
              insertSorted (removeKey a.ranges r.1)
                (r.1 + (size - sumLens P), r.2)
            else removeKey a.ranges r.1) = _
          rw [if_pos hins, hrk,
            insertSorted_append (fun p hp => by have := hPk p hp; omega),
            insertSorted_front (fun q hq => by have := hRk q hq; omega)]
        have hfold : (P ++ [(r.1, r.1 + (size - sumLens P))]).foldl
            (fun rs x => removeKey rs x.1)
            (fragStop a r (size - sumLens P) (a.used + size)).ranges =
            (r.1 + (size - sumLens P), r.2) :: R := by
          rw [hranges, List.foldl_append,
            fold_removeKey_prefix P P
              ((r.1 + (size - sumLens P), r.2) :: R) rfl]
          show removeKey ((r.1 + (size - sumLens P), r.2) :: R) r.1 = _
          refine removeKey_not_present ?_
          intro q hq
          rcases List.mem_cons.mp hq with rfl | hq2
          · show r.1 + (size - sumLens P) ≠ r.1
            omega
          · have := hRk q hq2
            omega
        rw [hfold]
        refine ⟨⟨⟨Nat.zero_le _, hins, hre.2.2, hRc⟩, ?_⟩, ?_⟩
        · show a.used + size +
            (rlen (r.1 + (size - sumLens P), r.2) + sumLens R) = a.capacity
          have h3 : rlen (r.1 + (size - sumLens P), r.2) =
            r.2 - (r.1 + (size - sumLens P)) := rfl
          rw [h4] at h2
          omega
        · exact le_refl _
      · have hranges : (fragStop a r (size - sumLens P)
            (a.used + size)).ranges = P ++ R := by
          show (if r.1 + (size - sumLens P) < r.2 then
              insertSorted (removeKey a.ranges r.1)
                (r.1 + (size - sumLens P), r.2)
            else removeKey a.ranges r.1) = _
          rw [if_neg hins, hrk]
        have hfold : (P ++ [(r.1, r.1 + (size - sumLens P))]).foldl
            (fun rs x => removeKey rs x.1)
            (fragStop a r (size - sumLens P) (a.used + size)).ranges =
            R := by
          rw [hranges, List.foldl_append, fold_removeKey_prefix P P R rfl]
          show removeKey R r.1 = R
          refine removeKey_not_present ?_
          intro q hq
          have := hRk q hq
          have := hre.2.1
          omega
        rw [hfold]
        refine ⟨⟨chain_mono_lo (Nat.zero_le _) hRc, ?_⟩, ?_⟩
        · show a.used + size + sumLens R = a.capacity
          rw [h4] at h2
          have := hre.2.1
          omega
        · exact le_refl _

end RangeAllocator

namespace RangeAllocator

theorem usedRangesGo_spec {g cap : Nat} :
    ∀ {l : List (Nat × Nat)} {lst : Nat}, chain g cap lst l → lst ≤ cap →
    ∀ i, memR (usedRangesGo cap lst l) i ↔
      (lst ≤ i ∧ i < cap ∧ ¬ memR l i) := by
  intro l
  induction l with
  | nil =>
    intro lst hc hle i
    show memR (if lst ≠ cap then [(lst, cap)] else []) i ↔ _
    by_cases h : lst = cap
    · rw [if_neg (show ¬ lst ≠ cap from by omega)]
      constructor
      · intro hm
        exact absurd hm (memR_nil i)
      · rintro ⟨ha, hb, _⟩
        omega
    · rw [if_pos h, memR_cons]
      constructor
      · rintro (⟨ha, hb⟩ | hm)
        · exact ⟨ha, hb, memR_nil i⟩
        · exact absurd hm (memR_nil i)
      · rintro ⟨ha, hb, _⟩
        exact Or.inl ⟨ha, hb⟩
  | cons f rest ih =>
    intro lst hc hle i
    obtain ⟨h1, h2, h3, h4⟩ := hc
    have hc2 : chain g cap f.2 rest := chain_mono_lo (by omega) h4
    have hrest : ∀ q ∈ rest, f.2 ≤ q.1 := by
      intro q hq
      have := chain_elem h4 hq
      omega
    have ihx := ih hc2 h3 i
    have hstep : usedRangesGo cap lst (f :: rest) =
        if lst < f.1 then (lst, f.1) :: usedRangesGo cap f.2 rest
        else usedRangesGo cap f.2 rest := rfl
    rw [hstep]
    by_cases hlt : lst < f.1
    · rw [if_pos hlt, memR_cons, ihx]
      constructor
      · rintro (⟨ha, hb⟩ | ⟨ha, hb, hnm⟩)
        · refine ⟨by omega, by omega, ?_⟩
          rw [memR_cons]
          rintro (⟨hx, hy⟩ | ⟨q, hq, hx, hy⟩)
          · omega
          · have := hrest q hq
            omega
        · refine ⟨by omega, hb, ?_⟩
          rw [memR_cons]
          rintro (⟨hx, hy⟩ | hm)
          · omega
          · exact hnm hm
      · rintro ⟨ha, hb, hnm⟩
        rw [memR_cons] at hnm
        by_cases hcase : i < f.1
        · exact Or.inl ⟨ha, hcase⟩
        · refine Or.inr ⟨?_, hb, fun hm => hnm (Or.inr hm)⟩
          by_contra hx
          exact hnm (Or.inl ⟨by omega, by omega⟩)
    · rw [if_neg hlt, ihx]
      constructor
      · rintro ⟨ha, hb, hnm⟩
        refine ⟨by omega, hb, ?_⟩
        rw [memR_cons]
        rintro (⟨hx, hy⟩ | hm)
        · omega
        · exact hnm hm
      · rintro ⟨ha, hb, hnm⟩
        rw [memR_cons] at hnm
        refine ⟨?_, hb, fun hm => hnm (Or.inr hm)⟩
        by_contra hx
        exact hnm (Or.inl ⟨by omega, by omega⟩)

theorem usedRanges_complement {g : Nat} {a : RangeAllocator} (hw : WFA g a) :
    ∀ i, memR a.usedRanges i ↔ (i < a.capacity ∧ ¬ memR a.ranges i) := by
  intro i
  have hs := usedRangesGo_spec hw.ch (Nat.zero_le _) i
  unfold usedRanges
  rw [hs]
  constructor
  · rintro ⟨_, hb, hc⟩
    exact ⟨hb, hc⟩
  · rintro ⟨hb, hc⟩
    exact ⟨Nat.zero_le _, hb, hc⟩

/-- `try_allocate_fragmented` as a state transformer (state kept on error). -/
def tryAllocFragState (a : RangeAllocator) (size : Nat) : RangeAllocator :=
  match a.tryAllocateFragmented size with
  | .ok (_, a2) => a2
  | .error _ => a

/-- The allocator states reachable by the operation sequences of the claim,
with `reserve` (hence `ensure_capacity`, which only ever passes a positive
size) restricted to positive sizes, and `free` restricted to ranges that lie
within the capacity and carry no currently-free index — both guaranteed for
ranges previously handed out and not yet freed. -/
inductive Reach : RangeAllocator → Prop where
  | new : Reach RangeAllocator.new
  | withCapacity (c : Nat) : Reach (RangeAllocator.withCapacity c)
  | allocate {a : RangeAllocator} (size : Nat) :
      Reach a → Reach (a.allocate size).2
  | tryAllocate {a : RangeAllocator} (size : Nat) :
      Reach a → Reach (tryAllocState a size)
  | allocateFragmented {a : RangeAllocator} (size : Nat) :
      Reach a → Reach (a.allocateFragmented size).2
  | tryAllocateFragmented {a : RangeAllocator} (size : Nat) :
      Reach a → Reach (tryAllocFragState a size)
  | reserve {a : RangeAllocator} (size : Nat) (hpos : 0 < size) :
      Reach a → Reach (a.reserve size)
  | ensureCapacity {a : RangeAllocator} (c : Nat) :
      Reach a → Reach (a.ensureCapacity c)
  | free {a : RangeAllocator} (r : Nat × Nat) (hcap : r.2 ≤ a.capacity)
      (hdisj : ∀ i, r.1 ≤ i → i < r.2 → ¬ memR a.ranges i) :
      Reach a → Reach (a.free r)

theorem Reach_WFA {a : RangeAllocator} (h : Reach a) : WFA 0 a := by
  induction h with
  | new => exact ⟨trivial, rfl⟩
  | withCapacity c =>
    unfold RangeAllocator.withCapacity
    by_cases hc : c = 0
    · rw [if_pos hc]
      exact ⟨trivial, rfl⟩
    · rw [if_neg hc]
      refine ⟨⟨Nat.zero_le _, by omega, le_refl _, trivial⟩, ?_⟩
      show 0 + ((c - 0) + 0) = c
      omega
  | allocate size _ ih => exact (allocate_preserves ih).1
  | tryAllocate size _ ih => exact (tryAllocate_preserves ih).1
  | allocateFragmented size _ ih => exact (allocateFragmented_preserves ih).1
  | @tryAllocateFragmented b size _ ih =>
    unfold tryAllocFragState RangeAllocator.tryAllocateFragmented
    by_cases hc : b.available < size
    · rw [if_pos hc]
      exact ih
    · rw [if_neg hc]
      exact (allocateFragmented_preserves ih).1
  | reserve size hpos _ ih => exact (reserve_preserves ih hpos).1
  | ensureCapacity c _ ih => exact (ensureCapacity_preserves ih).1
  | free r hcap hdisj _ ih => exact (free_spec (by omega) ih hcap hdisj).1

end RangeAllocator

/-- The C6 pathological state: `reserve 0` leaves a degenerate empty free
range `(2, 2)` in the map, which a later growth re-covers; after freeing
everything the map is `[(0, 5), (2, 2)]` and the used-range walk reports
`[(2, 5)]` although nothing is used. -/
def c6Bad : RangeAllocator :=
  (((((RangeAllocator.new.allocate 2).2.reserve 0).allocate 3).2.free
    (0, 1)).free (3, 5)).free (1, 3)

/-- C6 counterexample.  Two operation sequences covered by the claim break
it: (a) `with_capacity(10)` then `reserve(5)` leaves the touching free
ranges `[0,10)` and `[10,15)`, violating "no two free ranges overlap or
touch"; (b) `allocate(2)`, `reserve(0)`, `allocate(3)`, then freeing the
handed-out ranges `[0,1)`, `[3,5)`, `[1,2)+[2,3)` leaves `used = 0` with
every index free in the map, yet `used_ranges` reports `[2,5)`, violating
the complement property (index 3 is both free and reported used). -/
theorem C6_counterexample :
    ((RangeAllocator.withCapacity 10).reserve 5).ranges =
      [(0, 10), (10, 15)] ∧
    c6Bad.used = 0 ∧ c6Bad.usedRanges = [(2, 5)] ∧
    memR c6Bad.ranges 3 ∧ memR c6Bad.usedRanges 3 := by
  refine ⟨by decide, by decide, by decide, ⟨(0, 5), by decide, by decide⟩,
    ⟨(2, 5), by decide, by decide⟩⟩

/-- C6 (amended): for every allocator state reachable by construction,
`allocate`, `try_allocate`, `allocate_fragmented`, `try_allocate_fragmented`,
positive `reserve`, `ensure_capacity`, and `free` of ranges inside the
capacity that hold no currently-free index (as ranges previously handed out
and not yet freed do), the state satisfies `used + available = capacity`,
the free ranges are pairwise disjoint (they may touch), and `used_ranges`
enumerates exactly the complement of the free indices within
`[0, capacity)`. -/
theorem C6_allocator_invariant {a : RangeAllocator} (h : RangeAllocator.Reach a) :
    a.used + a.available = a.capacity ∧
    (∀ p ∈ a.ranges, ∀ q ∈ a.ranges, p ≠ q → p.2 ≤ q.1 ∨ q.2 ≤ p.1) ∧
    (∀ i, memR a.usedRanges i ↔ (i < a.capacity ∧ ¬ memR a.ranges i)) := by
  have hw := RangeAllocator.Reach_WFA h
  refine ⟨?_, ?_, RangeAllocator.usedRanges_complement hw⟩
  · have h1 := hw.usedEq
    show a.used + (a.capacity - a.used) = a.capacity
    omega
  · intro p hp q hq hne
    exact chain_pairwise_disjoint hw.ch hp hq hne

/-- C6 witness: the amended invariant holds at the concrete reachable state
`with_capacity(4)` followed by `allocate(3)`. -/
theorem C6_allocator_invariant_witness :
    ((RangeAllocator.withCapacity 4).allocate 3).2.used +
      ((RangeAllocator.withCapacity 4).allocate 3).2.available =
      ((RangeAllocator.withCapacity 4).allocate 3).2.capacity ∧
    (∀ p ∈ ((RangeAllocator.withCapacity 4).allocate 3).2.ranges,
      ∀ q ∈ ((RangeAllocator.withCapacity 4).allocate 3).2.ranges,
      p ≠ q → p.2 ≤ q.1 ∨ q.2 ≤ p.1) ∧
    (∀ i, memR ((RangeAllocator.withCapacity 4).allocate 3).2.usedRanges i ↔
      (i < ((RangeAllocator.withCapacity 4).allocate 3).2.capacity ∧
        ¬ memR ((RangeAllocator.withCapacity 4).allocate 3).2.ranges i)) :=
  C6_allocator_invariant
    (RangeAllocator.Reach.allocate 3 (RangeAllocator.Reach.withCapacity 4))

/-- Folding `free` over a list of pairwise-disjoint, currently-used ranges:
the no-touch invariant (gap 1) is preserved, the capacity is unchanged, and
the free index set grows by exactly the freed indices. -/
theorem free_fold_spec {N : Nat} :
    ∀ (L : List (Nat × Nat)) (a : RangeAllocator), WFA 1 a →
    a.capacity = N →
    (∀ r ∈ L, r.1 < r.2 ∧ r.2 ≤ N) →
    List.Pairwise (fun p q : Nat × Nat => p.2 ≤ q.1 ∨ q.2 ≤ p.1) L →
    (∀ r ∈ L, ∀ i, r.1 ≤ i → i < r.2 → ¬ memR a.ranges i) →
    WFA 1 (L.foldl RangeAllocator.free a) ∧
    (L.foldl RangeAllocator.free a).capacity = N ∧
    (∀ i, memR (L.foldl RangeAllocator.free a).ranges i ↔
      (memR a.ranges i ∨ memR L i)) := by
  intro L
  induction L with
  | nil =>
    intro a hw hcap _ _ _
    refine ⟨hw, hcap, fun i => ?_⟩
    rw [List.foldl_nil]
    constructor
    · exact Or.inl
    · rintro (hm | hm)
      · exact hm
      · exact absurd hm (memR_nil i)
  | cons r L2 ih =>
    intro a hw hcap hbound hpair hnf
    have hb := hbound r (by simp)
    obtain ⟨hfw, hfc, hfm⟩ := free_spec (le_refl 1) hw
      (by omega) (hnf r (by simp))
    have hhead : ∀ q ∈ L2, r.2 ≤ q.1 ∨ q.2 ≤ r.1 :=
      fun q hq => List.rel_of_pairwise_cons hpair hq
    obtain ⟨jw, jc, jm⟩ := ih (a.free r) hfw (by omega)
      (fun q hq => hbound q (by simp [hq]))
      (List.Pairwise.of_cons hpair)
      (by
        intro q hq i hi1 hi2 hm
        rcases (hfm i).mp hm with hm2 | hm2
        · exact hnf q (by simp [hq]) i hi1 hi2 hm2
        · rcases hhead q hq with hx | hx
          · omega
          · omega)
    rw [List.foldl_cons]
    refine ⟨jw, jc, fun i => ?_⟩
    rw [jm i, hfm i, memR_cons]
    tauto

/-- A no-touch free list covering exactly `[0, N)` with `0 < N` must be the
single range `(0, N)`. -/
theorem chain_full {N : Nat} {l : List (Nat × Nat)} (hN : 0 < N)
    (hc : chain 1 N 0 l) (hm : ∀ i, memR l i ↔ i < N) : l = [(0, N)] := by
  cases l with
  | nil => exact absurd ((hm 0).mpr hN) (memR_nil 0)
  | cons r rest =>
    obtain ⟨h1, h2, h3, h4⟩ := hc
    have hr1 : r.1 = 0 := by
      rcases (hm 0).mpr hN with ⟨q, hq, hq1, hq2⟩
      rcases List.mem_cons.mp hq with rfl | hq3
      · omega
      · have := chain_elem h4 hq3
        omega
    have hr2 : r.2 = N := by
      by_contra hne
      have hlt : r.2 < N := by omega
      rcases (hm r.2).mpr hlt with ⟨q, hq, hq1, hq2⟩
      rcases List.mem_cons.mp hq with rfl | hq3
      · omega
      · have := chain_elem h4 hq3
        omega
    cases rest with
    | nil =>
      have hre : r = (0, N) := Prod.ext hr1 hr2
      rw [hre]
    | cons q rest2 =>
      have := chain_elem h4 (show q ∈ q :: rest2 by simp)
      omega

/-- C7: starting from the fully-used allocator over `[0, N)` (as produced by
`allocate(N)` on a fresh allocator), freeing any list of ranges that
partitions `[0, N)` — nonempty, pairwise disjoint, jointly covering — in any
order leaves exactly one free range `[0, N)`, with nothing used. -/
theorem C7_free_partition_coalesces {N : Nat} {L : List (Nat × Nat)}
    (hN : 0 < N)
    (hbound : ∀ r ∈ L, r.1 < r.2 ∧ r.2 ≤ N)
    (hdisj : List.Pairwise (fun p q : Nat × Nat => p.2 ≤ q.1 ∨ q.2 ≤ p.1) L)
    (hcover : ∀ i, i < N → memR L i) :
    (L.foldl RangeAllocator.free (RangeAllocator.new.allocate N).2).ranges
      = [(0, N)] ∧
    (L.foldl RangeAllocator.free (RangeAllocator.new.allocate N).2).used
      = 0 := by
  have hw0 : WFA 1 (RangeAllocator.new.allocate N).2 := ⟨trivial, rfl⟩
  obtain ⟨jw, jc, jm⟩ := free_fold_spec L (RangeAllocator.new.allocate N).2
    hw0 (Nat.zero_add N) hbound hdisj
    (fun r _ i _ _ hm => absurd hm (memR_nil i))
  have hr : (L.foldl RangeAllocator.free
      (RangeAllocator.new.allocate N).2).ranges = [(0, N)] := by
    have hch := jw.ch
    rw [jc] at hch
    apply chain_full hN hch
    intro i
    rw [jm i]
    constructor
    · rintro (hm | hm)
      · exact absurd hm (memR_nil i)
      · rcases hm with ⟨q, hq, hq1, hq2⟩
        have := hbound q hq
        omega
    · intro hi
      exact Or.inr (hcover i hi)
  refine ⟨hr, ?_⟩
  have := jw.usedEq
  rw [hr] at this
  have hs : sumLens [((0 : Nat), N)] = N := by
    show (N - 0) + 0 = N
    omega
  omega

/-- C7 witness: the partition `[2,4), [0,2), [4,6)` of `[0, 6)`, freed out
of order, coalesces back to the single free range `[0, 6)`. -/
theorem C7_free_partition_coalesces_witness :
    (([(2, 4), (0, 2), (4, 6)] : List (Nat × Nat)).foldl
      RangeAllocator.free (RangeAllocator.new.allocate 6).2).ranges
      = [(0, 6)] ∧
    (([(2, 4), (0, 2), (4, 6)] : List (Nat × Nat)).foldl
      RangeAllocator.free (RangeAllocator.new.allocate 6).2).used = 0 :=
  C7_free_partition_coalesces (by decide) (by decide) (by decide) (by decide)

/-! ### BitField bit-level lemmas: set, clear, folds -/

/-- List helper: `getD` through `set`. -/
theorem getD_set (l : List Nat) (n p a : Nat) :
    (l.set n a).getD p 0 =
      if p = n ∧ n < l.length then a else l.getD p 0 := by
  induction l generalizing n p with
  | nil => simp [List.set]
  | cons x t ih =>
    cases n with
    | zero =>
      cases p with
      | zero => simp [List.getD]
      | succ q => simp [List.getD]
    | succ m =>
      cases p with
      | zero => simp [List.getD]
      | succ q =>
        show (t.set m a).getD q 0 = _
        rw [ih]
        by_cases h : q = m ∧ m < t.length
        · rw [if_pos h, if_pos (by
            refine ⟨by omega, ?_⟩
            show m + 1 < t.length + 1
            omega)]
        · rw [if_neg h, if_neg (by
            rintro ⟨h1, h2⟩
            exact h ⟨by omega, by
              have : m + 1 < t.length + 1 := h2
              omega⟩)]
          rfl

/-- List helper: padding with zero words does not change `getD 0`. -/
theorem getD_append_zeros (l : List Nat) (k p : Nat) :
    (l ++ List.replicate k 0).getD p 0 = l.getD p 0 := by
  rw [List.getD_eq_getElem?_getD, List.getD_eq_getElem?_getD,
    List.getElem?_append]
  by_cases h : p < l.length
  · rw [if_pos h]
  · rw [if_neg h, List.getElem?_replicate, List.getElem?_eq_none (by omega)]
    by_cases h2 : p - l.length < k
    · rw [if_pos h2]
      rfl
    · rw [if_neg h2]

namespace BitField

theorem firstbit_shift (s : Nat) (h : s < 32) :
    FIRST_BIT >>> s = 2 ^ (31 - s) := by
  rw [Nat.shiftRight_eq_div_pow]
  exact Nat.pow_div (by omega) (by omega)

/-- `set i true` through `wordAt`. -/
theorem wordAt_set_true (b : BitField) (i p : Nat) :
    (b.set i true).wordAt p =
      if p = i / 32 then Nat.lor (b.wordAt p) (2 ^ (31 - i % 32))
      else b.wordAt p := by
  have hsh := firstbit_shift (i % 32) (by omega)
  show (BitField.mk _).wordAt p = _
  unfold wordAt BITS
  rw [getD_set]
  by_cases hgrow : b.values.length ≤ i / 32
  · rw [if_pos hgrow]
    by_cases hp : p = i / 32
    · subst hp
      rw [if_pos ⟨rfl, by
          simp only [List.length_append, List.length_replicate]
          omega⟩,
        if_pos rfl, getD_append_zeros, hsh]
    · rw [if_neg (by rintro ⟨h1, _⟩; exact hp h1), if_neg hp,
        getD_append_zeros]
  · rw [if_neg hgrow]
    by_cases hp : p = i / 32
    · subst hp
      rw [if_pos ⟨rfl, by omega⟩, if_pos rfl, hsh]
    · rw [if_neg (by rintro ⟨h1, _⟩; exact hp h1), if_neg hp]

/-- `set i false` through `wordAt`. -/
theorem wordAt_set_false (b : BitField) (i p : Nat) :
    (b.set i false).wordAt p =
      if p = i / 32 ∧ i / 32 < b.values.length then
        Nat.land (b.wordAt p) (u32not (2 ^ (31 - i % 32)))
      else b.wordAt p := by
  have hsh := firstbit_shift (i % 32) (by omega)
  show (if b.values.length ≤ i / 32 then b
      else BitField.mk (b.values.set (i / 32)
        (Nat.land (b.values.getD (i / 32) 0)
          (u32not (FIRST_BIT >>> (i % 32)))))).wordAt p = _
  by_cases hgrow : b.values.length ≤ i / 32
  · rw [if_pos hgrow, if_neg (by rintro ⟨_, h2⟩; omega)]
  · rw [if_neg hgrow]
    unfold wordAt
    rw [getD_set]
    by_cases hp : p = i / 32
    · subst hp
      rw [if_pos ⟨rfl, by omega⟩, if_pos ⟨rfl, by omega⟩, hsh]
    · rw [if_neg (by rintro ⟨h1, _⟩; exact hp h1),
        if_neg (by rintro ⟨h1, _⟩; exact hp h1)]

/-- Bit update through `get`: setting bit `i` to `v` changes exactly bit
`i`. -/
theorem get_set (b : BitField) (i j : Nat) (v : Bool) :
    (b.set i v).get j = if j = i then v else b.get j := by
  have hj32 : 31 - j % 32 < 32 := by omega
  have hdiv : j = i ↔ (j / 32 = i / 32 ∧ j % 32 = i % 32) := by omega
  cases v with
  | true =>
    rw [get_eq_testBit, get_eq_testBit, wordAt_set_true]
    by_cases hp : j / 32 = i / 32
    · rw [if_pos hp,
        show Nat.lor (b.wordAt (j / 32)) (2 ^ (31 - i % 32)) =
          (b.wordAt (j / 32) ||| 2 ^ (31 - i % 32)) from rfl,
        Nat.testBit_or]
      by_cases hb : j % 32 = i % 32
      · rw [if_pos (hdiv.mpr ⟨hp, hb⟩), hb,
          Nat.testBit_two_pow_self]
        simp
      · rw [if_neg (by rw [hdiv]; rintro ⟨_, h⟩; exact hb h),
          Nat.testBit_two_pow_of_ne (by omega)]
        simp
    · rw [if_neg hp, if_neg (by rw [hdiv]; rintro ⟨h, _⟩; exact hp h)]
  | false =>
    rw [get_eq_testBit, get_eq_testBit, wordAt_set_false]
    by_cases hp : (j / 32 = i / 32 ∧ i / 32 < b.values.length)
    · rw [if_pos hp,
        show Nat.land (b.wordAt (j / 32)) (u32not (2 ^ (31 - i % 32))) =
          (b.wordAt (j / 32) &&& u32not (2 ^ (31 - i % 32))) from rfl,
        Nat.testBit_and]
      unfold u32not ALL_BITS_SET
      rw [show Nat.xor ((2 : Nat) ^ 32 - 1) (2 ^ (31 - i % 32)) =
          (((2 : Nat) ^ 32 - 1) ^^^ 2 ^ (31 - i % 32)) from rfl,
        Nat.testBit_xor, Nat.testBit_two_pow_sub_one]
      by_cases hb : j % 32 = i % 32
      · rw [if_pos (hdiv.mpr ⟨hp.1, hb⟩), hb, Nat.testBit_two_pow_self]
        simp [hj32, hb]
        intro _
        omega
      · rw [if_neg (by rw [hdiv]; rintro ⟨_, h⟩; exact hb h),
          Nat.testBit_two_pow_of_ne (by omega)]
        simp [hj32]
    · rw [if_neg hp]
      by_cases hj : j = i
      · subst hj
        rw [if_pos rfl]
        have hlen : b.values.length ≤ j / 32 := by
          rcases Nat.lt_or_ge (j / 32) b.values.length with h | h
          · exact absurd ⟨rfl, h⟩ hp
          · exact h
        have h0 : b.wordAt (j / 32) = 0 := by
          unfold wordAt
          exact getD_eq_zero_of_le hlen
        rw [h0]
        simp [Nat.zero_testBit]
      · rw [if_neg hj]

theorem get_new (i : Nat) : BitField.new.get i = false := rfl

theorem new_WF : BitField.new.WFwords := by
  intro w hw
  cases hw

theorem wordAt_clear (b : BitField) (p : Nat) : b.clear.wordAt p = 0 := by
  unfold BitField.clear wordAt
  by_cases h : p < b.values.length
  · rw [List.getD_eq_getElem?_getD, List.getElem?_map,
      List.getElem?_eq_getElem h]
    rfl
  · rw [getD_eq_zero_of_le (by simp [List.length_map]; omega)]

theorem get_clear (b : BitField) (i : Nat) : b.clear.get i = false := by
  rw [get_eq_testBit, wordAt_clear, Nat.zero_testBit]

theorem clear_WF (b : BitField) : b.clear.WFwords := by
  intro w hw
  unfold BitField.clear at hw
  rcases List.mem_map.mp hw with ⟨_, _, rfl⟩
  exact Nat.two_pow_pos 32

theorem set_WF {b : BitField} (hb : b.WFwords) (i : Nat) (v : Bool) :
    (b.set i v).WFwords := by
  have hbit : FIRST_BIT >>> (i % 32) < 2 ^ 32 := by
    calc FIRST_BIT >>> (i % 32) = FIRST_BIT / 2 ^ (i % 32) :=
        Nat.shiftRight_eq_div_pow _ _
    _ ≤ FIRST_BIT := Nat.div_le_self _ _
    _ < 2 ^ 32 := by
      show (2 : Nat) ^ 31 < 2 ^ 32
      exact Nat.pow_lt_pow_right (by omega) (by omega)
  have hpad : ∀ w ∈ b.values ++
      List.replicate (i / BITS + 1 - b.values.length) 0, w < 2 ^ 32 := by
    intro w hw
    rcases List.mem_append.mp hw with h | h
    · exact hb w h
    · rw [List.eq_of_mem_replicate h]
      exact Nat.two_pow_pos 32
  have hgetD : ∀ (l : List Nat), (∀ w ∈ l, w < 2 ^ 32) → ∀ p,
      l.getD p 0 < 2 ^ 32 := by
    intro l hl p
    by_cases h : p < l.length
    · rw [List.getD_eq_getElem?_getD, List.getElem?_eq_getElem h]
      exact hl _ (List.getElem_mem h)
    · rw [getD_eq_zero_of_le (by omega)]
      exact Nat.two_pow_pos 32
  cases v with
  | true =>
    intro w hw
    unfold BitField.set at hw
    dsimp only at hw
    by_cases hgrow : b.values.length ≤ i / BITS
    · rw [if_pos hgrow] at hw
      rcases List.mem_or_eq_of_mem_set hw with h | h
      · exact hpad w h
      · rw [h]
        exact Nat.or_lt_two_pow (hgetD _ hpad _) hbit
    · rw [if_neg hgrow] at hw
      rcases List.mem_or_eq_of_mem_set hw with h | h
      · exact hb w h
      · rw [h]
        exact Nat.or_lt_two_pow (hgetD _ hb _) hbit
  | false =>
    intro w hw
    unfold BitField.set at hw
    dsimp only at hw
    by_cases hgrow : b.values.length ≤ i / BITS
    · rw [if_pos hgrow] at hw
      exact hb w hw
    · rw [if_neg hgrow] at hw
      rcases List.mem_or_eq_of_mem_set hw with h | h
      · exact hb w h
      · rw [h]
        calc Nat.land (b.values.getD (i / BITS) 0) _ ≤ _ :=
            Nat.and_le_left
        _ < 2 ^ 32 := hgetD _ hb _

end BitField

/-- The component-id list of a component list. -/
def idsOf (l : List CompT) : List Nat := l.map (fun t => t.id)

theorem get_foldl_set (l : List CompT) (b0 : BitField) (i : Nat) :
    (l.foldl (fun b t => b.set t.id true) b0).get i =
      (b0.get i || decide (i ∈ idsOf l)) := by
  induction l generalizing b0 with
  | nil => simp [idsOf]
  | cons c rest ih =>
    rw [List.foldl_cons, ih, BitField.get_set]
    by_cases h : i = c.id
    · simp [idsOf, h]
    · simp [idsOf, h]

theorem foldl_set_WF {l : List CompT} {b0 : BitField} (h : b0.WFwords) :
    (l.foldl (fun b t => b.set t.id true) b0).WFwords := by
  induction l generalizing b0 with
  | nil => exact h
  | cons c rest ih => exact ih (BitField.set_WF h c.id true)

theorem buildColumns_get (l : List CompT) (bf : BitField) (cols : List Nat)
    (i : Nat) : (buildColumns l bf cols).1.get i =
      (bf.get i || decide (i ∈ idsOf l)) := by
  induction l generalizing bf cols with
  | nil => simp [buildColumns, idsOf]
  | cons c rest ih =>
    show (if bf.get c.id then buildColumns rest bf cols
      else buildColumns rest (bf.set c.id true) (cols ++ [c.id])).1.get i = _
    by_cases h : bf.get c.id
    · rw [if_pos h, ih]
      by_cases hi : i = c.id
      · subst hi
        simp [idsOf, h]
      · simp [idsOf, hi]
    · rw [if_neg h, ih, BitField.get_set]
      by_cases hi : i = c.id
      · simp [idsOf, hi]
      · simp [idsOf, hi]

theorem buildColumns_WF {l : List CompT} {bf : BitField} {cols : List Nat}
    (h : bf.WFwords) : (buildColumns l bf cols).1.WFwords := by
  induction l generalizing bf cols with
  | nil => exact h
  | cons c rest ih =>
    show (if bf.get c.id then buildColumns rest bf cols
      else buildColumns rest (bf.set c.id true) (cols ++ [c.id])).1.WFwords
    by_cases hc : bf.get c.id
    · rw [if_pos hc]
      exact ih h
    · rw [if_neg hc]
      exact ih (BitField.set_WF h c.id true)

namespace BitField

theorem copyFrom_eq (a b : BitField) : a.copyFrom b = b := rfl

/-- Under the 32-bit word bound, the source's `PartialEq` is bit-sequence
equality. -/
theorem beq_true_iff_seqEq {a b : BitField} (ha : a.WFwords)
    (hb : b.WFwords) : a.beq b = true ↔ SeqEq a b :=
  ⟨fun h => seqEq_of_wordAt (beq_iff_wordAt.mp h),
   fun h => beq_iff_wordAt.mpr (wordAt_eq_of_seqEq ha hb h)⟩

end BitField

/-- Erasing the first component with a given id from a duplicate-free list
removes exactly that id from the id set. -/
theorem mem_ids_eraseP {l : List CompT} {cid : Nat}
    (hnd : (idsOf l).Nodup) (i : Nat) :
    i ∈ idsOf (l.eraseP (fun c2 => c2.id == cid)) ↔
      (i ∈ idsOf l ∧ i ≠ cid) ∨ (i ∈ idsOf l ∧ cid ∉ idsOf l) := by
  induction l with
  | nil => simp [idsOf]
  | cons c rest ih =>
    have hnd2 : (idsOf rest).Nodup := by
      unfold idsOf at hnd ⊢
      exact (List.nodup_cons.mp hnd).2
    have hcn : c.id ∉ idsOf rest := by
      unfold idsOf at hnd ⊢
      exact (List.nodup_cons.mp hnd).1
    rw [List.eraseP_cons]
    by_cases hc : c.id = cid
    · rw [show (c.id == cid) = true from by simpa using hc]
      show i ∈ idsOf rest ↔ _
      subst hc
      constructor
      · intro h
        exact Or.inl ⟨by simp [idsOf] at h ⊢; exact Or.inr h,
          by rintro rfl; exact hcn h⟩
      · rintro (⟨h1, h2⟩ | ⟨h1, h2⟩)
        · simp only [idsOf, List.map_cons, List.mem_cons] at h1
          rcases h1 with rfl | h1
          · exact absurd rfl h2
          · exact h1
        · exact absurd (by simp [idsOf]) h2
    · rw [show (c.id == cid) = false from by simpa using hc]
      show i ∈ idsOf (c :: rest.eraseP (fun c2 => c2.id == cid)) ↔ _
      simp only [idsOf, List.map_cons, List.mem_cons] at ih ⊢
      rw [ih hnd2]
      constructor
      · rintro (rfl | (⟨h1, h2⟩ | ⟨h1, h2⟩))
        · exact Or.inl ⟨Or.inl rfl, hc⟩
        · exact Or.inl ⟨Or.inr h1, h2⟩
        · by_cases hcid : i = cid
          · exact absurd (hcid ▸ h1) h2
          · exact Or.inl ⟨Or.inr h1, hcid⟩
      · rintro (⟨rfl | h1, h2⟩ | ⟨h1, h2⟩)
        · exact Or.inl rfl
        · exact Or.inr (Or.inl ⟨h1, h2⟩)
        · rcases h1 with rfl | h1
          · exact Or.inl rfl
          · exact Or.inr (Or.inl ⟨h1, fun hq => h2 (Or.inr (hq ▸ h1))⟩)

theorem nodup_ids_eraseP {l : List CompT} {cid : Nat}
    (hnd : (idsOf l).Nodup) :
    (idsOf (l.eraseP (fun c2 => c2.id == cid))).Nodup := by
  unfold idsOf at hnd ⊢
  exact hnd.sublist ((List.eraseP_sublist l).map (fun t => t.id))

theorem nodup_ids_append {l : List CompT} {c : CompT}
    (hnd : (idsOf l).Nodup) (hc : c.id ∉ idsOf l) :
    (idsOf (l ++ [c])).Nodup := by
  unfold idsOf at hnd hc ⊢
  rw [List.map_append]
  simp [List.nodup_append, hnd, hc]

/-! ### Store lookup helpers -/

theorem lookupMap_some {m : List (BitField × Nat)} {key : BitField} {j : Nat}
    (h : lookupMap m key = some j) :
    ∃ p ∈ m, p.1.beq key = true ∧ p.2 = j := by
  unfold lookupMap at h
  rcases hf : m.find? (fun p => p.1.beq key) with _ | p
  · rw [hf] at h
    cases h
  · rw [hf] at h
    exact ⟨p, List.mem_of_find?_eq_some hf, by simpa using List.find?_some hf,
      by simpa using h⟩

theorem lookupMap_none {m : List (BitField × Nat)} {key : BitField}
    (h : lookupMap m key = none) : ∀ p ∈ m, p.1.beq key = false := by
  unfold lookupMap at h
  intro p hp
  rcases hf : m.find? (fun q => q.1.beq key) with _ | q
  · simpa using List.find?_eq_none.mp hf p hp
  · rw [hf] at h
    cases h

theorem lookupMap_isSome {m : List (BitField × Nat)} {key : BitField}
    {p : BitField × Nat} (hp : p ∈ m) (hbeq : p.1.beq key = true) :
    (lookupMap m key).isSome := by
  unfold lookupMap
  rcases hf : m.find? (fun q => q.1.beq key) with _ | q
  · exfalso
    have := List.find?_eq_none.mp hf p hp
    simp [hbeq] at this
  · rw [hf]
    rfl

theorem lookupQueries_some {qs : List (Nat × List Nat)} {q : Nat}
    {l : List Nat} (h : lookupQueries qs q = some l) :
    ∃ p ∈ qs, p.1 = q ∧ p.2 = l := by
  unfold lookupQueries at h
  rcases hf : qs.find? (fun p => p.1 == q) with _ | p
  · rw [hf] at h
    cases h
  · rw [hf] at h
    exact ⟨p, List.mem_of_find?_eq_some hf, by simpa using List.find?_some hf,
      by simpa using h⟩

theorem lookupTransitions_some
    {ts : List (ArchetypeTransition × Nat)} {t : ArchetypeTransition}
    {j : Nat} (h : lookupTransitions ts t = some j) :
    (t, j) ∈ ts := by
  unfold lookupTransitions at h
  rcases hf : ts.find? (fun p => p.1 == t) with _ | p
  · rw [hf] at h
    cases h
  · rw [hf] at h
    have h1 := List.mem_of_find?_eq_some hf
    have h2 : p.1 = t := by simpa using List.find?_some hf
    have h3 : p.2 = j := by simpa using h
    rw [← h2, ← h3]
    exact h1

/-! ### ArchetypeStore invariant -/

/-- Generic `getD`-through-`set` helper. -/
theorem getD_set_any {α : Type} [Inhabited α] (l : List α) (n p : Nat)
    (a : α) : (l.set n a).getD p default =
      if p = n ∧ n < l.length then a else l.getD p default := by
  induction l generalizing n p with
  | nil => simp [List.set]
  | cons x t ih =>
    cases n with
    | zero =>
      cases p with
      | zero => simp [List.getD]
      | succ q => simp [List.getD]
    | succ m =>
      cases p with
      | zero => simp [List.getD]
      | succ q =>
        show (t.set m a).getD q default = _
        rw [ih]
        by_cases h : q = m ∧ m < t.length
        · rw [if_pos h, if_pos (by
            refine ⟨by omega, ?_⟩
            show m + 1 < t.length + 1
            omega)]
        · rw [if_neg h, if_neg (by
            rintro ⟨h1, h2⟩
            exact h ⟨by omega, by
              have : m + 1 < t.length + 1 := h2
              omega⟩)]
          rfl

/-- Generic `getD`-through-append-singleton helper. -/
theorem getD_append_any {α : Type} [Inhabited α] (l : List α) (x : α)
    (p : Nat) : (l ++ [x]).getD p default =
      if p = l.length then x else l.getD p default := by
  rw [List.getD_eq_getElem?_getD, List.getD_eq_getElem?_getD,
    List.getElem?_append]
  by_cases h : p < l.length
  · rw [if_pos h, if_neg (by omega)]
  · rw [if_neg h]
    by_cases h2 : p = l.length
    · rw [if_pos h2, show p - l.length = 0 from by omega]
      rfl
    · have e1 : ([x] : List α)[p - l.length]? = none :=
        List.getElem?_eq_none (by
          simp only [List.length_cons, List.length_nil]
          omega)
      have e2 : l[p]? = none := List.getElem?_eq_none (by omega)
      rw [if_neg h2, e1, e2]

/-- The four content fields of an archetype instance that entity-side
mutation (slot allocation, scratch bitfields) never touches. -/
def InstLike (a b : ArchetypeInstanceM) : Prop :=
  a.id = b.id ∧ a.component_bitfield = b.component_bitfield ∧
  a.components = b.components ∧ a.buffers = b.buffers

theorem instLike_refl (a : ArchetypeInstanceM) : InstLike a a :=
  ⟨rfl, rfl, rfl, rfl⟩

theorem ensureCapacity_instLike (a : ArchetypeInstanceM) (c : Nat) :
    InstLike (a.ensureCapacity c) a := by
  unfold ArchetypeInstanceM.ensureCapacity
  by_cases h : a.allocator.capacity < c
  · rw [if_pos h]
    exact ⟨rfl, rfl, rfl, rfl⟩
  · rw [if_neg h]
    exact instLike_refl a

theorem matchesQuery_congr {a b : ArchetypeInstanceM}
    (h : a.component_bitfield = b.component_bitfield) (x : BitField) :
    a.matchesQuery x = b.matchesQuery x := by
  unfold ArchetypeInstanceM.matchesQuery
  rw [h]

/-- The `ArchetypeStore` well-formedness invariant, relative to the
process-wide query table `qenv`: a nonempty archetype vector whose index 0
is the empty archetype; 32-bit clean bitfields; every instance's component
bitfield encodes exactly its (duplicate-free) component-id set; the
deduplication map is consistent and complete and archetype bitfields are
unique; every cached query match list is exactly the code's match predicate;
and every cached transition records a correct source-bit condition and
destination bitfield. -/
structure SWF (qenv : Nat → QueryData) (s : ArchetypeStoreM) : Prop where
  vlen : 0 < s.vec.length
  vec0 : (s.vec.getD 0 default).components = []
  bfWF : s.bf.WFwords
  instWF : ∀ i, i < s.vec.length →
    (s.vec.getD i default).component_bitfield.WFwords ∧
    (idsOf (s.vec.getD i default).components).Nodup ∧
    ∀ k, (s.vec.getD i default).component_bitfield.get k =
      decide (k ∈ idsOf (s.vec.getD i default).components)
  mapWF : ∀ p ∈ s.map, p.1.WFwords ∧ p.2 < s.vec.length ∧
    BitField.SeqEq p.1 (s.vec.getD p.2 default).component_bitfield
  mapComplete : ∀ i, i < s.vec.length → ∃ p ∈ s.map, p.2 = i
  archUnique : ∀ i j, i < s.vec.length → j < s.vec.length →
    BitField.SeqEq (s.vec.getD i default).component_bitfield
      (s.vec.getD j default).component_bitfield → i = j
  queriesWF : ∀ p ∈ s.queries, ∀ i : Nat,
    i ∈ p.2 ↔ (i < s.vec.length ∧
      (s.vec.getD i default).matchesQuery (qenv p.1).incl = true ∧
      (s.vec.getD i default).matchesQuery (qenv p.1).excl = false)
  transWF : ∀ p ∈ s.transitions,
    p.1.archetype < s.vec.length ∧ p.2 < s.vec.length ∧
    (s.vec.getD p.1.archetype default).component_bitfield.get
      p.1.component.id = (p.1.kind == TransitionKind.remove) ∧
    ∀ k, (s.vec.getD p.2 default).component_bitfield.get k =
      if k = p.1.component.id then (p.1.kind == TransitionKind.add)
      else (s.vec.getD p.1.archetype default).component_bitfield.get k

/-- The archetype-store states reachable from `new` by the store's own
operations, with archetype creation restricted to duplicate-free component
lists, plus an over-approximation of all entity-side mutation (which changes
instance allocators and scratch bitfields but never ids, component sets,
component bitfields or buffer keys). -/
inductive StoreReachable (qenv : Nat → QueryData) : ArchetypeStoreM → Prop where
  | new : StoreReachable qenv ArchetypeStoreM.new
  | createArchetype {s : ArchetypeStoreM} (components : List CompT)
      (minCap : Nat) (hnd : (idsOf components).Nodup) :
      StoreReachable qenv s →
      StoreReachable qenv
        (s.createArchetypeWithCapacity qenv components minCap).1
  | queryStep {s : ArchetypeStoreM} (q : Nat) :
      StoreReachable qenv s → StoreReachable qenv (s.queryOp qenv q)
  | transition {s : ArchetypeStoreM} (t : ArchetypeTransition)
      (ht : t.archetype < s.vec.length) :
      StoreReachable qenv s →
      StoreReachable qenv (s.getArchetypeTransition qenv t).2
  | mutate {s : ArchetypeStoreM} (vec2 : List ArchetypeInstanceM)
      (hlen : vec2.length = s.vec.length)
      (hlike : ∀ i, i < s.vec.length →
        InstLike (vec2.getD i default) (s.vec.getD i default)) :
      StoreReachable qenv s → StoreReachable qenv { s with vec := vec2 }

theorem SWF_new (qenv : Nat → QueryData) : SWF qenv ArchetypeStoreM.new := by
  refine ⟨by decide, rfl, BitField.new_WF, ?_, ?_, ?_, ?_, ?_, ?_⟩
  · intro i hi
    have hi0 : i = 0 := by
      have : ArchetypeStoreM.new.vec.length = 1 := rfl
      omega
    subst hi0
    exact ⟨BitField.new_WF, by decide, fun k => rfl⟩
  · intro p hp
    have hp1 : p = (BitField.new, archetypeDefault) := by
      rcases List.mem_cons.mp hp with h | h
      · exact h
      · cases h
    subst hp1
    exact ⟨BitField.new_WF, by decide, fun i => rfl⟩
  · intro i hi
    have hi0 : i = 0 := by
      have : ArchetypeStoreM.new.vec.length = 1 := rfl
      omega
    subst hi0
    exact ⟨(BitField.new, archetypeDefault), by simp [ArchetypeStoreM.new], rfl⟩
  · intro i j hi hj _
    have : ArchetypeStoreM.new.vec.length = 1 := rfl
    omega
  · intro p hp
    cases hp
  · intro p hp
    cases hp

theorem SWF_mutate {qenv : Nat → QueryData} {s : ArchetypeStoreM}
    (hs : SWF qenv s) {vec2 : List ArchetypeInstanceM}
    (hlen : vec2.length = s.vec.length)
    (hlike : ∀ i, i < s.vec.length →
      InstLike (vec2.getD i default) (s.vec.getD i default)) :
    SWF qenv { s with vec := vec2 } := by
  have hcbf : ∀ i, i < s.vec.length →
      (vec2.getD i default).component_bitfield =
      (s.vec.getD i default).component_bitfield :=
    fun i hi => (hlike i hi).2.1
  refine ⟨by
      show 0 < vec2.length
      have h1 := hs.vlen
      omega, ?_, hs.bfWF, ?_, ?_, ?_, ?_, ?_, ?_⟩
  · show (vec2.getD 0 default).components = []
    rw [(hlike 0 hs.vlen).2.2.1]
    exact hs.vec0
  · intro i hi
    have hi2 : i < s.vec.length := by
      have : ({ s with vec := vec2 } : ArchetypeStoreM).vec = vec2 := rfl
      rw [this] at hi
      omega
    show (vec2.getD i default).component_bitfield.WFwords ∧ _ ∧ _
    rw [hcbf i hi2, (hlike i hi2).2.2.1]
    exact hs.instWF i hi2
  · intro p hp
    obtain ⟨h1, h2, h3⟩ := hs.mapWF p hp
    show p.1.WFwords ∧ p.2 < vec2.length ∧
      BitField.SeqEq p.1 (vec2.getD p.2 default).component_bitfield
    rw [hcbf p.2 h2]
    exact ⟨h1, by omega, h3⟩
  · intro i hi
    have hi2 : i < s.vec.length := by
      have : ({ s with vec := vec2 } : ArchetypeStoreM).vec = vec2 := rfl
      rw [this] at hi
      omega
    exact hs.mapComplete i hi2
  · intro i j hi hj hsq
    have hi2 : i < s.vec.length := by
      have : ({ s with vec := vec2 } : ArchetypeStoreM).vec = vec2 := rfl
      rw [this] at hi
      omega
    have hj2 : j < s.vec.length := by
      have : ({ s with vec := vec2 } : ArchetypeStoreM).vec = vec2 := rfl
      rw [this] at hj
      omega
    apply hs.archUnique i j hi2 hj2
    rw [← hcbf i hi2, ← hcbf j hj2]
    exact hsq
  · intro p hp i
    have hbase := hs.queriesWF p hp i
    constructor
    · intro hmem
      obtain ⟨h1, h2, h3⟩ := hbase.mp hmem
      refine ⟨?_, ?_, ?_⟩
      · show i < vec2.length
        omega
      · show (vec2.getD i default).matchesQuery (qenv p.1).incl = true
        rw [matchesQuery_congr (hcbf i h1)]
        exact h2
      · show (vec2.getD i default).matchesQuery (qenv p.1).excl = false
        rw [matchesQuery_congr (hcbf i h1)]
        exact h3
    · rintro ⟨h1, h2, h3⟩
      have h1b : i < s.vec.length := by
        have h1c : i < vec2.length := h1
        omega
      apply hbase.mpr
      refine ⟨h1b, ?_, ?_⟩
      · rw [← matchesQuery_congr (hcbf i h1b)]
        exact h2
      · rw [← matchesQuery_congr (hcbf i h1b)]
        exact h3
  · intro p hp
    obtain ⟨h1, h2, h3, h4⟩ := hs.transWF p hp
    show p.1.archetype < vec2.length ∧ p.2 < vec2.length ∧ _ ∧ _
    rw [hcbf p.1.archetype h1, hcbf p.2 h2]
    exact ⟨by omega, by omega, h3, h4⟩

theorem SWF_queryOp {qenv : Nat → QueryData} {s : ArchetypeStoreM} {q : Nat}
    (hs : SWF qenv s) : SWF qenv (s.queryOp qenv q) := by
  unfold ArchetypeStoreM.queryOp
  by_cases h : (lookupQueries s.queries q).isSome
  · rw [if_pos h]
    exact hs
  · rw [if_neg h]
    unfold ArchetypeStoreM.initQuery
    refine ⟨hs.vlen, hs.vec0, hs.bfWF, hs.instWF, hs.mapWF, hs.mapComplete,
      hs.archUnique, ?_, hs.transWF⟩
    intro p hp i
    rcases List.mem_cons.mp hp with rfl | hp2
    · show i ∈ (List.range s.vec.length).filter _ ↔ _
      rw [List.mem_filter, List.mem_range]
      constructor
      · rintro ⟨h1, h2⟩
        simp only [Bool.and_eq_true, decide_eq_true_eq] at h2
        exact ⟨h1, h2.1, by
          rcases hx : (s.vec.getD i default).matchesQuery (qenv q).excl with
            _ | _
          · rfl
          · rw [hx] at h2
            simp at h2⟩
      · rintro ⟨h1, h2, h3⟩
        refine ⟨h1, ?_⟩
        simp only [Bool.and_eq_true, decide_eq_true_eq]
        exact ⟨h2, by rw [h3]; simp⟩
    · exact hs.queriesWF p hp2 i

theorem SWF_setBf {qenv : Nat → QueryData} {s : ArchetypeStoreM}
    (hs : SWF qenv s) {b : BitField} (hb : b.WFwords) :
    SWF qenv { s with bf := b } :=
  ⟨hs.vlen, hs.vec0, hb, hs.instWF, hs.mapWF, hs.mapComplete, hs.archUnique,
   hs.queriesWF, hs.transWF⟩

theorem withCapacity_components (idn : Nat) (comps : List CompT)
    (cap : Nat) :
    (ArchetypeInstanceM.withCapacity idn comps cap).components = comps := by
  unfold ArchetypeInstanceM.withCapacity
  rcases hb : buildColumns comps BitField.new [] with ⟨cbf, cols⟩
  rfl

theorem withCapacity_cbf (idn : Nat) (comps : List CompT) (cap : Nat) :
    (ArchetypeInstanceM.withCapacity idn comps cap).component_bitfield =
      (buildColumns comps BitField.new []).1 := by
  unfold ArchetypeInstanceM.withCapacity
  rcases hb : buildColumns comps BitField.new [] with ⟨cbf, cols⟩
  rfl

/-- Complete specification of `ArchetypeStore::create_archetype_with_capacity`
on a well-formed store and a duplicate-free component list: the invariant is
preserved, the returned index is a valid archetype whose component bitfield
encodes exactly the requested component set, pre-existing archetype contents
are untouched, the transition cache is untouched, and the vector either keeps
its length (deduplication hit, with the hit recorded by the map lookup) or
grows by exactly the new archetype at the tail. -/
theorem createArch_spec {qenv : Nat → QueryData} {s : ArchetypeStoreM}
    {components : List CompT} {minCap : Nat} (hs : SWF qenv s)
    (hnd : (idsOf components).Nodup) :
    ∀ s2 idx, s.createArchetypeWithCapacity qenv components minCap =
      (s2, idx) →
    SWF qenv s2 ∧ idx < s2.vec.length ∧ s.vec.length ≤ s2.vec.length ∧
    s2.transitions = s.transitions ∧
    (∀ i, i < s.vec.length →
      InstLike (s2.vec.getD i default) (s.vec.getD i default)) ∧
    (∀ k, (s2.vec.getD idx default).component_bitfield.get k =
      decide (k ∈ idsOf components)) ∧
    ((s2.vec.length = s.vec.length ∧
        lookupMap s.map
          (components.foldl (fun b t => b.set t.id true) s.bf.clear) =
          some idx) ∨
      (s2.vec.length = s.vec.length + 1 ∧ idx = s.vec.length ∧
        lookupMap s.map
          (components.foldl (fun b t => b.set t.id true) s.bf.clear) =
          none)) := by
  intro s2 idx h
  have hBFget : ∀ k,
      (components.foldl (fun b t => b.set t.id true) s.bf.clear).get k =
      decide (k ∈ idsOf components) := by
    intro k
    rw [get_foldl_set, BitField.get_clear]
    simp
  have hBFwf :
      (components.foldl (fun b t => b.set t.id true) s.bf.clear).WFwords :=
    foldl_set_WF (BitField.clear_WF s.bf)
  unfold ArchetypeStoreM.createArchetypeWithCapacity at h
  dsimp only at h
  rcases hlk : lookupMap s.map
      (components.foldl (fun b t => b.set t.id true) s.bf.clear) with _ | j
  · -- deduplication miss: a new archetype is appended
    rw [hlk] at h
    dsimp only at h
    injection h with hA hB
    subst hA
    subst hB
    have hInstC := withCapacity_components s.vec.length components minCap
    have hInstB := withCapacity_cbf s.vec.length components minCap
    have hInst : ∀ k,
        (ArchetypeInstanceM.withCapacity s.vec.length components
          minCap).component_bitfield.get k =
        decide (k ∈ idsOf components) := by
      intro k
      rw [hInstB, buildColumns_get, BitField.get_new]
      simp
    have hInstWF :
        (ArchetypeInstanceM.withCapacity s.vec.length components
          minCap).component_bitfield.WFwords := by
      rw [hInstB]
      exact buildColumns_WF BitField.new_WF
    have hlen2 : (s.vec ++
        [ArchetypeInstanceM.withCapacity s.vec.length components
          minCap]).length = s.vec.length + 1 := by
      simp
    have hold : ∀ i, i < s.vec.length →
        (s.vec ++ [ArchetypeInstanceM.withCapacity s.vec.length components
          minCap]).getD i default = s.vec.getD i default := by
      intro i hi
      rw [getD_append_any, if_neg (by omega)]
    have hnewD : (s.vec ++
        [ArchetypeInstanceM.withCapacity s.vec.length components
          minCap]).getD s.vec.length default =
        ArchetypeInstanceM.withCapacity s.vec.length components minCap := by
      rw [getD_append_any, if_pos rfl]
    have hmapnone := lookupMap_none hlk
    refine ⟨?_, ?_, ?_, rfl, ?_, ?_, Or.inr ⟨hlen2, rfl, hlk⟩⟩
    case refine_2 =>
      show s.vec.length < (s.vec ++ [_]).length
      rw [hlen2]
      omega
    case refine_3 =>
      show s.vec.length ≤ (s.vec ++ [_]).length
      rw [hlen2]
      omega
    case refine_4 =>
      intro i hi
      show InstLike ((s.vec ++ [_]).getD i default) (s.vec.getD i default)
      rw [hold i hi]
      exact instLike_refl _
    case refine_5 =>
      intro k
      show ((s.vec ++ [_]).getD s.vec.length
        default).component_bitfield.get k = _
      rw [hnewD]
      exact hInst k
    -- the invariant for the grown store
    refine ⟨?_, ?_, hBFwf, ?_, ?_, ?_, ?_, ?_, ?_⟩
    · show 0 < (s.vec ++ [_]).length
      rw [hlen2]
      omega
    · show ((s.vec ++ [_]).getD 0 default).components = []
      rw [hold 0 hs.vlen]
      exact hs.vec0
    · intro i hi
      rw [hlen2] at hi
      by_cases hilt : i < s.vec.length
      · show ((s.vec ++ [_]).getD i default).component_bitfield.WFwords ∧ _
        rw [hold i hilt]
        exact hs.instWF i hilt
      · have hieq : i = s.vec.length := by omega
        subst hieq
        show ((s.vec ++ [_]).getD s.vec.length
          default).component_bitfield.WFwords ∧ _
        rw [hnewD, hInstC]
        exact ⟨hInstWF, hnd, hInst⟩
    · intro p hp
      rcases List.mem_cons.mp hp with rfl | hp2
      · refine ⟨hBFwf, ?_, ?_⟩
        · show s.vec.length < (s.vec ++ [_]).length
          rw [hlen2]
          omega
        · show BitField.SeqEq _ ((s.vec ++ [_]).getD s.vec.length
            default).component_bitfield
          rw [hnewD]
          intro k
          rw [hBFget k, hInst k]
      · obtain ⟨h1, h2, h3⟩ := hs.mapWF p hp2
        refine ⟨h1, ?_, ?_⟩
        · show p.2 < (s.vec ++ [_]).length
          rw [hlen2]
          omega
        · show BitField.SeqEq p.1 ((s.vec ++ [_]).getD p.2
            default).component_bitfield
          rw [hold p.2 h2]
          exact h3
    · intro i hi
      rw [hlen2] at hi
      by_cases hilt : i < s.vec.length
      · obtain ⟨p, hp, hpi⟩ := hs.mapComplete i hilt
        exact ⟨p, List.mem_cons_of_mem _ hp, hpi⟩
      · have hieq : i = s.vec.length := by omega
        subst hieq
        exact ⟨(components.foldl (fun b t => b.set t.id true) s.bf.clear,
          s.vec.length), List.mem_cons_self _ _, rfl⟩
    · intro i j hi hj hsq
      rw [hlen2] at hi hj
      have hkey : ∀ i2, i2 < s.vec.length →
          BitField.SeqEq ((s.vec ++ [ArchetypeInstanceM.withCapacity
            s.vec.length components minCap]).getD i2
            default).component_bitfield
            ((s.vec ++ [ArchetypeInstanceM.withCapacity s.vec.length
            components minCap]).getD s.vec.length
            default).component_bitfield → False := by
        intro i2 hi2 hseq
        obtain ⟨p, hp, hpi⟩ := hs.mapComplete i2 hi2
        obtain ⟨hw1, hw2, hw3⟩ := hs.mapWF p hp
        have hseq2 : BitField.SeqEq p.1
            (components.foldl (fun b t => b.set t.id true) s.bf.clear) := by
          intro k
          rw [hBFget k]
          have e1 := hseq k
          rw [hold i2 hi2, hnewD, hInst k] at e1
          rw [← e1]
          rw [hpi] at hw3
          exact hw3 k
        have hbeq := (BitField.beq_true_iff_seqEq hw1 hBFwf).mpr hseq2
        have := hmapnone p hp
        rw [hbeq] at this
        cases this
      by_cases hilt : i < s.vec.length
      · by_cases hjlt : j < s.vec.length
        · apply hs.archUnique i j hilt hjlt
          have e := hsq
          rw [hold i hilt, hold j hjlt] at e
          exact e
        · have hjeq : j = s.vec.length := by omega
          subst hjeq
          exact absurd (hkey i hilt hsq) (fun x => x)
      · have hieq : i = s.vec.length := by omega
        subst hieq
        by_cases hjlt : j < s.vec.length
        · exact absurd (hkey j hjlt (fun k => (hsq k).symm))
            (fun x => x)
        · omega
    · intro p hp i
      rcases List.mem_map.mp hp with ⟨q, hq, hfq⟩
      have hbase := hs.queriesWF q hq
      by_cases hI : (ArchetypeInstanceM.withCapacity s.vec.length components
          minCap).matchesQuery (qenv q.1).incl
      · by_cases hE : (ArchetypeInstanceM.withCapacity s.vec.length
            components minCap).matchesQuery (qenv q.1).excl
        · -- include matches but exclude also matches: entry unchanged
          have hfq2 : p = q := by
            rw [← hfq, if_neg (by simp [hI]), if_pos hE]
          subst hfq2
          rw [hbase i]
          constructor
          · rintro ⟨h1, h2, h3⟩
            refine ⟨by rw [hlen2]; omega, ?_, ?_⟩
            · rw [hold i h1]
              exact h2
            · rw [hold i h1]
              exact h3
          · rintro ⟨h1, h2, h3⟩
            rw [hlen2] at h1
            by_cases hilt : i < s.vec.length
            · rw [hold i hilt] at h2 h3
              exact ⟨hilt, h2, h3⟩
            · have hieq : i = s.vec.length := by omega
              subst hieq
              rw [hnewD] at h3
              rw [hE] at h3
              cases h3
        · -- new archetype matches: entry extended by the new index
          have hfq2 : p = (q.1, q.2 ++ [s.vec.length]) := by
            rw [← hfq, if_neg (by simp [hI]), if_neg hE]
          subst hfq2
          show i ∈ q.2 ++ [s.vec.length] ↔ _
          rw [List.mem_append, List.mem_singleton, hbase i]
          constructor
          · rintro (⟨h1, h2, h3⟩ | rfl)
            · refine ⟨by rw [hlen2]; omega, ?_, ?_⟩
              · rw [hold i h1]
                exact h2
              · rw [hold i h1]
                exact h3
            · refine ⟨by rw [hlen2]; omega, ?_, ?_⟩
              · rw [hnewD]
                exact hI
              · rw [hnewD]
                rcases hx : (ArchetypeInstanceM.withCapacity s.vec.length
                    components minCap).matchesQuery (qenv q.1).excl with _ | _
                · rfl
                · exact absurd hx hE
          · rintro ⟨h1, h2, h3⟩
            rw [hlen2] at h1
            by_cases hilt : i < s.vec.length
            · rw [hold i hilt] at h2 h3
              exact Or.inl ⟨hilt, h2, h3⟩
            · exact Or.inr (by omega)
      · -- include does not match the new archetype: entry unchanged
        have hfq2 : p = q := by
          rw [← hfq, if_pos (by simp [hI])]
        subst hfq2
        rw [hbase i]
        constructor
        · rintro ⟨h1, h2, h3⟩
          refine ⟨by rw [hlen2]; omega, ?_, ?_⟩
          · rw [hold i h1]
            exact h2
          · rw [hold i h1]
            exact h3
        · rintro ⟨h1, h2, h3⟩
          rw [hlen2] at h1
          by_cases hilt : i < s.vec.length
          · rw [hold i hilt] at h2 h3
            exact ⟨hilt, h2, h3⟩
          · have hieq : i = s.vec.length := by omega
            subst hieq
            rw [hnewD] at h2
            exact absurd h2 hI
    · intro p hp
      obtain ⟨h1, h2, h3, h4⟩ := hs.transWF p hp
      refine ⟨by rw [hlen2]; omega, by rw [hlen2]; omega, ?_, ?_⟩
      · show ((s.vec ++ [_]).getD p.1.archetype
          default).component_bitfield.get p.1.component.id = _
        rw [hold p.1.archetype h1]
        exact h3
      · intro k
        show ((s.vec ++ [_]).getD p.2 default).component_bitfield.get k = _
        rw [hold p.2 h2, hold p.1.archetype h1]
        exact h4 k
  · -- deduplication hit: the existing archetype's capacity is grown
    rw [hlk] at h
    dsimp only at h
    injection h with hA hB
    subst hA
    subst hB
    obtain ⟨p, hp, hpbeq, hpj⟩ := lookupMap_some hlk
    obtain ⟨hw1, hw2, hw3⟩ := hs.mapWF p hp
    rw [hpj] at hw2 hw3
    have hseq : BitField.SeqEq p.1
        (components.foldl (fun b t => b.set t.id true) s.bf.clear) :=
      (BitField.beq_true_iff_seqEq hw1 hBFwf).mp hpbeq
    have hj : ∀ k, (s.vec.getD j default).component_bitfield.get k =
        decide (k ∈ idsOf components) := by
      intro k
      rw [← hw3 k, hseq k, hBFget k]
    have hlen2 : (s.vec.set j ((s.vec.getD j default).ensureCapacity
        minCap)).length = s.vec.length := by
      simp
    have hlike : ∀ i, i < s.vec.length →
        InstLike ((s.vec.set j ((s.vec.getD j default).ensureCapacity
          minCap)).getD i default) (s.vec.getD i default) := by
      intro i hi
      rw [getD_set_any]
      by_cases hij : i = j
      · rw [if_pos ⟨hij, by omega⟩, hij]
        exact ensureCapacity_instLike _ _
      · rw [if_neg (by rintro ⟨h1, _⟩; exact hij h1)]
        exact instLike_refl _
    have hswf : SWF qenv { s with
        bf := components.foldl (fun b t => b.set t.id true) s.bf.clear,
        vec := s.vec.set j ((s.vec.getD j default).ensureCapacity minCap) } :=
      SWF_mutate (SWF_setBf hs hBFwf) hlen2 hlike
    refine ⟨hswf, ?_, ?_, rfl, hlike, ?_, Or.inl ⟨hlen2, hlk⟩⟩
    · show j < (s.vec.set j _).length
      rw [hlen2]
      omega
    · show s.vec.length ≤ (s.vec.set j _).length
      rw [hlen2]
    · intro k
      show ((s.vec.set j ((s.vec.getD j default).ensureCapacity
        minCap)).getD j default).component_bitfield.get k = _
      rw [(hlike j hw2).2.1]
      exact hj k

/-- Complete specification of `ArchetypeStore::get_archetype_transition` on a
well-formed store: the invariant is preserved; the result is absent exactly
when the component's bit already matches the requested polarity (set for Add,
clear for Remove), in which case the store is untouched; a present result is
`(t.archetype, dst)` with `dst`'s component bitfield equal to the source's
with the component's bit forced; pre-existing archetype contents are
untouched; and the transition cache gains the `(t, dst)` entry exactly when a
new archetype was materialized. -/
theorem transition_spec {qenv : Nat → QueryData} {s : ArchetypeStoreM}
    {t : ArchetypeTransition} (hs : SWF qenv s)
    (ht : t.archetype < s.vec.length) :
    ∀ res s2, s.getArchetypeTransition qenv t = (res, s2) →
    SWF qenv s2 ∧
    (res = none ↔ (s.vec.getD t.archetype default).component_bitfield.get
      t.component.id = (t.kind == TransitionKind.add)) ∧
    (res = none → s2 = s) ∧
    (∀ a b, res = some (a, b) → a = t.archetype ∧ b < s2.vec.length ∧
      ∀ k, (s2.vec.getD b default).component_bitfield.get k =
        if k = t.component.id then (t.kind == TransitionKind.add)
        else (s.vec.getD t.archetype default).component_bitfield.get k) ∧
    s.vec.length ≤ s2.vec.length ∧
    (∀ i, i < s.vec.length →
      InstLike (s2.vec.getD i default) (s.vec.getD i default)) ∧
    (∀ a b, res = some (a, b) →
      ((b < s.vec.length ∧ s2.transitions = s.transitions) ∨
       (b = s.vec.length ∧ s2.vec.length = s.vec.length + 1 ∧
         s2.transitions = (t, b) :: s.transitions))) := by
  intro res s2 h
  unfold ArchetypeStoreM.getArchetypeTransition at h
  rcases hc : lookupTransitions s.transitions t with _ | j
  · rw [hc] at h
    obtain ⟨ta, tc, tk⟩ := t
    dsimp only at h ht ⊢
    have hsrcWF := hs.instWF ta ht
    cases tk with
    | add =>
      dsimp only at h
      by_cases hbit :
          (s.vec.getD ta default).component_bitfield.get tc.id = true
      · rw [if_pos hbit] at h
        injection h with h1 h2
        subst h1
        subst h2
        refine ⟨hs, ⟨fun _ => by rw [hbit]; rfl, fun _ => rfl⟩, fun _ => rfl,
          fun a b hab => absurd hab (by simp), le_refl _,
          fun i _ => instLike_refl _, fun a b hab => absurd hab (by simp)⟩
      · have hbitF : (s.vec.getD ta default).component_bitfield.get tc.id =
            false := by
          rcases hx : (s.vec.getD ta default).component_bitfield.get tc.id
            with _ | _
          · rfl
          · exact absurd hx hbit
        rw [if_neg hbit, BitField.copyFrom_eq] at h
        have hbfWF : ((s.vec.getD ta
            default).component_bitfield.set tc.id true).WFwords :=
          BitField.set_WF hsrcWF.1 _ _
        rcases hm : lookupMap s.map ((s.vec.getD ta
            default).component_bitfield.set tc.id true) with _ | a2
        · -- deduplication miss: materialize and cache
          rw [hm] at h
          have hnotin : tc.id ∉ idsOf (s.vec.getD ta default).components := by
            intro hin
            have he := hsrcWF.2.2 tc.id
            rw [he, decide_eq_false_iff_not] at hbitF
            exact hbitF hin
          have hnd2 : (idsOf ((s.vec.getD ta default).components ++
              [tc])).Nodup := nodup_ids_append hsrcWF.2.1 hnotin
          rcases hca : ({ s with bf := (s.vec.getD ta
                default).component_bitfield.set tc.id true } :
              ArchetypeStoreM).createArchetypeWithCapacity qenv
              ((s.vec.getD ta default).components ++ [tc]) 0 with ⟨s3, idx⟩
          have hcreate : ArchetypeStoreM.createArchetype qenv
              { s with bf := (s.vec.getD ta
                default).component_bitfield.set tc.id true }
              ((s.vec.getD ta default).components ++ [tc]) = (s3, idx) := by
            unfold ArchetypeStoreM.createArchetype
            exact hca
          rw [hcreate] at h
          dsimp only at h
          injection h with h1 h2
          subst h1
          subst h2
          have hs1 : SWF qenv { s with bf := (s.vec.getD ta
              default).component_bitfield.set tc.id true } :=
            SWF_setBf hs hbfWF
          obtain ⟨swf3, hidx, hle, htr, hILike, hcbfIdx, hdisj⟩ :=
            createArch_spec hs1 hnd2 s3 idx hca
          have hle2 : s.vec.length ≤ s3.vec.length := hle
          have htr2 : s3.transitions = s.transitions := htr
          have hILike2 : ∀ i, i < s.vec.length →
              InstLike (s3.vec.getD i default) (s.vec.getD i default) :=
            hILike
          have hdstS : ∀ k, (s3.vec.getD idx
              default).component_bitfield.get k =
              if k = tc.id then true
              else (s.vec.getD ta default).component_bitfield.get k := by
            intro k
            rw [hcbfIdx k]
            by_cases hk : k = tc.id
            · rw [if_pos hk]
              simp [idsOf, hk]
            · rw [if_neg hk, hsrcWF.2.2 k]
              simp [idsOf, hk]
          have hta3 : (s3.vec.getD ta default).component_bitfield =
              (s.vec.getD ta default).component_bitfield :=
            (hILike2 ta ht).2.1
          refine ⟨?_, ⟨fun hx => absurd hx (by simp),
              fun hx => absurd hx hbit⟩,
            fun hx => absurd hx (by simp), ?_, ?_, ?_, ?_⟩
          · refine ⟨swf3.vlen, swf3.vec0, swf3.bfWF, swf3.instWF, swf3.mapWF,
              swf3.mapComplete, swf3.archUnique, swf3.queriesWF, ?_⟩
            intro p hp
            rcases List.mem_cons.mp hp with rfl | hp2
            · refine ⟨by show ta < s3.vec.length; omega,
                by show idx < s3.vec.length; omega, ?_, ?_⟩
              · show (s3.vec.getD ta default).component_bitfield.get tc.id = _
                rw [hta3, hbitF]
                rfl
              · intro k
                show (s3.vec.getD idx default).component_bitfield.get k = _
                rw [hdstS k, hta3]
                rfl
            · exact swf3.transWF p hp2
          · intro a b hab
            injection hab with hab1
            injection hab1 with ha hb
            subst ha
            subst hb
            exact ⟨rfl, by show idx < s3.vec.length; omega, hdstS⟩
          · show s.vec.length ≤ s3.vec.length
            omega
          · intro i hi
            exact hILike2 i hi
          · intro a b hab
            injection hab with hab1
            injection hab1 with ha hb
            subst ha
            subst hb
            rcases hdisj with ⟨hlenEq, hsomeLk⟩ | ⟨hlen1, hidxEq, _⟩
            · exfalso
              obtain ⟨q, hq, hqbeq, _⟩ := lookupMap_some hsomeLk
              have hq2 : q ∈ s.map := hq
              have hqWF := (hs.mapWF q hq2).1
              have hidsIf : ∀ k, (decide (k ∈ idsOf ((s.vec.getD ta
                  default).components ++ [tc])) : Bool) =
                  if k = tc.id then true
                  else (s.vec.getD ta default).component_bitfield.get k := by
                intro k
                rw [← hcbfIdx k, hdstS k]
              have hseqF := (BitField.beq_true_iff_seqEq hqWF
                (foldl_set_WF (BitField.clear_WF _))).mp hqbeq
              have hq3 : q.1.beq ((s.vec.getD ta
                  default).component_bitfield.set tc.id true) = true := by
                rw [BitField.beq_true_iff_seqEq hqWF hbfWF]
                intro k
                rw [hseqF k, get_foldl_set, BitField.get_clear,
                  Bool.false_or, hidsIf k, BitField.get_set]
              have hq4 := lookupMap_none hm q hq2
              rw [hq3] at hq4
              cases hq4
            · refine Or.inr ⟨hidxEq, hlen1, ?_⟩
              show ((⟨ta, tc, TransitionKind.add⟩ : ArchetypeTransition),
                idx) :: s3.transitions = _
              rw [htr2]
        · -- deduplication hit: return the existing archetype, no caching
          rw [hm] at h
          dsimp only at h
          injection h with h1 h2
          subst h1
          subst h2
          obtain ⟨p, hp, hpbeq, hpa⟩ := lookupMap_some hm
          obtain ⟨hw1, hw2, hw3⟩ := hs.mapWF p hp
          rw [hpa] at hw2 hw3
          have hseq := (BitField.beq_true_iff_seqEq hw1 hbfWF).mp hpbeq
          have hdst : ∀ k, (s.vec.getD a2
              default).component_bitfield.get k =
              if k = tc.id then true
              else (s.vec.getD ta default).component_bitfield.get k := by
            intro k
            rw [← hw3 k, hseq k, BitField.get_set]
          refine ⟨SWF_setBf hs hbfWF,
            ⟨fun hx => absurd hx (by simp), fun hx => absurd hx hbit⟩,
            fun hx => absurd hx (by simp), ?_, le_refl _,
            fun i _ => instLike_refl _, ?_⟩
          · intro a b hab
            injection hab with hab1
            injection hab1 with ha hb
            subst ha
            subst hb
            exact ⟨rfl, by show a2 < s.vec.length; omega, hdst⟩
          · intro a b hab
            injection hab with hab1
            injection hab1 with ha hb
            subst ha
            subst hb
            exact Or.inl ⟨hw2, rfl⟩
    | remove =>
      dsimp only at h
      by_cases hbit :
          (s.vec.getD ta default).component_bitfield.get tc.id = true
      · rw [if_neg (by rw [hbit]; simp), BitField.copyFrom_eq] at h
        have hbfWF : ((s.vec.getD ta
            default).component_bitfield.set tc.id false).WFwords :=
          BitField.set_WF hsrcWF.1 _ _
        have hin : tc.id ∈ idsOf (s.vec.getD ta default).components := by
          have he := hsrcWF.2.2 tc.id
          rw [he] at hbit
          exact of_decide_eq_true hbit
        rcases hm : lookupMap s.map ((s.vec.getD ta
            default).component_bitfield.set tc.id false) with _ | a2
        · -- deduplication miss: materialize and cache
          rw [hm] at h
          have hnd2 : (idsOf ((s.vec.getD ta default).components.eraseP
              (fun c => c.id == tc.id))).Nodup :=
            nodup_ids_eraseP hsrcWF.2.1
          rcases hca : ({ s with bf := (s.vec.getD ta
                default).component_bitfield.set tc.id false } :
              ArchetypeStoreM).createArchetypeWithCapacity qenv
              ((s.vec.getD ta default).components.eraseP
                (fun c => c.id == tc.id)) 0 with ⟨s3, idx⟩
          have hcreate : ArchetypeStoreM.createArchetype qenv
              { s with bf := (s.vec.getD ta
                default).component_bitfield.set tc.id false }
              ((s.vec.getD ta default).components.eraseP
                (fun c => c.id == tc.id)) = (s3, idx) := by
            unfold ArchetypeStoreM.createArchetype
            exact hca
          rw [hcreate] at h
          dsimp only at h
          injection h with h1 h2
          subst h1
          subst h2
          have hs1 : SWF qenv { s with bf := (s.vec.getD ta
              default).component_bitfield.set tc.id false } :=
            SWF_setBf hs hbfWF
          obtain ⟨swf3, hidx, hle, htr, hILike, hcbfIdx, hdisj⟩ :=
            createArch_spec hs1 hnd2 s3 idx hca
          have hle2 : s.vec.length ≤ s3.vec.length := hle
          have htr2 : s3.transitions = s.transitions := htr
          have hILike2 : ∀ i, i < s.vec.length →
              InstLike (s3.vec.getD i default) (s.vec.getD i default) :=
            hILike
          have hdstS : ∀ k, (s3.vec.getD idx
              default).component_bitfield.get k =
              if k = tc.id then false
              else (s.vec.getD ta default).component_bitfield.get k := by
            intro k
            rw [hcbfIdx k]
            by_cases hk : k = tc.id
            · rw [if_pos hk]
              rcases hq : decide (k ∈ idsOf ((s.vec.getD ta
                  default).components.eraseP (fun c => c.id == tc.id)))
                with _ | _
              · rfl
              · exfalso
                have hq2 := of_decide_eq_true hq
                rw [mem_ids_eraseP hsrcWF.2.1] at hq2
                rcases hq2 with ⟨_, hne⟩ | ⟨_, hni⟩
                · exact hne hk
                · exact hni hin
            · rw [if_neg hk, hsrcWF.2.2 k]
              have hiff := @mem_ids_eraseP
                ((s.vec.getD ta default).components) tc.id hsrcWF.2.1 k
              by_cases hk2 : k ∈ idsOf (s.vec.getD ta default).components
              · rw [decide_eq_true_eq.mpr (hiff.mpr (Or.inl ⟨hk2, hk⟩)),
                  decide_eq_true_eq.mpr hk2]
              · rcases hq : decide (k ∈ idsOf ((s.vec.getD ta
                    default).components.eraseP
                    (fun c => c.id == tc.id))) with _ | _
                · rw [decide_eq_false hk2]
                · exfalso
                  have hq2 := of_decide_eq_true hq
                  rw [hiff] at hq2
                  rcases hq2 with ⟨hk3, _⟩ | ⟨hk3, _⟩ <;> exact hk2 hk3
          have hta3 : (s3.vec.getD ta default).component_bitfield =
              (s.vec.getD ta default).component_bitfield :=
            (hILike2 ta ht).2.1
          refine ⟨?_, ⟨fun hx => absurd hx (by simp),
              fun hx => by rw [hbit] at hx; exact absurd hx.symm (by simp)⟩,
            fun hx => absurd hx (by simp), ?_, ?_, ?_, ?_⟩
          · refine ⟨swf3.vlen, swf3.vec0, swf3.bfWF, swf3.instWF, swf3.mapWF,
              swf3.mapComplete, swf3.archUnique, swf3.queriesWF, ?_⟩
            intro p hp
            rcases List.mem_cons.mp hp with rfl | hp2
            · refine ⟨by show ta < s3.vec.length; omega,
                by show idx < s3.vec.length; omega, ?_, ?_⟩
              · show (s3.vec.getD ta default).component_bitfield.get tc.id = _
                rw [hta3, hbit]
                rfl
              · intro k
                show (s3.vec.getD idx default).component_bitfield.get k = _
                rw [hdstS k, hta3]
                rfl
            · exact swf3.transWF p hp2
          · intro a b hab
            injection hab with hab1
            injection hab1 with ha hb
            subst ha
            subst hb
            exact ⟨rfl, by show idx < s3.vec.length; omega, hdstS⟩
          · show s.vec.length ≤ s3.vec.length
            omega
          · intro i hi
            exact hILike2 i hi
          · intro a b hab
            injection hab with hab1
            injection hab1 with ha hb
            subst ha
            subst hb
            rcases hdisj with ⟨hlenEq, hsomeLk⟩ | ⟨hlen1, hidxEq, _⟩
            · exfalso
              obtain ⟨q, hq, hqbeq, _⟩ := lookupMap_some hsomeLk
              have hq2 : q ∈ s.map := hq
              have hqWF := (hs.mapWF q hq2).1
              have hidsIf : ∀ k, (decide (k ∈ idsOf ((s.vec.getD ta
                  default).components.eraseP
                  (fun c => c.id == tc.id))) : Bool) =
                  if k = tc.id then false
                  else (s.vec.getD ta default).component_bitfield.get k := by
                intro k
                rw [← hcbfIdx k, hdstS k]
              have hseqF := (BitField.beq_true_iff_seqEq hqWF
                (foldl_set_WF (BitField.clear_WF _))).mp hqbeq
              have hq3 : q.1.beq ((s.vec.getD ta
                  default).component_bitfield.set tc.id false) = true := by
                rw [BitField.beq_true_iff_seqEq hqWF hbfWF]
                intro k
                rw [hseqF k, get_foldl_set, BitField.get_clear,
                  Bool.false_or, hidsIf k, BitField.get_set]
              have hq4 := lookupMap_none hm q hq2
              rw [hq3] at hq4
              cases hq4
            · refine Or.inr ⟨hidxEq, hlen1, ?_⟩
              show ((⟨ta, tc, TransitionKind.remove⟩ : ArchetypeTransition),
                idx) :: s3.transitions = _
              rw [htr2]
        · -- deduplication hit: return the existing archetype, no caching
          rw [hm] at h
          dsimp only at h
          injection h with h1 h2
          subst h1
          subst h2
          obtain ⟨p, hp, hpbeq, hpa⟩ := lookupMap_some hm
          obtain ⟨hw1, hw2, hw3⟩ := hs.mapWF p hp
          rw [hpa] at hw2 hw3
          have hseq := (BitField.beq_true_iff_seqEq hw1 hbfWF).mp hpbeq
          have hdst : ∀ k, (s.vec.getD a2
              default).component_bitfield.get k =
              if k = tc.id then false
              else (s.vec.getD ta default).component_bitfield.get k := by
            intro k
            rw [← hw3 k, hseq k, BitField.get_set]
          refine ⟨SWF_setBf hs hbfWF,
            ⟨fun hx => absurd hx (by simp),
              fun hx => by rw [hbit] at hx; exact absurd hx.symm (by simp)⟩,
            fun hx => absurd hx (by simp), ?_, le_refl _,
            fun i _ => instLike_refl _, ?_⟩
          · intro a b hab
            injection hab with hab1
            injection hab1 with ha hb
            subst ha
            subst hb
            exact ⟨rfl, by show a2 < s.vec.length; omega, hdst⟩
          · intro a b hab
            injection hab with hab1
            injection hab1 with ha hb
            subst ha
            subst hb
            exact Or.inl ⟨hw2, rfl⟩
      · have hbitF : (s.vec.getD ta default).component_bitfield.get tc.id =
            false := by
          rcases hx : (s.vec.getD ta default).component_bitfield.get tc.id
            with _ | _
          · rfl
          · exact absurd hx hbit
        rw [if_pos hbit] at h
        injection h with h1 h2
        subst h1
        subst h2
        refine ⟨hs, ⟨fun _ => by rw [hbitF]; rfl, fun _ => rfl⟩,
          fun _ => rfl, fun a b hab => absurd hab (by simp), le_refl _,
          fun i _ => instLike_refl _,
          fun a b hab => absurd hab (by simp)⟩
  · rw [hc] at h
    dsimp only at h
    injection h with h1 h2
    subst h1
    subst h2
    have hmem := lookupTransitions_some hc
    obtain ⟨k1, k2, k3, k4⟩ := hs.transWF _ hmem
    refine ⟨hs, ?_, fun hx => absurd hx (by simp), ?_, le_refl _,
      fun i _ => instLike_refl _, ?_⟩
    · constructor
      · intro hx
        exact absurd hx (by simp)
      · intro hx
        exfalso
        rw [k3] at hx
        rcases t with ⟨ta, tc, tk⟩
        cases tk <;> simp at hx
    · intro a b hab
      injection hab with hab1
      injection hab1 with ha hb
      subst ha
      subst hb
      exact ⟨rfl, k2, k4⟩
    · intro a b hab
      injection hab with hab1
      injection hab1 with ha hb
      subst ha
      subst hb
      exact Or.inl ⟨k2, rfl⟩

/-- Every reachable archetype store is well-formed. -/
theorem store_SWF {qenv : Nat → QueryData} {s : ArchetypeStoreM}
    (h : StoreReachable qenv s) : SWF qenv s := by
  induction h with
  | new => exact SWF_new qenv
  | @createArchetype s1 components minCap hnd hr ih =>
    rcases hca : s1.createArchetypeWithCapacity qenv components minCap with
      ⟨s2, idx⟩
    exact (createArch_spec ih hnd s2 idx hca).1
  | queryStep q hr ih => exact SWF_queryOp ih
  | @transition s1 t ht hr ih =>
    rcases htr : s1.getArchetypeTransition qenv t with ⟨res, s2⟩
    exact (transition_spec ih ht res s2 htr).1
  | mutate vec2 hlen hlike hr ih => exact SWF_mutate ih hlen hlike

/-! ### Concrete stores for the C2/C4/C8 claims -/

/-- A query environment: every query handle compiles to include-bit 1 and an
empty exclude mask. -/
def qenvC : Nat → QueryData := fun _ => ⟨⟨[2 ^ 30]⟩, ⟨[]⟩⟩

/-- Store with the empty archetype and the `{1}` archetype, query 0
initialized. -/
def c2Store : ArchetypeStoreM :=
  (ArchetypeStoreM.new.createArchetype qenvC [⟨1⟩]).1.queryOp qenvC 0

/-- Store with the empty archetype and the `{1}` archetype. -/
def c4StoreA : ArchetypeStoreM :=
  (ArchetypeStoreM.new.createArchetype qenvC [⟨1⟩]).1

/-- Store whose archetype 1 was created with the duplicated component list
`[1, 1, 2]`. -/
def c4StoreB : ArchetypeStoreM :=
  (ArchetypeStoreM.new.createArchetype qenvC [⟨1⟩, ⟨1⟩, ⟨2⟩]).1

/-- The Add-transition call on `c4StoreA` whose target archetype already
exists in the deduplication map. -/
def c4Call : Option (Nat × Nat) × ArchetypeStoreM :=
  c4StoreA.getArchetypeTransition qenvC ⟨0, ⟨1⟩, TransitionKind.add⟩

/-- A registry with one live entity (index 0, version 7) in archetype 1 of
`c4StoreA`. -/
def c8Reg : EntityRegistryM := ⟨[⟨0, 7, 1⟩], c4StoreA⟩

/-- C2 counterexample: archetype 1 (component set `{1}`) is in query 0's
initialized match list, although the claim's right-hand side is false for
it — the query's empty exclude mask is a subset of every component set, so
`¬(exclude ⊆ A)` fails.  The code caches the archetype anyway because its
`is_subset_of` returns false on an empty left operand. -/
theorem C2_counterexample :
    lookupQueries c2Store.queries 0 = some [1] ∧
    (1 : Nat) ∈ [(1 : Nat)] ∧
    BitField.SeqSubset (qenvC 0).excl
      ((c2Store.vec.getD 1 default).component_bitfield) := by
  refine ⟨by decide, by decide, ?_⟩
  intro i hi
  have h0 : (qenvC 0).excl.get i = false := rfl
  rw [h0] at hi
  cases hi

/-- C2 (amended): in every reachable store, for every query whose match list
has been initialized, an archetype index is cached in the match list iff the
index is valid and the code's match predicate holds: the include mask's
`is_subset_of` test accepts the archetype's component bitfield and the
exclude mask's test rejects it — both for archetypes that existed when the
query was first used and for archetypes materialized afterwards. -/
theorem C2_query_match_list {qenv : Nat → QueryData} {s : ArchetypeStoreM}
    (hr : StoreReachable qenv s) {q : Nat} {l : List Nat}
    (hq : lookupQueries s.queries q = some l) (i : Nat) :
    i ∈ l ↔ (i < s.vec.length ∧
      (s.vec.getD i default).matchesQuery (qenv q).incl = true ∧
      (s.vec.getD i default).matchesQuery (qenv q).excl = false) := by
  have hs := store_SWF hr
  obtain ⟨p, hp, hp1, hp2⟩ := lookupQueries_some hq
  have hbase := hs.queriesWF p hp i
  rw [hp1, hp2] at hbase
  exact hbase

/-- C2 witness: in `c2Store`, index 1 is in query 0's match list and the
code's match predicate accepts it. -/
theorem C2_query_match_list_witness :
    (1 : Nat) ∈ [(1 : Nat)] ↔ (1 < c2Store.vec.length ∧
      (c2Store.vec.getD 1 default).matchesQuery (qenvC 0).incl = true ∧
      (c2Store.vec.getD 1 default).matchesQuery (qenvC 0).excl = false) :=
  C2_query_match_list
    (StoreReachable.queryStep 0
      (StoreReachable.createArchetype [⟨1⟩] 0 (by decide)
        StoreReachable.new))
    (by decide) 1

/-- C4 counterexample.  (a) On `c4StoreA`, the Add transition from the empty
archetype to the existing `{1}` archetype returns `(0, 1)` but leaves the
transition cache empty — the claim says the cache maps the transition to the
destination also when the destination already existed.  (b) On `c4StoreB`
(archetype 1 created from the duplicated list `[1, 1, 2]`), the Remove
transition for component 1 returns destination archetype 1 whose component
bitfield still has bit 1 set — not the source bitfield with the bit
cleared. -/
theorem C4_counterexample :
    c4Call.1 = some (0, 1) ∧
    c4Call.2.transitions = [] ∧
    (c4StoreB.getArchetypeTransition qenvC
      ⟨1, ⟨1⟩, TransitionKind.remove⟩).1 = some (1, 1) ∧
    ((c4StoreB.getArchetypeTransition qenvC
      ⟨1, ⟨1⟩, TransitionKind.remove⟩).2.vec.getD 1
      default).component_bitfield.get 1 = true :=
  ⟨by decide, by decide, by decide, by decide⟩

/-- C4 (amended): on every reachable store (archetypes created from
duplicate-free component lists) and valid source archetype, the transition
is absent iff the component's bit already matches the requested polarity
(set for Add, clear for Remove), and then the store is unchanged; otherwise
the result is `(t.archetype, dst)` with `dst` a valid archetype whose
component bitfield is the source's with the component's bit set (Add) or
cleared (Remove); and the transition cache gains the `(t, dst)` entry
exactly when `dst` was newly materialized (the archetype vector grows by
one and `dst` is the fresh tail index) — when `dst` already existed
(`dst` a pre-existing index, found in the cache or the deduplication map),
the pair is returned with the cache unchanged. -/
theorem C4_transition_behavior {qenv : Nat → QueryData}
    {s : ArchetypeStoreM} {t : ArchetypeTransition}
    (hr : StoreReachable qenv s) (ht : t.archetype < s.vec.length) :
    ∀ res s2, s.getArchetypeTransition qenv t = (res, s2) →
    (res = none ↔ (s.vec.getD t.archetype default).component_bitfield.get
      t.component.id = (t.kind == TransitionKind.add)) ∧
    (res = none → s2 = s) ∧
    (∀ a b, res = some (a, b) → a = t.archetype ∧ b < s2.vec.length ∧
      ∀ k, (s2.vec.getD b default).component_bitfield.get k =
        if k = t.component.id then (t.kind == TransitionKind.add)
        else (s.vec.getD t.archetype default).component_bitfield.get k) ∧
    (∀ a b, res = some (a, b) →
      ((b < s.vec.length ∧ s2.transitions = s.transitions) ∨
       (b = s.vec.length ∧ s2.vec.length = s.vec.length + 1 ∧
         s2.transitions = (t, b) :: s.transitions))) := by
  intro res s2 h
  obtain ⟨_, h2, h3, h4, _, _, h7⟩ :=
    transition_spec (store_SWF hr) ht res s2 h
  exact ⟨h2, h3, h4, h7⟩

/-- C4 witness: the amended description at the concrete map-hit call
`c4Call`. -/
theorem C4_transition_behavior_witness :
    (c4Call.1 = none ↔ (c4StoreA.vec.getD 0
      default).component_bitfield.get 1 = true) ∧
    (c4Call.1 = none → c4Call.2 = c4StoreA) ∧
    (∀ a b, c4Call.1 = some (a, b) → a = 0 ∧ b < c4Call.2.vec.length ∧
      ∀ k, (c4Call.2.vec.getD b default).component_bitfield.get k =
        if k = 1 then true
        else (c4StoreA.vec.getD 0 default).component_bitfield.get k) ∧
    (∀ a b, c4Call.1 = some (a, b) →
      ((b < c4StoreA.vec.length ∧
         c4Call.2.transitions = c4StoreA.transitions) ∨
       (b = c4StoreA.vec.length ∧
         c4Call.2.vec.length = c4StoreA.vec.length + 1 ∧
         c4Call.2.transitions =
           ((⟨0, ⟨1⟩, TransitionKind.add⟩ : ArchetypeTransition), b) ::
             c4StoreA.transitions))) :=
  @C4_transition_behavior qenvC c4StoreA ⟨0, ⟨1⟩, TransitionKind.add⟩
    (StoreReachable.createArchetype [⟨1⟩] 0 (by decide) StoreReachable.new)
    (by decide) c4Call.1 c4Call.2 rfl

/-- C8: on a registry whose store is reachable, for a live entity (the
handle's version matches the instance's) with a valid archetype,
`add_component::<T>` succeeds and returns false iff the entity's archetype
already has T's bit set in its component bitfield; and when it returns
false the registry is completely unchanged. -/
theorem C8_add_component_false_iff_present {qenv : Nat → QueryData}
    {r : EntityRegistryM} (hr : StoreReachable qenv r.store)
    {eIdx eVer : Nat} {c : CompT} {inst : EntityInstM}
    (hinst : r.instances.get? eIdx = some inst)
    (hver : eVer = inst.version)
    (harch : inst.archetype < r.store.vec.length) :
    (∃ b r2, EntityRegistryM.addComponent qenv r eIdx eVer c =
      .ok (b, r2)) ∧
    (∀ b r2, EntityRegistryM.addComponent qenv r eIdx eVer c =
      .ok (b, r2) →
      ((b = false ↔ (r.store.vec.getD inst.archetype
        default).component_bitfield.get c.id = true) ∧
       (b = false → r2 = r))) := by
  unfold EntityRegistryM.addComponent EntityRegistryM.applyArchetypeTransition
  rw [hinst]
  dsimp only
  rw [if_neg (by omega)]
  rcases hgt : r.store.getArchetypeTransition qenv
    ⟨inst.archetype, c, TransitionKind.add⟩ with ⟨res, store2⟩
  obtain ⟨_, hiff, hnone, hsome, _, _, _⟩ :=
    transition_spec (store_SWF hr) harch res store2 hgt
  cases res with
  | none =>
    dsimp only
    have hbit : (r.store.vec.getD inst.archetype
        default).component_bitfield.get c.id = true := hiff.mp rfl
    have hst : store2 = r.store := hnone rfl
    constructor
    · exact ⟨false, { r with store := store2 }, rfl⟩
    · intro b r2 h
      injection h with h1
      injection h1 with hb hr2
      subst hb
      subst hr2
      refine ⟨⟨fun _ => hbit, fun _ => rfl⟩, fun _ => ?_⟩
      rw [hst]
  | some v =>
    obtain ⟨srcIdx, dstIdx⟩ := v
    dsimp only
    constructor
    · exact ⟨true, _, rfl⟩
    · intro b r2 h
      injection h with h1
      injection h1 with hb hr2
      subst hb
      refine ⟨⟨fun hx => absurd hx (by simp),
        fun hg => absurd (hiff.mpr hg) (by simp)⟩,
        fun hx => absurd hx (by simp)⟩

/-- C8 witness: adding component 1 to the live entity of `c8Reg`, whose
archetype `{1}` already has it, succeeds with `false` and leaves the
registry unchanged. -/
theorem C8_add_component_false_iff_present_witness :
    (∃ b r2, EntityRegistryM.addComponent qenvC c8Reg 0 7 ⟨1⟩ =
      .ok (b, r2)) ∧
    (∀ b r2, EntityRegistryM.addComponent qenvC c8Reg 0 7 ⟨1⟩ =
      .ok (b, r2) →
      ((b = false ↔ (c8Reg.store.vec.getD 1
        default).component_bitfield.get 1 = true) ∧
       (b = false → r2 = c8Reg))) :=
  @C8_add_component_false_iff_present qenvC c8Reg
    (StoreReachable.createArchetype [⟨1⟩] 0 (by decide) StoreReachable.new)
    0 7 ⟨1⟩ ⟨0, 7, 1⟩ (by decide) rfl (by decide)

/-- C10: every reachable store keeps the empty archetype at index 0
(`Archetype::default()`): its component list is empty and its component
bitfield has no set bit; `create_archetype([])` always deduplicates to
index 0 without materializing; and `create_entity`, which takes slots from
`Archetype::default()` directly, never changes the number of archetypes. -/
theorem C10_default_archetype {qenv : Nat → QueryData} {s : ArchetypeStoreM}
    (hr : StoreReachable qenv s) :
    (s.vec.getD archetypeDefault default).components = [] ∧
    (∀ k, (s.vec.getD archetypeDefault default).component_bitfield.get k =
      false) ∧
    (∀ s2 idx, s.createArchetype qenv [] = (s2, idx) →
      idx = archetypeDefault ∧ s2.vec.length = s.vec.length) ∧
    (∀ es : EntityStoreM, ((es.createEntity).2).store.vec.length =
      es.store.vec.length) := by
  have hs := store_SWF hr
  have hget0 : ∀ k,
      (s.vec.getD 0 default).component_bitfield.get k = false := by
    intro k
    rw [(hs.instWF 0 hs.vlen).2.2 k, hs.vec0]
    simp [idsOf]
  refine ⟨hs.vec0, hget0, ?_, ?_⟩
  · intro s2 idx h
    have h2 : s.createArchetypeWithCapacity qenv [] 0 = (s2, idx) := h
    obtain ⟨_, _, _, _, _, hcbf, hdisj⟩ :=
      createArch_spec hs (by simp [idsOf]) s2 idx h2
    obtain ⟨p0, hp0, hp0i⟩ := hs.mapComplete 0 hs.vlen
    obtain ⟨hw0, _, hseq0⟩ := hs.mapWF p0 hp0
    rw [hp0i] at hseq0
    have hfold : ∀ k, (([] : List CompT).foldl
        (fun b t => b.set t.id true) s.bf.clear).get k = false := by
      intro k
      exact BitField.get_clear s.bf k
    have hbeq0 : p0.1.beq (([] : List CompT).foldl
        (fun b t => b.set t.id true) s.bf.clear) = true := by
      rw [BitField.beq_true_iff_seqEq hw0
        (foldl_set_WF (BitField.clear_WF s.bf))]
      intro k
      rw [hfold k, hseq0 k]
      exact hget0 k
    rcases hdisj with ⟨hlen, hsome⟩ | ⟨_, _, hnonemap⟩
    · obtain ⟨q, hq, hqbeq, hqi⟩ := lookupMap_some hsome
      obtain ⟨hwq, hq2, hseqq⟩ := hs.mapWF q hq
      rw [hqi] at hq2 hseqq
      have hseqIdx : ∀ k,
          (s.vec.getD idx default).component_bitfield.get k = false := by
        intro k
        rw [← hseqq k]
        have hq3 := (BitField.beq_true_iff_seqEq hwq
          (foldl_set_WF (BitField.clear_WF s.bf))).mp hqbeq k
        rw [hq3, hfold k]
      have hidx0 : idx = 0 := hs.archUnique idx 0 hq2 hs.vlen
        (fun k => by rw [hseqIdx k, hget0 k])
      exact ⟨hidx0, hlen⟩
    · exfalso
      have hno := lookupMap_none hnonemap p0 hp0
      rw [hbeq0] at hno
      cases hno
  · intro es
    unfold EntityStoreM.createEntity EntityStoreM.createEntityFromArchetype
      EntityStoreM.setInstance EntityStoreM.reserveEntitySpace
    dsimp only
    rcases halloc : es.allocator.tryAllocate 1 with e | ⟨r0, alloc⟩
    · dsimp only
      exact List.length_set _ _ _
    · dsimp only
      exact List.length_set _ _ _

/-- C10 witness: the invariant at the freshly constructed store. -/
theorem C10_default_archetype_witness :
    (ArchetypeStoreM.new.vec.getD archetypeDefault default).components =
      [] ∧
    (∀ k, (ArchetypeStoreM.new.vec.getD archetypeDefault
      default).component_bitfield.get k = false) ∧
    (∀ s2 idx, ArchetypeStoreM.new.createArchetype qenvC [] = (s2, idx) →
      idx = archetypeDefault ∧
      s2.vec.length = ArchetypeStoreM.new.vec.length) ∧
    (∀ es : EntityStoreM, ((es.createEntity).2).store.vec.length =
      es.store.vec.length) :=
  @C10_default_archetype qenvC ArchetypeStoreM.new StoreReachable.new

/-- C9: two BitFields with 32-bit words (as the `u32` backing guarantees)
are equal under the source's `PartialEq` iff they encode the same infinite
bit sequence — trailing all-zero words are invisible — and equal BitFields
feed the hasher the same word stream. -/
theorem C9_eq_iff_same_sequence_and_hash (a b : BitField)
    (ha : a.WFwords) (hb : b.WFwords) :
    (a.beq b = true ↔ ∀ i, a.get i = b.get i) ∧
    (a.beq b = true → a.hashWords = b.hashWords) := by
  refine ⟨⟨fun h => ?_, fun h => ?_⟩, fun h => ?_⟩
  · exact BitField.seqEq_of_wordAt (BitField.beq_iff_wordAt.mp h)
  · exact BitField.beq_iff_wordAt.mpr (BitField.wordAt_eq_of_seqEq ha hb h)
  · exact BitField.hashWords_congr (BitField.beq_iff_wordAt.mp h)

/-- Witness for C9 at the concrete pair `[5, 0]` / `[5]` (equal sequences,
differing only in a trailing zero word). -/
theorem C9_eq_iff_same_sequence_and_hash_witness :
    BitField.WFwords ⟨[5, 0]⟩ ∧ BitField.WFwords ⟨[5]⟩ ∧
    ((BitField.beq ⟨[5, 0]⟩ ⟨[5]⟩ = true ↔
        ∀ i, BitField.get ⟨[5, 0]⟩ i = BitField.get ⟨[5]⟩ i) ∧
      (BitField.beq ⟨[5, 0]⟩ ⟨[5]⟩ = true →
        BitField.hashWords ⟨[5, 0]⟩ = BitField.hashWords ⟨[5]⟩)) :=
  ⟨by decide, by decide,
    C9_eq_iff_same_sequence_and_hash _ _ (by decide) (by decide)⟩

/-- A BitField with bits 30 and 40 set and nothing else
(`set(30, true); set(40, true)` from new): word 0 is `1 <<< 1`, word 1 is
`1 <<< 23`. -/
def bits30and40 : BitField := (BitField.new.set 30 true).set 40 true

/-- C1: the claim states `a.is_subset_of(b)` is true iff every set bit of
`a` is set in `b`, and true when both are empty.  The code disagrees on
both counts: it returns false when both BitFields are empty, and it returns
true for `a` = bits {0, 32}, `b` = bits {0} even though bit 32 of `a` is
not set in `b` (the per-word test is an `any`, and the zip drops `a`'s
second word). -/
theorem C1_is_subset_of_diverges :
    BitField.isSubsetOf ⟨[]⟩ ⟨[]⟩ = false ∧
    BitField.isSubsetOf ⟨[2 ^ 31, 2 ^ 31]⟩ ⟨[2 ^ 31]⟩ = true ∧
    BitField.get ⟨[2 ^ 31, 2 ^ 31]⟩ 32 = true ∧
    BitField.get ⟨[2 ^ 31]⟩ 32 = false := by
  exact ⟨by decide, by decide, by decide, by decide⟩

/-- C3: the claim states `iter_ranges` yields every maximal run of set bits.
On the BitField with exactly bits 30 and 40 set, the iterator yields only
`[30, 31)` and omits the run `[40, 41)`: after a run whose first clear bit
is bit 31 of a word, `sub_index` becomes 32 and the next `find_first_bit`
hits the `overflowing_shr` guard, ending the whole iteration. -/
theorem C3_iter_ranges_omits_final_run :
    bits30and40 = ⟨[2, 2 ^ 23]⟩ ∧
    bits30and40.get 30 = true ∧
    bits30and40.get 40 = true ∧
    BitField.iterRanges bits30and40 = [(30, 31)] := by
  exact ⟨by decide, by decide, by decide, by decide⟩

/-- The entity-store state after creating 41 entities in the default (empty)
archetype: entities occupy instance indices 0..41 with version 1. -/
def c5Created : List (Nat × Nat) × EntityStoreM :=
  EntityStoreM.new.createEntitiesFromArchetype 0 41

/-- The entity-store state after `destroy_entities([e30, e40])` on
`c5Created` (the destroy succeeds, as proved in the C5 theorem). -/
def c5After : EntityStoreM :=
  (c5Created.2.destroyEntities [(30, 1), (40, 1)]).toOption.getD c5Created.2

/-- Generic evaluation of `get_component` on a valid handle whose archetype
has no column for the requested type. -/
theorem getComponent_ok_none (s : EntityStoreM) (e : Nat × Nat) (tid : Nat)
    (h1 : s.versions.get? e.1 = some e.2)
    (h2 : (s.store.vec.getD (s.archetypes.getD e.1 0) default).buffers = []) :
    s.getComponent e tid = .ok none := by
  unfold EntityStoreM.getComponent
  rw [h1]
  simp only [ArchetypeInstanceM.getComponent]
  rw [if_neg, if_neg]
  · rw [h2]; exact List.not_mem_nil tid
  · simp

/-- C5: the claim states that destroying a live entity makes every
subsequent `get_component` on it panic, the version having been bumped.
Counter-evaluation: create 41 entities `e0..e40` (all live, version 1) in
the default archetype and call `destroy_entities([e30, e40])`.  The destroy
succeeds, but the version-bump loop walks the seen-index bitfield with
`iter_ranges`, which stops after the run `[30, 31)` (its first clear bit is
bit 31 of word 0), so `e40`'s version stays 1; `get_component(e40)` then
passes the version assertion and returns normally (here `None`, the empty
archetype having no columns) instead of panicking — for every component
type.  `e30`, whose version was bumped to 2, panics as the claim expects. -/
theorem C5_destroyed_entity_get_component_no_panic :
    c5Created.1.getD 40 (0, 0) = (40, 1) ∧
    c5Created.2.versions.getD 40 0 = 1 ∧
    c5Created.2.destroyEntities [(30, 1), (40, 1)] = .ok c5After ∧
    c5After.versions.getD 30 0 = 2 ∧
    c5After.versions.getD 40 0 = 1 ∧
    (∀ tid, c5After.getComponent (40, 1) tid = .ok none) ∧
    c5After.getComponent (30, 1) 0 = .error () := by
  refine ⟨by decide, by decide, by decide, by decide, by decide, ?_, by decide⟩
  intro tid
  exact getComponent_ok_none _ _ _ (by decide) (by decide)

end TurboECS
